import Mathlib

/-!
# A shallow embedding of `calccrypto/tar` (`src/tar.c`, `src/main.c`)

Bytes are natural numbers below 256, C `unsigned int` values are natural numbers
reduced modulo `2 ^ 32`, C `int` values are integers.  A `struct tar_t` is its
512-byte `block` (the union of all header fields) together with the two
in-memory fields `original_name` and `begin`; the `next` pointer of the linked
list is the tail of a Lean list.  An open descriptor on a regular file is the
byte content of the file together with the current offset.
-/

set_option autoImplicit false

namespace Tar

/-! ## Constants of `tar.h` -/

/-- Modelled from the spec: `tar.h` is missing; a block is 512 bytes (§3.3). -/
def BLOCKSIZE : Nat := 512

/-- Modelled from the spec: `tar.h` is missing; a record is 20 blocks, 10240 bytes (§3.3). -/
def RECORDSIZE : Nat := 10240

/-- Modelled from the spec: `tar.h` is missing; type flag of a regular file, NUL (§3.1). -/
def REGULAR : Nat := 0
/-- Modelled from the spec: `tar.h` is missing; type flag `'0'` (§3.1). -/
def NORMAL : Nat := 48
/-- Modelled from the spec: `tar.h` is missing; type flag `'1'` (§3.1). -/
def HARDLINK : Nat := 49
/-- Modelled from the spec: `tar.h` is missing; type flag `'2'` (§3.1). -/
def SYMLINK : Nat := 50
/-- Modelled from the spec: `tar.h` is missing; type flag `'3'` (§3.1). -/
def CHAR : Nat := 51
/-- Modelled from the spec: `tar.h` is missing; type flag `'4'` (§3.1). -/
def BLOCK : Nat := 52
/-- Modelled from the spec: `tar.h` is missing; type flag `'5'` (§3.1). -/
def DIRECTORY : Nat := 53
/-- Modelled from the spec: `tar.h` is missing; type flag `'6'` (§3.1). -/
def FIFO : Nat := 54
/-- Modelled from the spec: `tar.h` is missing; type flag `'7'` (§3.1). -/
def CONTIGUOUS : Nat := 55

/-- Modelled from the spec: `tar.h` is missing; offset of `name` in the block (§6.1). -/
def off_name : Nat := 0
/-- Modelled from the spec: `tar.h` is missing; offset of `mode` in the block (§6.1). -/
def off_mode : Nat := 100
/-- Modelled from the spec: `tar.h` is missing; offset of `uid` in the block (§6.1). -/
def off_uid : Nat := 108
/-- Modelled from the spec: `tar.h` is missing; offset of `gid` in the block (§6.1). -/
def off_gid : Nat := 116
/-- Modelled from the spec: `tar.h` is missing; offset of `size` in the block (§6.1). -/
def off_size : Nat := 124
/-- Modelled from the spec: `tar.h` is missing; offset of `mtime` in the block (§6.1). -/
def off_mtime : Nat := 136
/-- Modelled from the spec: `tar.h` is missing; offset of `check` in the block (§6.1). -/
def off_check : Nat := 148
/-- Modelled from the spec: `tar.h` is missing; offset of `type` in the block (§6.1). -/
def off_type : Nat := 156
/-- Modelled from the spec: `tar.h` is missing; offset of `link_name` in the block (§6.1). -/
def off_link_name : Nat := 157
/-- Modelled from the spec: `tar.h` is missing; offset of the 8-byte `ustar` magic (§6.1). -/
def off_ustar : Nat := 257
/-- Modelled from the spec: `tar.h` is missing; offset of `owner` in the block (§6.1). -/
def off_owner : Nat := 265
/-- Modelled from the spec: `tar.h` is missing; offset of `group` in the block (§6.1). -/
def off_group : Nat := 297
/-- Modelled from the spec: `tar.h` is missing; offset of `major` in the block (§6.1). -/
def off_major : Nat := 329
/-- Modelled from the spec: `tar.h` is missing; offset of `minor` in the block (§6.1). -/
def off_minor : Nat := 337
/-- Modelled from the spec: `tar.h` is missing; offset of `prefix` in the block (§6.1). -/
def off_prefix : Nat := 345

/-- The modulus of `unsigned int` arithmetic. -/
def U32 : Nat := 2 ^ 32

/-! ## Memory and C strings -/

/-- An entry of the in-memory list: `struct tar_t` without its `next` pointer. -/
structure tar_t where
  original_name : List Nat
  begin : Nat
  block : List Nat
deriving DecidableEq

/-- Store the bytes `bs` into `mem` from offset `off` on (stores past the end of
`mem` are dropped). -/
def poke (mem : List Nat) (off : Nat) (bs : List Nat) : List Nat :=
  mem.take off ++ bs.take (mem.length - off) ++ mem.drop (off + bs.length)

/-- The byte at offset `i`. -/
def peek (mem : List Nat) (i : Nat) : Nat := mem.getD i 0

/-- The `n` bytes of `mem` from offset `off` on: the content of a field. -/
def slice (mem : List Nat) (off n : Nat) : List Nat := (mem.drop off).take n

/-- The C string at the start of `mem`: the bytes up to the first NUL (reading
stops at the end of the modelled memory). -/
def cstr (mem : List Nat) : List Nat := mem.takeWhile (fun b => b != 0)

/-- Embedding of `strlen`. -/
def strlen (mem : List Nat) : Nat := (cstr mem).length

/-- Embedding of `strncmp(a, b, n) == 0`: the two memories are compared byte by
byte over at most `n` bytes and up to the first NUL; a C string argument is given
without its terminator, so reading past the end of a list reads the NUL. -/
def strncmp_eq0 : List Nat → List Nat → Nat → Bool
  | _, _, 0 => true
  | a, b, n + 1 =>
      if a.headD 0 ≠ b.headD 0 then false
      else if a.headD 0 = 0 then true
      else strncmp_eq0 a.tail b.tail n

/-- The `n` bytes stored by `strncpy(dst, src, n)` for the C string `src`: the
string cut at `n` bytes and NUL-filled up to `n` bytes. -/
def strncpy (src : List Nat) (n : Nat) : List Nat :=
  src.take n ++ List.replicate (n - src.length) 0

/-- The value of a byte read through a (signed) `char`. -/
def charVal (b : Nat) : Int :=
  if b % 256 < 128 then ((b % 256 : Nat) : Int) else ((b % 256 : Nat) : Int) - 256

/-! ## `oct2uint` -/

/-- The loop of `oct2uint`: `out = (out << 3) | (unsigned int) (oct[i++] - '0')`
while `i < size` and `oct[i]` is not NUL. -/
def oct2uint_loop : List Nat → Nat → Nat → Nat
  | [], _, out => out
  | _ :: _, 0, out => out
  | c :: cs, size + 1, out =>
      if c = 0 then out
      else oct2uint_loop cs size
        (((out <<< 3) % U32) ||| ((charVal c - 48) % (U32 : Int)).toNat)

/-- Embedding of `oct2uint(oct, size)`; `oct` is the memory from the pointer on. -/
def oct2uint (oct : List Nat) (size : Nat) : Nat := oct2uint_loop oct size 0

/-! ## `sprintf` with `%0wo` -/

/-- The octal digits of `n`, most significant first, as ASCII bytes. -/
def octDigitsAux : Nat → Nat → List Nat → List Nat
  | 0, _, acc => acc
  | fuel + 1, n, acc =>
      if n < 8 then (48 + n) :: acc
      else octDigitsAux fuel (n / 8) ((48 + n % 8) :: acc)

/-- The octal digits of `n` (at least one digit). -/
def octDigits (n : Nat) : List Nat := octDigitsAux (n + 1) n []

/-- The bytes stored by `sprintf(dst, "%0wo", v)` for an `unsigned int` argument:
the octal digits of `v`, zero-padded on the left to at least `w` digits, and the
terminating NUL. -/
def sprintf_o (w : Nat) (v : Nat) : List Nat :=
  List.replicate (w - (octDigits (v % U32)).length) 48 ++ octDigits (v % U32) ++ [0]

/-! ## `calculate_checksum` -/

/-- The summing loop of `calculate_checksum` over the first 500 bytes. -/
def checksum_loop (block : List Nat) : Nat :=
  (block.take 500).foldl (fun check b => (check + b % 256) % U32) 0

/-- Embedding of `calculate_checksum`: the updated entry and the returned sum. -/
def calculate_checksum (entry : tar_t) : tar_t × Nat :=
  let b1 := poke entry.block off_check (List.replicate 8 32)
  let check := checksum_loop b1
  let b2 := poke b1 off_check (sprintf_o 6 check)
  let b3 := poke b2 (off_check + 6) [0]
  let b4 := poke b3 (off_check + 7) [32]
  ({ entry with block := b4 }, check)

/-- The `w` low-order octal digits of `v`, most significant first, as ASCII bytes. -/
def fixedOct : Nat → Nat → List Nat
  | 0, _ => []
  | w + 1, v => fixedOct w (v / 8) ++ [48 + v % 8]

/-- One step of the `oct2uint` loop on the byte `c`. -/
def octStep (out c : Nat) : Nat :=
  ((out <<< 3) % U32) ||| ((charVal c - 48) % (U32 : Int)).toNat

/-! ## Machine integers -/

/-- The `int` with the bit pattern of the `unsigned int` value `u`. -/
def toInt32 (u : Nat) : Int :=
  if u % U32 < 2 ^ 31 then ((u % U32 : Nat) : Int) else ((u % U32 : Nat) : Int) - (U32 : Int)

/-- The `unsigned int` with the bit pattern of the integer `i`. -/
def toUInt32 (i : Int) : Nat := (i % (U32 : Int)).toNat

/-! ## Descriptors on regular files -/

/-- An open descriptor on a regular file: the bytes of the file and the offset. -/
structure fd_t where
  data : List Nat
  pos : Nat
deriving DecidableEq

/-- The system call `read(fd, buf, count)` on a regular file: the bytes between
the offset and the end of the file, at most `count` of them. -/
def sys_read (fd : fd_t) (count : Nat) : List Nat × fd_t :=
  let bs := (fd.data.drop fd.pos).take count
  (bs, { fd with pos := fd.pos + bs.length })

/-- The loop of `read_size`: read until `size` bytes are there or `read` returns
nothing. -/
def read_size_loop : Nat → fd_t → Nat → List Nat → List Nat × fd_t
  | 0, fd, _, buf => (buf, fd)
  | fuel + 1, fd, size, buf =>
      if buf.length < size then
        let r := sys_read fd (size - buf.length)
        if 0 < r.1.length then read_size_loop fuel r.2 size (buf ++ r.1) else (buf, r.2)
      else (buf, fd)

/-- Embedding of `read_size(fd, buf, size)`: the bytes read (their number is the
returned `got`) and the descriptor afterwards. -/
def read_size (fd : fd_t) (size : Nat) : List Nat × fd_t :=
  read_size_loop (size + 1) fd size []

/-- The system call `write(fd, buf, n)` on a regular file: the bytes replace the
content from the offset on, a gap past the end of the file reads as zero bytes. -/
def sys_write (fd : fd_t) (buf : List Nat) : fd_t :=
  { data := (fd.data ++ List.replicate (fd.pos - fd.data.length) 0).take fd.pos ++ buf ++
      fd.data.drop (fd.pos + buf.length),
    pos := fd.pos + buf.length }

/-- Embedding of `write_size(fd, buf, size)`; a write to a regular file is taken
to complete, so the loop runs once. -/
def write_size (fd : fd_t) (buf : List Nat) : fd_t := sys_write fd buf

/-- The call `lseek(fd, off, SEEK_SET)`. -/
def lseek_set (fd : fd_t) (off : Nat) : fd_t := { fd with pos := off }

/-- The call `lseek(fd, off, SEEK_CUR)` with a non-negative `off`. -/
def lseek_cur (fd : fd_t) (off : Nat) : fd_t := { fd with pos := fd.pos + off }

/-- The call `ftruncate(fd, len)`: cut the file, or extend it with zero bytes. -/
def ftruncate (fd : fd_t) (len : Nat) : fd_t :=
  { fd with data := fd.data.take len ++ List.replicate (len - fd.data.length) 0 }

/-- Embedding of `iszeroed(buf, size)`. -/
def iszeroed (buf : List Nat) (size : Nat) : Bool :=
  (List.range size).all (fun i => peek buf i == 0)

/-! ## Header fields -/

/-- The `type` byte of an entry. -/
def type_of (e : tar_t) : Nat := peek e.block off_type

/-- The test `type == REGULAR || type == NORMAL || type == CONTIGUOUS`. -/
def is_file_type (t : Nat) : Bool := t == REGULAR || t == NORMAL || t == CONTIGUOUS

/-- The call `oct2uint(entry -> size, 11)`. -/
def size_of (e : tar_t) : Nat := oct2uint (e.block.drop off_size) 11

/-! ## `tar_read` -/

/-- The result of `tar_read`: the returned value, the list and the descriptor. -/
structure read_result where
  ret : Int
  archive : List tar_t
  fd : fd_t
deriving DecidableEq

/-- The payload span `tar_read` skips after a header: the size rounded up to a
multiple of 512 in `unsigned int` arithmetic. -/
def read_jump (e : tar_t) : Nat :=
  let jump := size_of e
  if jump % 512 ≠ 0 then (jump + (512 - jump % 512)) % U32 else jump

/-- The loop of `tar_read`.  `heap n` is the content of the node `malloc` returns
in iteration `n`; `acc` is the list built so far; `none` when the fuel runs out. -/
def tar_read_loop (heap : Nat → tar_t) :
    Nat → fd_t → Nat → Nat → Bool → List tar_t → Option read_result
  | 0, _, _, _, _, _ => none
  | fuel + 1, fd, offset, count, update, acc =>
      let node := heap count
      let r1 := if update then read_size fd 512 else (node.block, fd)
      if update && r1.1.length != 512 then
        some { ret := count, archive := acc, fd := r1.2 }
      else
        if iszeroed r1.1 512 then
          let r2 := read_size r1.2 512
          if r2.1.length != 512 then
            some { ret := count, archive := acc, fd := r2.2 }
          else if iszeroed r2.1 512 then
            some { ret := count, archive := acc,
                   fd := lseek_cur r2.2 (RECORDSIZE - offset % RECORDSIZE) }
          else
            let e : tar_t := { node with block := r2.1, begin := offset }
            tar_read_loop heap fuel (lseek_cur r2.2 (read_jump e))
              ((offset + (512 + read_jump e) % U32) % U32) (count + 1) false (acc ++ [e])
        else
          let e : tar_t := { node with block := r1.1, begin := offset }
          tar_read_loop heap fuel (lseek_cur r1.2 (read_jump e))
            ((offset + (512 + read_jump e) % U32) % U32) (count + 1) true (acc ++ [e])

/-- Embedding of `tar_read(fd, archive, verbosity)` for a valid descriptor and an
empty list.  Every iteration but one that follows a lone zero block reads 512
bytes, so `2 * (length / 512) + 3` iterations are enough. -/
def tar_read (heap : Nat → tar_t) (fd : fd_t) : Option read_result :=
  tar_read_loop heap (2 * (fd.data.length / 512) + 3) fd 0 0 true []

/-! ## `write_end_data` -/

/-- Embedding of `write_end_data(fd, size, verbosity)` for a valid descriptor: the
returned value and the descriptor afterwards. -/
def write_end_data (fd : fd_t) (size : Int) : Int × fd_t :=
  let pad : Int := (RECORDSIZE : Int) - size.tmod (RECORDSIZE : Int)
  let fd1 := write_size fd (List.replicate pad.toNat 0)
  if pad < 2 * (BLOCKSIZE : Int) then
    (pad + (RECORDSIZE : Int), write_size fd1 (List.replicate RECORDSIZE 0))
  else (pad, fd1)

/-! ## `exists` and `check_match` -/

/-- Embedding of `exists(archive, filename, ori)`: the index of the first node
whose `original_name` (`ori` set) or `name` compares equal to `filename`. -/
def «exists» (archive : List tar_t) (filename : List Nat) (ori : Bool) : Option Nat :=
  let i := archive.findIdx (fun e =>
    if ori then
      strncmp_eq0 e.original_name filename (max (strlen e.original_name) (strlen filename) + 1)
    else
      strncmp_eq0 e.block filename (max (strlen e.block) (strlen filename) + 1))
  if i < archive.length then some i else none

/-- The loop of `check_match` from index `i` on. -/
def check_match_loop (entry : tar_t) : Nat → List Bool → List (List Nat) → Int
  | _, _, [] => 0
  | i, bad, f :: fs =>
      if !(bad.headD false) &&
          strncmp_eq0 entry.block f (max (strlen entry.block) (strlen f) + 1) then
        (i : Int) + 1
      else check_match_loop entry (i + 1) bad.tail fs

/-- Embedding of `check_match(entry, filecount, bad, files)` for a non-null entry. -/
def check_match (entry : tar_t) (bad : List Bool) (files : List (List Nat)) : Int :=
  check_match_loop entry 0 bad files

/-! ## `tar_remove` -/

/-- The result of `tar_remove`; `aborted` records that the value was returned from
inside the loop, after a failed read. -/
structure remove_result where
  ret : Int
  archive : List tar_t
  fd : fd_t
  aborted : Bool
deriving DecidableEq

/-- The `int total` that `tar_remove` computes for an entry. -/
def remove_total (curr : tar_t) : Int :=
  if is_file_type (type_of curr) then
    let t1 := toInt32 (toUInt32 512 + size_of curr)
    if t1.tmod 512 ≠ 0 then toInt32 (toUInt32 (t1 + (512 - t1.tmod 512))) else t1
  else 512

/-- The inner loop of `tar_remove`, which moves one entry block by block; `none`
when a read does not return 512 bytes. -/
def remove_copy : Nat → fd_t → Int → Int → Nat → Nat → Option (fd_t × Nat × Nat)
  | 0, fd, _, _, read_offset, write_offset => some (fd, read_offset, write_offset)
  | fuel + 1, fd, got, total, read_offset, write_offset =>
      if got < total then
        let r := read_size (lseek_set fd read_offset) 512
        if r.1.length != 512 then none
        else
          remove_copy fuel (write_size (lseek_set r.2 write_offset) r.1) (got + 512) total
            ((read_offset + 512) % U32) ((write_offset + 512) % U32)
      else some (fd, read_offset, write_offset)

/-- The state `tar_remove` leaves its loop with. -/
structure remove_state where
  fd : fd_t
  read_offset : Nat
  write_offset : Nat
  archive : List tar_t
  aborted : Bool
deriving DecidableEq

/-- The node `curr` with the `begin` stored into it when the entry before it was
unlinked, if one was. -/
def fix_begin (fix : Option Nat) (node : tar_t) : tar_t :=
  match fix with
  | some b => { node with begin := b }
  | none => node

/-- The main loop of `tar_remove`: `kept` are the entries passed so far that stay
in the list (`prev` is the last of them), the last argument is the list from `curr`
on, and `fix` is the value stored into `curr -> begin` when the entry before `curr`
was unlinked. -/
def tar_remove_loop (bad : List Bool) (files : List (List Nat)) :
    fd_t → Nat → Nat → List tar_t → Option Nat → List tar_t → remove_state
  | fd, read_offset, write_offset, kept, _, [] =>
      { fd := fd, read_offset := read_offset, write_offset := write_offset,
        archive := kept, aborted := false }
  | fd, read_offset, write_offset, kept, fix, node :: rest =>
      let curr := fix_begin fix node
      let total := remove_total curr
      let «match» := check_match curr bad files
      if «match» < 0 then
        { fd := fd, read_offset := read_offset, write_offset := write_offset,
          archive := kept ++ curr :: rest, aborted := true }
      else if «match» = 0 then
        if write_offset < read_offset then
          match remove_copy total.toNat fd 0 total read_offset write_offset with
          | none =>
              { fd := fd, read_offset := read_offset, write_offset := write_offset,
                archive := kept ++ curr :: rest, aborted := true }
          | some (fd1, r1, w1) =>
              tar_remove_loop bad files fd1 r1 w1 (kept ++ [curr]) none rest
        else
          let r1 := toUInt32 ((read_offset : Int) + total)
          let w1 := toUInt32 ((write_offset : Int) + total)
          tar_remove_loop bad files (lseek_set fd r1) r1 w1 (kept ++ [curr]) none rest
      else
        tar_remove_loop bad files fd (toUInt32 ((read_offset : Int) + total)) write_offset
          kept (some (if kept.isEmpty then 0 else curr.begin)) rest

/-- Embedding of `tar_remove(fd, archive, filecount, files, verbosity)` for a valid
descriptor and non-null arguments. -/
def tar_remove (fd : fd_t) (archive : List tar_t) (files : List (List Nat)) : remove_result :=
  if archive.isEmpty then { ret := -1, archive := archive, fd := fd, aborted := false }
  else if files.isEmpty then { ret := 0, archive := archive, fd := fd, aborted := false }
  else
    let fd0 := lseek_set fd 0
    let bad := files.map (fun f => («exists» archive f false).isNone)
    let ret : Int := if bad.any id then -1 else 0
    let st := tar_remove_loop bad files fd0 0 0 [] none archive
    if st.aborted then { ret := -1, archive := st.archive, fd := st.fd, aborted := true }
    else
      let fd1 := ftruncate st.fd st.write_offset
      let fd2 := (write_end_data fd1 (toInt32 st.write_offset)).2
      { ret := ret, archive := st.archive, fd := fd2, aborted := false }

/-! ## `extract_entry` -/

/-- Modelled from the spec: `tar.h` is missing; `DEFAULT_DIR_MODE` is 0755 (§4.7). -/
def DEFAULT_DIR_MODE : Nat := 0o755

/-- The value of `errno` for "file exists". -/
def EEXIST : Nat := 17

/-- The `S_IFCHR` bit of `sys/stat.h`. -/
def S_IFCHR : Nat := 0o020000
/-- The `S_IFBLK` bits of `sys/stat.h`. -/
def S_IFBLK : Nat := 0o060000

/-- The calls by which `extract_entry` changes the file system. -/
inductive fs_call where
  | mkdir (path : List Nat) (mode : Nat)
  | open_create (path : List Nat) (mode : Nat)
  | link (target path : List Nat)
  | symlink (target path : List Nat)
  | mknod (path : List Nat) (mode dev : Nat)
  | mkfifo (path : List Nat) (mode : Nat)
deriving DecidableEq

/-- The file system as `extract_entry` sees it: for every call, `none` when it
succeeds and the value of `errno` when it fails. -/
structure extract_env where
  errno_of : fs_call → Option Nat

/-- The test of `EXIST_ERROR` after a failed call: the function returns `-1`
unless `errno` is `EEXIST`. -/
def exist_error (e : Option Nat) : Bool :=
  match e with
  | none => false
  | some rc => rc != EEXIST

/-- The loop `while (--len && (path[len] != '/'));` of `extract_entry`, entered
with `len` one more than the first argument. -/
def parent_len : Nat → List Nat → Nat
  | 0, _ => 0
  | len + 1, path => if peek path (len + 1) = 47 then len + 1 else parent_len len path

/-- The directories `recursive_mkdir` passes to `mkdir` before the last one: the
prefixes of `path` that end before a `'/'` at an index from 1 on. -/
def mkdir_prefixes (path : List Nat) : List (List Nat) :=
  ((List.range path.length).filter (fun i => 0 < i && peek path i == 47)).map
    (fun i => path.take i)

/-- The loop of `recursive_mkdir` over the intermediate directories. -/
def recursive_mkdir_loop (env : extract_env) (mode : Nat) : List (List Nat) → Bool
  | [] => true
  | p :: ps =>
      if exist_error (env.errno_of (fs_call.mkdir p mode)) then false
      else recursive_mkdir_loop env mode ps

/-- Embedding of `recursive_mkdir(dir, mode, verbosity)`. -/
def recursive_mkdir (env : extract_env) (dir : List Nat) (mode : Nat) : Int :=
  let len := dir.length
  if len = 0 then 0
  else
    let path := if peek dir (len - 1) = 47 then dir.take (len - 1) else dir
    let m := if mode ≠ 0 then mode else DEFAULT_DIR_MODE
    if !recursive_mkdir_loop env m (mkdir_prefixes path) then -1
    else if exist_error (env.errno_of (fs_call.mkdir path m)) then -1
    else 0

/-- The result of `extract_entry`: the returned value, the archive descriptor and
the chunks passed to `write` on the output file, in order. -/
structure extract_result where
  ret : Int
  fd : fd_t
  written : List (List Nat)
deriving DecidableEq

/-- The payload loop of `extract_entry`: `got` is the bit pattern of the `int`
counter; `none` when the fuel runs out (the loop has no other exit than
`got >= size`). -/
def extract_copy : Nat → fd_t → Nat → Nat → List (List Nat) → Option (fd_t × List (List Nat))
  | 0, _, _, _, _ => none
  | fuel + 1, fd, size, got, written =>
      if got < size then
        let n := (size + U32 - got) % U32
        let r := read_size fd (if n < 512 then n else 512)
        extract_copy fuel r.2 size ((got + r.1.length) % U32) (written ++ [r.1])
      else some (fd, written)

/-- Embedding of `extract_entry(fd, entry, verbosity)`; `fuel` bounds the number of
iterations of the payload loop. -/
def extract_entry (env : extract_env) (fuel : Nat) (fd : fd_t) (entry : tar_t) :
    Option extract_result :=
  let name := cstr entry.block
  let t := type_of entry
  let mode := oct2uint (entry.block.drop off_mode) 7
  let dev := ((oct2uint (entry.block.drop off_major) 7 <<< 20) % U32) |||
    oct2uint (entry.block.drop off_minor) 7
  let link_name := cstr (entry.block.drop off_link_name)
  if is_file_type t then
    let len := name.length
    if len = 0 then some { ret := -1, fd := fd, written := [] }
    else
      let path := name.take (parent_len (len - 1) name)
      if recursive_mkdir env path DEFAULT_DIR_MODE < 0 then
        some { ret := -1, fd := fd, written := [] }
      else
        let size := oct2uint (entry.block.drop off_size) 11
        if (env.errno_of (fs_call.open_create name (mode &&& 0o777))).isSome then
          some { ret := -1, fd := fd, written := [] }
        else
          match extract_copy fuel (lseek_set fd ((512 + entry.begin) % U32)) size 0 [] with
          | none => none
          | some (fd1, written) => some { ret := 0, fd := fd1, written := written }
  else if t = HARDLINK then
    some { ret := if exist_error (env.errno_of (fs_call.link link_name name)) then -1 else 0,
           fd := fd, written := [] }
  else if t = SYMLINK then
    some { ret := if exist_error (env.errno_of (fs_call.symlink link_name name)) then -1 else 0,
           fd := fd, written := [] }
  else if t = CHAR then
    some { ret := if exist_error (env.errno_of
             (fs_call.mknod name (S_IFCHR ||| (mode &&& 0o777)) dev)) then -1 else 0,
           fd := fd, written := [] }
  else if t = BLOCK then
    some { ret := if exist_error (env.errno_of
             (fs_call.mknod name (S_IFBLK ||| (mode &&& 0o777)) dev)) then -1 else 0,
           fd := fd, written := [] }
  else if t = DIRECTORY then
    some { ret := if recursive_mkdir env name (mode &&& 0o777) < 0 then -1 else 0,
           fd := fd, written := [] }
  else if t = FIFO then
    some { ret := if exist_error (env.errno_of (fs_call.mkfifo name (mode &&& 0o777))) then -1
             else 0,
           fd := fd, written := [] }
  else some { ret := 0, fd := fd, written := [] }

/-! ## The file system seen by `format_tar_data` and `write_entries` -/

/-- The fields of `struct stat` that `format_tar_data` reads; `dev_major` and
`dev_minor` are `major(st.st_dev)` and `minor(st.st_dev)`. -/
structure stat_t where
  st_mode : Nat
  st_uid : Nat
  st_gid : Nat
  st_size : Nat
  st_mtime : Nat
  dev_major : Nat
  dev_minor : Nat
deriving DecidableEq

/-- The answers of the system to the calls of the marshaller.  Paths are C strings
without their terminator; `none` is a failed call. -/
structure fs_t where
  lstat : List Nat → Option stat_t
  readlink : List Nat → Option (List Nat)
  readdir : List Nat → Option (List (List Nat))
  open_read : List Nat → Option (List Nat)
  getlogin : Option (List Nat)
  getgrgid : Nat → Option (List Nat)

/-- The mask `S_IFMT` of `sys/stat.h`. -/
def S_IFMT : Nat := 0o170000
/-- The file type `S_IFREG` of `sys/stat.h`. -/
def S_IFREG : Nat := 0o100000
/-- The file type `S_IFLNK` of `sys/stat.h`. -/
def S_IFLNK : Nat := 0o120000
/-- The file type `S_IFDIR` of `sys/stat.h`. -/
def S_IFDIR : Nat := 0o040000
/-- The file type `S_IFIFO` of `sys/stat.h`. -/
def S_IFIFO : Nat := 0o010000

/-! ## `format_tar_data` -/

/-- The number of bytes `format_tar_data` skips at the start of the path. -/
def strip_move (filename : List Nat) : Nat :=
  if strncmp_eq0 filename [47] 1 then 1
  else if strncmp_eq0 filename [46, 47] 2 then 2
  else if strncmp_eq0 filename [46, 46, 47] 3 then 3
  else 0

/-- The block after the stores of `format_tar_data` that do not depend on the file
type: name, mode, uid, gid, size, mtime, the default group and the magic. -/
def format_common (st : stat_t) (filename : List Nat) : List Nat :=
  let b0 := List.replicate 512 0
  let b1 := poke b0 off_name (strncpy (filename.drop (strip_move filename)) 100)
  let b2 := poke b1 off_mode (sprintf_o 7 (st.st_mode &&& 0o777))
  let b3 := poke b2 off_uid (sprintf_o 7 st.st_uid)
  let b4 := poke b3 off_gid (sprintf_o 7 st.st_gid)
  let b5 := poke b4 off_size (sprintf_o 11 st.st_size)
  let b6 := poke b5 off_mtime (sprintf_o 11 st.st_mtime)
  let b7 := poke b6 off_group [78, 111, 110, 101]
  poke b7 off_ustar [117, 115, 116, 97, 114, 0, 48, 48]

/-- The `switch` of `format_tar_data` on the file type; `none` is `return -1`. -/
def format_type (fs : fs_t) (st : stat_t) (filename : List Nat) (b : List Nat) :
    Option (List Nat) :=
  let fmt := st.st_mode &&& S_IFMT
  if fmt = S_IFREG then some (poke b off_type [NORMAL])
  else if fmt = S_IFLNK then
    let b1 := poke (poke b off_type [SYMLINK]) off_size (List.replicate 11 48)
    match fs.readlink filename with
    | none => none
    | some target => some (poke b1 off_link_name (target.take 100))
  else if fmt = S_IFCHR then
    some (poke (poke (poke b off_type [CHAR]) off_major (sprintf_o 8 st.dev_major))
      off_minor (sprintf_o 8 st.dev_minor))
  else if fmt = S_IFBLK then
    some (poke (poke (poke b off_type [BLOCK]) off_major (sprintf_o 8 st.dev_major))
      off_minor (sprintf_o 8 st.dev_minor))
  else if fmt = S_IFDIR then some (poke b off_type [DIRECTORY])
  else if fmt = S_IFIFO then some (poke b off_type [FIFO])
  else none

/-- The stores of `format_tar_data` for the user and group names: the login name
with its NUL into `owner`, and `strncpy(entry -> group, grp -> gr_name, 100)` when
the group of the file is known. -/
def format_names (fs : fs_t) (st : stat_t) (login : List Nat) (b : List Nat) : List Nat :=
  let b2 := poke b off_owner (login ++ [0])
  match fs.getgrgid st.st_gid with
  | none => b2
  | some gr_name => poke b2 off_group (strncpy gr_name 100)

/-- The entry after `memset(entry, 0, sizeof(struct tar_t))` and the store of
`original_name`, with the block `b`. -/
def fresh_entry (filename : List Nat) (b : List Nat) : tar_t :=
  { original_name := strncpy filename 100, begin := 0, block := b }

/-- Embedding of `format_tar_data(entry, filename, verbosity)` for a non-null
entry: the entry it fills, or `none` for `return -1`. -/
def format_tar_data (fs : fs_t) (filename : List Nat) : Option tar_t :=
  match fs.lstat filename with
  | none => none
  | some st =>
    match format_type fs st filename (format_common st filename) with
    | none => none
    | some b1 =>
      match fs.getlogin with
      | none => none
      | some login =>
        if 32 ≤ login.length then none
        else
          some (calculate_checksum (fresh_entry filename (format_names fs st login b1))).1

/-! ## `write_entries` -/

/-- The state of `write_entries`: the archive descriptor, the list from `*head`,
the index `cur` of the slot `tar` points to (the `next` field of node `cur - 1`)
and `*offset`. -/
structure write_state where
  fd : fd_t
  archive : List tar_t
  cur : Nat
  offset : Int
deriving DecidableEq

/-- The result of `write_entries`: the returned value and the state. -/
structure write_result where
  ret : Int
  st : write_state
deriving DecidableEq

/-- The exit taken by `WRITE_ERROR`: the list is cut at the slot `tar`. -/
def write_error (st : write_state) : write_result :=
  { ret := -1, st := { st with archive := st.archive.take st.cur } }

/-- The loop `while ((r = read_size(f, buf, 512)) > 0) write_size(fd, buf, r)`. -/
def copy_file : Nat → fd_t → fd_t → fd_t
  | 0, _, fd => fd
  | fuel + 1, f, fd =>
      let r := read_size f 512
      if 0 < r.1.length then copy_file fuel r.2 (write_size fd r.1) else fd

/-- The byte `name[len - 1]` read by the directory branch of `write_entries`; for
`len = 0` this is the byte in front of the block, taken to be the last byte of the
`begin` field in a little-endian layout. -/
def name_last (e : tar_t) (len : Nat) : Nat :=
  if len = 0 then (e.begin / 2 ^ 24) % 256 else peek e.block (len - 1)

/-- The branch of `write_entries` for an entry `e` that is not a directory; `e` is
the node in the slot `tar`, the last node of the list. -/
def write_file (fs : fs_t) (st : write_state) (e : tar_t) (filename : List Nat) :
    write_result :=
  let t := type_of e
  let tarred : Bool :=
    if is_file_type t || t == SYMLINK then
      «exists» (st.archive.take st.cur ++ [e]) filename true != some st.cur
    else false
  let e1 : tar_t :=
    if tarred then
      let b1 := poke e.block off_type [HARDLINK]
      let b2 := poke b1 off_link_name (strncpy (cstr b1) 100)
      let b3 := poke b2 off_size (List.replicate 11 48)
      (calculate_checksum { e with block := b3 }).1
    else e
  let arch1 := st.archive.take st.cur ++ [e1]
  let fd1 := write_size st.fd e1.block
  let copied : Option fd_t :=
    if is_file_type (type_of e1) && !tarred then
      match fs.open_read (cstr e1.block) with
      | none => none
      | some content => some (copy_file (content.length + 1) { data := content, pos := 0 } fd1)
    else some fd1
  match copied with
  | none => write_error { st with fd := fd1, archive := arch1 }
  | some fd2 =>
    let size := size_of e1
    let pad := 512 - size % 512
    let fd3 := if pad ≠ 512 then write_size fd2 (List.replicate pad 0) else fd2
    let off1 : Int := if pad ≠ 512 then toInt32 (toUInt32 st.offset + pad) else st.offset
    let off2 : Int := toInt32 (toUInt32 off1 + size)
    { ret := 0,
      st := { fd := fd3, archive := arch1, cur := st.cur + 1, offset := off2 + 512 } }

/-- The loop of the directory branch over the names returned by `readdir`;
`recurse` is `write_entries` called with one path. -/
def write_children (recurse : write_state → List Nat → write_result) (parent : List Nat) :
    write_state → List (List Nat) → write_result
  | st, [] => { ret := 0, st := st }
  | st, d_name :: rest =>
      let sublen := strlen d_name
      if !strncmp_eq0 d_name [46] sublen && !strncmp_eq0 d_name [46, 46] sublen then
        let r := recurse { st with cur := st.cur + 1 } (parent ++ [47] ++ d_name)
        if r.ret < 0 then write_error { r.st with cur := st.cur }
        else
          write_children recurse parent
            { fd := r.st.fd, archive := r.st.archive, cur := r.st.archive.length - 1,
              offset := r.st.offset } rest
      else write_children recurse parent st rest

/-- The branch of `write_entries` for a directory `e`, the node in the slot `tar`. -/
def write_dir (fs : fs_t) (recurse : write_state → List Nat → write_result)
    (st : write_state) (e : tar_t) : write_result :=
  let len := strlen e.block
  let parent := e.block.take len
  let e1 : tar_t :=
    if len < 99 && name_last e len != 47 then
      (calculate_checksum { e with block := poke (poke e.block len [47]) (len + 1) [0] }).1
    else e
  let st1 : write_state :=
    { st with fd := write_size st.fd e1.block, archive := st.archive.take st.cur ++ [e1] }
  match fs.readdir parent with
  | none => write_error st1
  | some names =>
    let r := write_children recurse parent st1 names
    if r.ret < 0 then r
    else { ret := 0, st := { r.st with offset := r.st.offset + 512 } }

/-- The loop of `write_entries` over `files`. -/
def write_loop (fs : fs_t) (recurse : write_state → List Nat → write_result) :
    write_state → List (List Nat) → write_result
  | st, [] => { ret := 0, st := st }
  | st, filename :: rest =>
      match format_tar_data fs filename with
      | none => write_error st
      | some e0 =>
        let e : tar_t := { e0 with begin := toUInt32 st.offset }
        let r := if type_of e = DIRECTORY then write_dir fs recurse st e
                 else write_file fs st e filename
        if r.ret < 0 then r else write_loop fs recurse r.st rest

/-- Embedding of `write_entries(fd, archive, head, filecount, files, offset,
verbosity)` for a valid descriptor; `depth` bounds the nesting of directories,
and a directory below that depth fails like one that cannot be read. -/
def write_entries (fs : fs_t) : Nat → write_state → List (List Nat) → write_result
  | 0, st, _ => { ret := -1, st := st }
  | depth + 1, st, files =>
      if st.cur < st.archive.length then { ret := -1, st := st }
      else write_loop fs (fun s path => write_entries fs depth s [path]) st files

/-! ## `tar_write` -/

/-- The result of `tar_write`. -/
structure tar_write_result where
  ret : Int
  archive : List tar_t
  fd : fd_t
deriving DecidableEq

/-- The offset `tar_write` seeks to behind the last entry of a list. -/
def write_start (last : tar_t) : Int :=
  let j0 := (512 + size_of last) % U32
  let jump := if j0 % 512 ≠ 0 then (j0 + (512 - j0 % 512)) % U32 else j0
  toInt32 (last.begin + jump)

/-- The store `memset((*tar) -> name, 0, 100)` at the end of `tar_write`. -/
def clear_name (n : tar_t) : tar_t :=
  { n with block := poke n.block off_name (List.replicate 100 0) }

/-- Embedding of `tar_write(fd, archive, filecount, files, verbosity)` for a valid
descriptor; `depth` bounds the nesting of directories. -/
def tar_write (fs : fs_t) (depth : Nat) (fd : fd_t) (archive : List tar_t)
    (files : List (List Nat)) : tar_write_result :=
  let start : Option (Int × fd_t) :=
    match archive.getLast? with
    | none => some (0, fd)
    | some last =>
        if write_start last < 0 then none
        else some (write_start last, lseek_set fd (write_start last).toNat)
  match start with
  | none => { ret := -1, archive := archive, fd := fd }
  | some (offset, fd0) =>
    let r := write_entries fs depth
      { fd := fd0, archive := archive, cur := archive.length, offset := offset } files
    if r.ret < 0 then { ret := -1, archive := r.st.archive, fd := r.st.fd }
    else
      let e := write_end_data r.st.fd r.st.offset
      { ret := r.st.offset,
        archive := r.st.archive.map clear_name,
        fd := e.2 }

/-! ## Archive files -/

/-- The bytes of a sequence of entries: every header block followed by its payload. -/
def archive_bytes : List (List Nat × List Nat) → List Nat
  | [] => []
  | s :: rest => s.1 ++ s.2 ++ archive_bytes rest

/-- The entry `tar_read` makes of the header block `b`. -/
def header_entry (b : List Nat) : tar_t := { original_name := [], begin := 0, block := b }

/-- A size rounded up to a multiple of 512, without a bound. -/
def padded (size : Nat) : Nat := (size + 511) / 512 * 512

/-- The offset variable of `tar_read` after a header block `b`. -/
def read_next_offset (offset : Nat) (b : List Nat) : Nat :=
  (offset + (512 + read_jump (header_entry b)) % U32) % U32

/-- The list `tar_read` builds from the sequence `segs` of headers and payloads,
read from iteration `count` on with the offset variable at `offset`: the node of
each iteration with the header block and the offset stored in `begin`. -/
def read_entries (heap : Nat → tar_t) : List (List Nat × List Nat) → Nat → Nat → List tar_t
  | [], _, _ => []
  | s :: rest, offset, count =>
      { heap count with block := s.1, begin := offset } ::
        read_entries heap rest (read_next_offset offset s.1) (count + 1)

/-- The offset variable of `tar_read` after the sequence `segs`. -/
def read_end_offset : List (List Nat × List Nat) → Nat → Nat
  | [], offset => offset
  | s :: rest, offset => read_end_offset rest (read_next_offset offset s.1)

/-! ## Names of entries -/

/-- The name of an entry as the program reads it: the C string at the start of the
block. -/
def entry_name (e : tar_t) : List Nat := cstr e.block

/-- The entry's name is none of the names in `files`. -/
def name_kept (files : List (List Nat)) (e : tar_t) : Bool :=
  files.all (fun f => !decide (entry_name e = cstr f))

/-- The part of an entry that `tar_remove` must not change: everything but `begin`. -/
def entry_content (e : tar_t) : List Nat × List Nat := (e.original_name, e.block)

/-- The bytes of a sequence of entries given with their payloads. -/
def item_bytes (items : List (tar_t × List Nat)) : List Nat :=
  archive_bytes (items.map (fun it => (it.1.block, it.2)))

/-! ## Well-formed checksums -/

/-- The value of the `check` field of a header block, read as the six octal digits
that `calculate_checksum` stores there. -/
def stored_check (b : List Nat) : Nat := oct2uint (b.drop off_check) 6

/-- The sum of the first `n` bytes of a header block with the `check` field taken
as 8 spaces. -/
def blank_sum (b : List Nat) (n : Nat) : Nat :=
  ((poke b off_check (List.replicate 8 32)).take n).sum

/-! ## `tar_update` -/

/-- The call `oct2uint(old -> mtime, 11)`. -/
def mtime_of (e : tar_t) : Nat := oct2uint (e.block.drop off_mtime) 11

/-- The loop of `tar_update` over `files`: the names copied into `newer`, or `none`
when `lstat` fails and `RC_ERROR` returns from the function.  A name is copied when
`exists` finds no node for it or the node it finds is older than the file. -/
def update_select (fs : fs_t) (archive : List tar_t) :
    List (List Nat) → List (List Nat) → Option (List (List Nat))
  | [], newer => some newer
  | f :: rest, newer =>
      match fs.lstat f with
      | none => none
      | some st =>
        match «exists» archive f true with
        | some i =>
            if mtime_of (archive.getD i (header_entry [])) < st.st_mtime then
              update_select fs archive rest (newer ++ [f])
            else update_select fs archive rest newer
        | none => update_select fs archive rest (newer ++ [f])

/-- Embedding of `tar_update(fd, archive, filecount, files, verbosity)` for a
non-null `files`; `depth` bounds the nesting of directories in `tar_write`. -/
def tar_update (fs : fs_t) (depth : Nat) (fd : fd_t) (archive : List tar_t)
    (files : List (List Nat)) : tar_write_result :=
  if files.isEmpty then { ret := 0, archive := archive, fd := fd }
  else
    match update_select fs archive files [] with
    | none => { ret := -1, archive := archive, fd := fd }
    | some newer =>
      let w := tar_write fs depth fd archive newer
      if w.ret < 0 then { ret := -1, archive := w.archive, fd := w.fd }
      else { ret := 0, archive := w.archive, fd := w.fd }

/-! ## `ls_entry` and `tar_ls` -/

/-- The loop of `ls_entry` over the filter arguments: `print` is set at the first
argument for which `strncmp` over the longer of the two lengths is not zero. -/
def ls_print_loop (entry : tar_t) : List (List Nat) → Bool → Bool
  | [], print => print
  | f :: rest, print =>
      if !strncmp_eq0 entry.block f (max (strlen entry.block) (strlen f)) then true
      else ls_print_loop entry rest print

/-- Embedding of `ls_entry(f, entry, max_space, filecount, files, verbosity)` for
the verbosity 1, at which the line of an entry is its name: the returned value and
the bytes printed. -/
def ls_entry (entry : tar_t) (files : List (List Nat)) : Int × List Nat :=
  let print := ls_print_loop entry files files.isEmpty
  if print then (0, cstr entry.block ++ [10]) else (0, [])

/-- Embedding of `tar_ls(f, archive, filecount, files, verbosity)` for the verbosity
1: the returned value and the bytes printed. -/
def tar_ls : List tar_t → List (List Nat) → Int × List Nat
  | [], _ => (0, [])
  | e :: rest, files =>
      if (ls_entry e files).1 < 0 then (-1, (ls_entry e files).2)
      else ((tar_ls rest files).1, (ls_entry e files).2 ++ (tar_ls rest files).2)

/-! ## The stored name of a path -/

/-- The name the specification asks for: the path without its leading `/`, `./` or
`../`, if it starts with one of them. -/
def spec_stored_name (p : List Nat) : List Nat :=
  if [47] <+: p then p.drop 1
  else if [46, 47] <+: p then p.drop 2
  else if [46, 46, 47] <+: p then p.drop 3
  else p

/-! ## Descriptors reached by appending -/

/-- The descriptor `fd'` is reached from `fd` by writes at and behind the offset of
`fd`: the offset has not moved back, it lies inside the file, and the bytes in front
of the offset of `fd` are the same. -/
def fd_grows (fd fd' : fd_t) : Prop :=
  fd.pos ≤ fd'.pos ∧ fd'.pos ≤ fd'.data.length ∧ fd'.data.take fd.pos = fd.data.take fd.pos

/-- The payloads that `write_entries` copies have the length their headers state:
for every entry that `format_tar_data` makes and that is not a directory, the file
opened under the stored name, if it is a regular file, has as many bytes as the size
field says, and the size field of any other entry is zero. -/
def sizes_agree (fs : fs_t) : Prop :=
  ∀ (p : List Nat) (e : tar_t), format_tar_data fs p = some e → type_of e ≠ DIRECTORY →
    if is_file_type (type_of e) then
      ∀ c, fs.open_read (cstr e.block) = some c → c.length = size_of e
    else size_of e = 0

/-- The offset behind the entry `last`, in the words of the specification: its
`begin`, the header block and the size rounded up to a multiple of 512. -/
def append_start (last : tar_t) : Nat := last.begin + 512 + padded (size_of last)

/-- The state in which `tar_write` calls `write_entries` after a seek to `start`. -/
def append_state (fd : fd_t) (archive : List tar_t) (start : Nat) : write_state :=
  { fd := lseek_set fd start, archive := archive, cur := archive.length, offset := (start : Int) }

/-! ## The list while `write_entries` runs -/

/-- The state `st'` keeps the nodes in front of the slot of `st`: the slot has not
moved back, it lies inside the list, and the nodes in front of the slot of `st` are
the same. -/
def list_keeps (st st' : write_state) : Prop :=
  st.cur ≤ st'.cur ∧ st'.cur ≤ st'.archive.length ∧
    st'.archive.take st.cur = st.archive.take st.cur

/-- The list of `st` holds, in front of the slot, a node that was made for the path
`p` and whose name field is `N`. -/
def holds_path (p N : List Nat) (st : write_state) : Prop :=
  ∃ idx node, idx < st.cur ∧ st.archive[idx]? = some node ∧
    node.original_name = strncpy p 100 ∧ slice node.block off_name 100 = N

/-- The header of `e` after the stores of `write_entries` for a file that is already
in the list, before the checksum is computed again: the type, the link name and the
size. -/
def hardlink_header_of (e : tar_t) : tar_t :=
  tar_t.mk e.original_name e.begin
    (poke (poke (poke e.block off_type [HARDLINK]) off_link_name
      (strncpy (cstr (poke e.block off_type [HARDLINK])) 100)) off_size (List.replicate 11 48))

/-! ## `main`: the option string -/

/-- The flags `main` sets while it reads the option string `argv[1]`. -/
structure main_flags where
  a : Nat
  c : Nat
  d : Nat
  l : Nat
  r : Nat
  u : Nat
  x : Nat
  verbosity : Nat
deriving DecidableEq

/-- How `main` leaves its option handling: it returns `status` from `main`, or it
goes on to open the archive and to run the selected operation. -/
inductive main_step where
  | stop (status : Int)
  | proceed (flags : main_flags)
deriving DecidableEq

/-- The loop `for(int i = 0; argv[1][i]; i++) switch (argv[1][i])` of `main`; `none`
is the `default` branch, which prints `Bad option` and returns. -/
def parse_options : List Nat → main_flags → Option main_flags
  | [], fl => some fl
  | ch :: rest, fl =>
      if ch = 0 then some fl
      else if ch = 97 then parse_options rest { fl with a := 1 }
      else if ch = 99 then parse_options rest { fl with c := 1 }
      else if ch = 100 then parse_options rest { fl with d := 1 }
      else if ch = 108 then parse_options rest { fl with l := 1 }
      else if ch = 114 then parse_options rest { fl with r := 1 }
      else if ch = 117 then parse_options rest { fl with u := 1 }
      else if ch = 120 then parse_options rest { fl with x := 1 }
      else if ch = 118 then parse_options rest { fl with verbosity := 1 }
      else if ch = 45 then parse_options rest fl
      else none

/-- The option handling of `main` for the option string `argv[1]`, when `argc` is 3
or more: the `default` branch returns 0, more or fewer than one mode returns -1. -/
def main_options (opt : List Nat) : main_step :=
  match parse_options opt
      { a := 0, c := 0, d := 0, l := 0, r := 0, u := 0, x := 0, verbosity := 0 } with
  | none => main_step.stop 0
  | some fl =>
      let used := fl.a + fl.c + fl.d + fl.l + fl.r + fl.u + fl.x
      if used > 1 then main_step.stop (-1)
      else if used < 1 then main_step.stop (-1)
      else main_step.proceed fl

/-! ## `tar_extract` -/

/-- The loop of `tar_extract` over the names for one entry: the index of the first
name with `strncmp(archive -> name, files[i], MAX(strlen, strlen)) == 0`. -/
def extract_match (entry : tar_t) (files : List (List Nat)) : Option Nat :=
  let i := files.findIdx (fun f =>
    strncmp_eq0 entry.block f (max (strlen entry.block) (strlen f)))
  if i < files.length then some i else none

/-- The result of `tar_extract`: the returned value, the archive descriptor and the
entries passed to `extract_entry`, each with the chunks written for it. -/
structure tar_extract_result where
  ret : Int
  fd : fd_t
  extracted : List (tar_t × List (List Nat))
deriving DecidableEq

/-- The loop of `tar_extract` over the list; with names, an entry is extracted when
one of them matches, after a seek to its `begin`. -/
def tar_extract_loop (env : extract_env) (fuel : Nat) (files : List (List Nat)) :
    List tar_t → tar_extract_result → Option tar_extract_result
  | [], acc => some acc
  | e :: rest, acc =>
      if files.isEmpty || (extract_match e files).isSome then
        let fd0 := if files.isEmpty then acc.fd else lseek_set acc.fd e.begin
        match extract_entry env fuel fd0 e with
        | none => none
        | some r =>
            tar_extract_loop env fuel files rest
              { ret := if r.ret < 0 then -1 else acc.ret, fd := r.fd,
                extracted := acc.extracted ++ [(e, r.written)] }
      else tar_extract_loop env fuel files rest acc

/-- Embedding of `tar_extract(fd, archive, filecount, files, verbosity)` for a valid
descriptor; `fuel` bounds the payload loop of `extract_entry`. -/
def tar_extract (env : extract_env) (fuel : Nat) (fd : fd_t) (archive : List tar_t)
    (files : List (List Nat)) : Option tar_extract_result :=
  tar_extract_loop env fuel files archive
    { ret := 0, fd := if files.isEmpty then lseek_set fd 0 else fd, extracted := [] }

/-! ## Octal text, in the words of the specification -/

/-- The ASCII bytes of a sequence of octal digits; a digit is given as a number and
taken modulo 8, so every list stands for a string of octal digits. -/
def octal_bytes (ds : List Nat) : List Nat := ds.map (fun d => 48 + d % 8)

/-- The base-8 value of a sequence of octal digits, most significant first. -/
def octal_value (ds : List Nat) : Nat := ds.foldl (fun v d => v * 8 + d % 8) 0

/-! ## Sample inputs -/

/-- A sample header block: all 512 bytes are 255. -/
def sample_entry_ff : tar_t := { original_name := [], begin := 0, block := List.replicate 512 255 }

/-- The path `f`. -/
def path_f : List Nat := [102]

/-- The `struct stat` of a regular file of mode 0644 with the given size. -/
def st_regular (size : Nat) : stat_t :=
  { st_mode := 0o100644, st_uid := 1000, st_gid := 1000, st_size := size,
    st_mtime := 1700000000, dev_major := 0, dev_minor := 0 }

/-- The `struct stat` of a character device with major and minor number 1. -/
def st_chardev : stat_t :=
  { st_mode := 0o020644, st_uid := 0, st_gid := 0, st_size := 0,
    st_mtime := 1700000000, dev_major := 1, dev_minor := 1 }

/-- A file system with the single node `path`; the login name is `u` and every
group has the name `group`, if any. -/
def fs_one (path : List Nat) (st : stat_t) (content : List Nat) (group : Option (List Nat)) :
    fs_t :=
  { lstat := fun p => if p = path then some st else none,
    readlink := fun _ => none,
    readdir := fun _ => none,
    open_read := fun p => if p = path then some content else none,
    getlogin := some [117],
    getgrgid := fun _ => group }

/-- The content of freshly allocated nodes taken for the samples: empty. -/
def heap_empty : Nat → tar_t := fun _ => header_entry []

/-- A header block with the name `b` and an empty size field. -/
def hdr_small : List Nat := poke (List.replicate 512 0) off_name [98]

/-- A header block with the name `a` and the size field `37777777777`. -/
def hdr_big : List Nat :=
  poke (poke (List.replicate 512 0) off_name [97]) off_size
    [51, 55, 55, 55, 55, 55, 55, 55, 55, 55, 55]

/-- An archive of two entries, the first with a payload of `2 ^ 32` zero bytes. -/
def big_archive : List (List Nat × List Nat) :=
  [(hdr_big, List.replicate (2 ^ 32) 0), (hdr_small, [])]

/-- The file of `big_archive`: the entries, two zero blocks, and 4096 zero bytes up
to the record boundary. -/
def big_file : List Nat :=
  archive_bytes big_archive ++ (List.replicate 1024 0 ++ List.replicate 4096 0)

/-- An environment in which every call of `extract_entry` succeeds. -/
def env_ok : extract_env := { errno_of := fun _ => none }

/-- A header block for the regular file `a` with the size field `n` in octal. -/
def hdr_file (n : Nat) : List Nat :=
  poke (poke (poke (List.replicate 512 0) off_name [97]) off_size (sprintf_o 11 n)) off_type
    [NORMAL]

/-- A one-entry archive: the file `a` with the three payload bytes 1, 2, 3. -/
def small_file : List Nat := hdr_file 3 ++ ([1, 2, 3] ++ List.replicate 509 0)

/-- The entry of `small_file`. -/
def small_entry : tar_t := { original_name := [], begin := 0, block := hdr_file 3 }

/-- A file of more than 4 GiB: the header of a one-byte file `a` at offset
`2 ^ 32 - 512` and its payload byte 9 at offset `2 ^ 32`, after bytes 7. -/
def far_file : List Nat := (List.replicate (2 ^ 32 - 512) 7 ++ hdr_file 1) ++ [9]

/-- The entry of `far_file`, with the offset of its header as `begin`. -/
def far_entry : tar_t := { original_name := [], begin := 2 ^ 32 - 512, block := hdr_file 1 }

/-- A header block with a one-byte name, a size and a type flag. -/
def hdr_of (name size type : Nat) : List Nat :=
  poke (poke (poke (List.replicate 512 0) off_name [name]) off_size (sprintf_o 11 size)) off_type
    [type]

/-- An archive of three entries: the empty regular file `x`, the symbolic link `s`
whose header carries the size 1 and is followed by one payload block, and the
empty regular file `f`. -/
def link_items : List (tar_t × List Nat) :=
  [(header_entry (hdr_of 120 0 NORMAL), []),
   (header_entry (hdr_of 115 1 SYMLINK), 7 :: List.replicate 511 0),
   (header_entry (hdr_of 102 0 NORMAL), [])]

/-- The file of `link_items`, with the terminator and the record padding. -/
def link_file : List Nat := item_bytes link_items ++ List.replicate (10240 - 2048) 0

/-- An archive of two empty regular files `a` and `b`. -/
def pair_items : List (tar_t × List Nat) :=
  [(header_entry (hdr_of 97 0 NORMAL), []), (header_entry (hdr_of 98 0 NORMAL), [])]

/-- A content of freshly allocated nodes: every node holds the same stale header
block, that of an empty file `?`. -/
def heap_stale : Nat → tar_t := fun _ => header_entry (hdr_of 63 0 NORMAL)

/-- The tail of `lone_file` behind its headers: the terminator and the padding. -/
def lone_tail : List Nat := List.replicate 7680 0

/-- An archive file of one record that starts with a single zero block: the zero
block, the headers of the empty files `a` and `b`, two zero blocks and zero
padding. -/
def lone_file : List Nat :=
  List.replicate 512 0 ++ (hdr_of 97 0 NORMAL ++ (hdr_of 98 0 NORMAL ++
    (List.replicate 1024 0 ++ lone_tail)))

/-- The entry of the header block `b` read at the offset `off`. -/
def entry_at (off : Nat) (b : List Nat) : tar_t :=
  { original_name := [], begin := off, block := b }

/-- The list of four empty regular files `a`, `b`, `c`, `d`, one block each, with
`begin` at their offsets in `quad_file`. -/
def quad_list : List tar_t :=
  [entry_at 0 (hdr_of 97 0 NORMAL), entry_at 512 (hdr_of 98 0 NORMAL),
   entry_at 1024 (hdr_of 99 0 NORMAL), entry_at 1536 (hdr_of 100 0 NORMAL)]

/-- The file of `quad_list`, with the terminator and the record padding. -/
def quad_file : List Nat :=
  hdr_of 97 0 NORMAL ++ hdr_of 98 0 NORMAL ++ hdr_of 99 0 NORMAL ++ hdr_of 100 0 NORMAL ++
    List.replicate (10240 - 2048) 0

/-- The `struct stat` of a directory of mode 0755 for which `lstat` reports the
size 4096. -/
def st_dir : stat_t :=
  { st_mode := 0o040755, st_uid := 1000, st_gid := 1000, st_size := 4096,
    st_mtime := 1700000000, dev_major := 0, dev_minor := 0 }

/-- A file system with the single empty directory `d`; the login name is `u` and
no group has a name. -/
def fs_dir : fs_t :=
  { lstat := fun p => if p = [100] then some st_dir else none,
    readlink := fun _ => none,
    readdir := fun p => if p = [100] then some [[46], [46, 46]] else none,
    open_read := fun _ => none,
    getlogin := some [117],
    getgrgid := fun _ => none }

/-- An archive file cut after its first block: the header of the empty file `a`
and nothing else. -/
def cut_file : List Nat := hdr_of 97 0 NORMAL

/-- What `tar_read` returns on `cut_file`. -/
def cut_result : read_result :=
  { ret := 1, archive := [entry_at 0 (hdr_of 97 0 NORMAL)], fd := { data := cut_file, pos := 512 } }

/-- The header of the empty regular file `f` with the modification time 1000. -/
def hdr_old : List Nat := poke (hdr_of 102 0 NORMAL) off_mtime (sprintf_o 11 1000)

/-- An archive file of one record with the single entry `hdr_old`. -/
def upd_file : List Nat := hdr_old ++ ([] ++ (List.replicate 1024 0 ++ List.replicate 8704 0))

/-- The `struct stat` of an empty regular file with the modification time 500. -/
def st_older : stat_t :=
  { st_mode := 0o100644, st_uid := 1000, st_gid := 1000, st_size := 0,
    st_mtime := 500, dev_major := 0, dev_minor := 0 }

/-- A file system in which `f` is an empty regular file last modified at time 500. -/
def fs_older : fs_t := fs_one path_f st_older [] none

/-- The path `m`, which names no file of the sample file systems. -/
def path_m : List Nat := [109]

/-- A file system in which `f` is an empty regular file last modified at time
1700000000. -/
def fs_newer : fs_t := fs_one path_f (st_regular 0) [] none

/-- The name `a.txt`. -/
def name_a_txt : List Nat := [97, 46, 116, 120, 116]

/-- The name `b.txt`. -/
def name_b_txt : List Nat := [98, 46, 116, 120, 116]

/-- The entry of an empty regular file with the given name. -/
def entry_named (name : List Nat) : tar_t :=
  header_entry (poke (poke (List.replicate 512 0) off_name name) off_type [NORMAL])

/-- The path `../../a`. -/
def path_up_up_a : List Nat := [46, 46, 47, 46, 46, 47, 97]

/-- A path of 101 bytes `a`. -/
def path_long : List Nat := List.replicate 101 97

/-- A file system in which `f` is a regular file of the three bytes 1, 2, 3. -/
def fs_three : fs_t := fs_one path_f (st_regular 3) [1, 2, 3] none

/-- The header of a regular file `a` of `2 ^ 31 - 512` bytes. -/
def hdr_2g : List Nat := hdr_of 97 (2 ^ 31 - 512) NORMAL

/-- An archive of one entry with a payload of `2 ^ 31 - 512` zero bytes. -/
def huge_archive : List (List Nat × List Nat) := [(hdr_2g, List.replicate (2 ^ 31 - 512) 0)]

/-- The file of `huge_archive`: the entry, two zero blocks, and 7168 zero bytes up to
the record boundary. -/
def huge_file : List Nat :=
  archive_bytes huge_archive ++ (List.replicate 1024 0 ++ List.replicate 7168 0)

/-- The name `sub`. -/
def name_sub : List Nat := [115, 117, 98]

/-- The path `sub/b.txt`. -/
def name_sub_b : List Nat := [115, 117, 98, 47, 98, 46, 116, 120, 116]

/-- The tree of the round-trip example: the files `a.txt` and `sub/b.txt` of 6 bytes
each and the directory `sub`, for which `lstat` reports the size 4096. -/
def fs_tree : fs_t :=
  { lstat := fun p =>
      if p = name_a_txt then some (st_regular 6)
      else if p = name_sub then some st_dir
      else if p = name_sub_b then some (st_regular 6)
      else none,
    readlink := fun _ => none,
    readdir := fun p => if p = name_sub then some [[46], [46, 46], name_b_txt] else none,
    open_read := fun p =>
      if p = name_a_txt then some [104, 101, 108, 108, 111, 10]
      else if p = name_sub_b then some [119, 111, 114, 108, 100, 10]
      else none,
    getlogin := some [117],
    getgrgid := fun _ => none }

/-- The archive file that `tar_write` creates from `a.txt` and `sub`. -/
def tree_file : List Nat :=
  (tar_write fs_tree 3 { data := [], pos := 0 } [] [name_a_txt, name_sub]).fd.data

/-- The file `tree_file` as `tar_read` takes it apart: the header of `a.txt` with
one payload block, and the header of `sub/` with the 4096 bytes behind it. -/
def tree_segs : List (List Nat × List Nat) :=
  [(slice tree_file 0 512, slice tree_file 512 512),
   (slice tree_file 1024 512, slice tree_file 1536 4096)]

/-- The path `../x`. -/
def path_up_x : List Nat := [46, 46, 47, 120]

/-- A file system in which `../x` is a regular file with the bytes 1, 2, 3 and `x`,
in the working directory, is another file with the bytes 9, 9, 9. -/
def fs_up : fs_t :=
  { lstat := fun p => if p = path_up_x ∨ p = [120] then some (st_regular 3) else none,
    readlink := fun _ => none,
    readdir := fun _ => none,
    open_read := fun p =>
      if p = path_up_x then some [1, 2, 3] else if p = [120] then some [9, 9, 9] else none,
    getlogin := some [117],
    getgrgid := fun _ => none }

/-- A file system whose only file is `../x`, with the bytes 1, 2, 3. -/
def fs_up_only : fs_t := fs_one path_up_x (st_regular 3) [1, 2, 3] none

/-- The state in which `tar_write` calls `write_entries` on an empty archive. -/
def empty_state : write_state :=
  { fd := { data := [], pos := 0 }, archive := [], cur := 0, offset := 0 }

/-- An archive file that ends behind the header of its second entry: the header of
the empty file `a`, the header of the file `b` of 3 bytes, and no payload. -/
def short_file : List Nat := hdr_of 97 0 NORMAL ++ hdr_of 98 3 NORMAL

/-- The list `tar_read` returns for `short_file`. -/
def short_list : List tar_t := [entry_at 0 (hdr_of 97 0 NORMAL), entry_at 512 (hdr_of 98 3 NORMAL)]

/-- A file system with the single empty directory `path`; the login name is `u` and
no group has a name. -/
def fs_dir_at (path : List Nat) : fs_t :=
  { lstat := fun p => if p = path then some st_dir else none,
    readlink := fun _ => none,
    readdir := fun p => if p = path then some [[46], [46, 46]] else none,
    open_read := fun _ => none,
    getlogin := some [117],
    getgrgid := fun _ => none }

/-- The name of a directory in the header `tar_write` writes for the single empty
directory `path`, on an empty archive. -/
def written_dir_name (path : List Nat) : List Nat :=
  entry_name (header_entry
    (slice (tar_write (fs_dir_at path) 2 { data := [], pos := 0 } [] [path]).fd.data 0 512))

/-- The node `write_entries` has in its slot for the path `a`, a regular file of 3
bytes, at the start of an archive: the header `hdr_file 3` and the path as the
original name. -/
def file_entry_a : tar_t := { original_name := strncpy [97] 100, begin := 0, block := hdr_file 3 }

/-- A file system with the empty directory `d` and the empty regular file `f`; the
login name is `u` and no group has a name. -/
def fs_dir_file : fs_t :=
  { lstat := fun p =>
      if p = [100] then some st_dir else if p = [102] then some (st_regular 0) else none,
    readlink := fun _ => none,
    readdir := fun p => if p = [100] then some [[46], [46, 46]] else none,
    open_read := fun p => if p = [102] then some [] else none,
    getlogin := some [117],
    getgrgid := fun _ => none }

/-! # Theorems -/

/-! ## Lemmas on memory -/

theorem poke_length (mem : List Nat) (off : Nat) (bs : List Nat) (h : off ≤ mem.length) :
    (poke mem off bs).length = mem.length := by
  simp only [poke, List.length_append, List.length_take, List.length_drop]
  omega

theorem poke_mid (A M B bs : List Nat) (h : bs.length ≤ M.length) :
    poke (A ++ M ++ B) A.length bs = A ++ (bs ++ M.drop bs.length) ++ B := by
  have h1 : (A ++ M ++ B).take A.length = A := by
    rw [List.append_assoc, List.take_left]
  have h2 : bs.take ((A ++ M ++ B).length - A.length) = bs := by
    apply List.take_of_length_le
    simp only [List.length_append]
    omega
  have h3 : (A ++ M ++ B).drop (A.length + bs.length) = M.drop bs.length ++ B := by
    rw [List.append_assoc, ← List.drop_drop, List.drop_left, List.drop_append_of_le_length h]
  unfold poke
  rw [h1, h2, h3]
  simp only [List.append_assoc]

theorem poke_split (mem bs : List Nat) (off : Nat) (h : off + bs.length ≤ mem.length) :
    poke mem off bs = mem.take off ++ bs ++ mem.drop (off + bs.length) := by
  have h2 : bs.take (mem.length - off) = bs := List.take_of_length_le (by omega)
  unfold poke
  rw [h2]

/-! ## Lemmas on octal text -/

theorem fixedOct_length (w v : Nat) : (fixedOct w v).length = w := by
  induction w generalizing v with
  | zero => rfl
  | succ w ih => simp [fixedOct, ih]

theorem fixedOct_zero (w : Nat) : fixedOct w 0 = List.replicate w 48 := by
  induction w with
  | zero => rfl
  | succ w ih =>
    simp only [fixedOct, Nat.zero_div, ih, Nat.zero_mod, Nat.add_zero]
    exact (List.replicate_succ' ..).symm

theorem fixedOct_digit (w v d : Nat) (h : d ∈ fixedOct w v) : 48 ≤ d ∧ d ≤ 55 := by
  induction w generalizing v with
  | zero => simp [fixedOct] at h
  | succ w ih =>
    simp only [fixedOct, List.mem_append, List.mem_singleton] at h
    rcases h with h | h
    · exact ih _ h
    · omega

theorem octDigitsAux_spec (k : Nat) : ∀ (n fuel : Nat) (acc : List Nat), n < 8 ^ (k + 1) → n < fuel →
    ∃ D, octDigitsAux fuel n acc = D ++ acc ∧ D.length ≤ k + 1 ∧
      List.replicate (k + 1 - D.length) 48 ++ D = fixedOct (k + 1) n := by
  induction k with
  | zero =>
    intro n fuel acc hn hf
    obtain ⟨f, rfl⟩ : ∃ f, fuel = f + 1 := ⟨fuel - 1, by omega⟩
    have h8 : n < 8 := by simpa using hn
    refine ⟨[48 + n], ?_, by simp, ?_⟩
    · simp [octDigitsAux, h8]
    · simp [fixedOct, Nat.mod_eq_of_lt h8]
  | succ k ih =>
    intro n fuel acc hn hf
    obtain ⟨f, rfl⟩ : ∃ f, fuel = f + 1 := ⟨fuel - 1, by omega⟩
    by_cases h8 : n < 8
    · refine ⟨[48 + n], ?_, by simp, ?_⟩
      · simp [octDigitsAux, h8]
      · have hz : n / 8 = 0 := Nat.div_eq_of_lt h8
        rw [fixedOct, hz, fixedOct_zero, Nat.mod_eq_of_lt h8]
        simp
    · have hd : n / 8 < 8 ^ (k + 1) := by
        rw [Nat.div_lt_iff_lt_mul (by norm_num)]
        rw [pow_succ] at hn
        exact hn
      have hf2 : n / 8 < f := by omega
      obtain ⟨D, hD, hlen, hpad⟩ := ih (n / 8) f ((48 + n % 8) :: acc) hd hf2
      refine ⟨D ++ [48 + n % 8], ?_, ?_, ?_⟩
      · simp [octDigitsAux, h8, hD]
      · simp; omega
      · rw [fixedOct, ← hpad]
        simp

theorem sprintf_o_fixed (w v : Nat) (hw : 0 < w) (hv : v < 8 ^ w) (hu : v < U32) :
    sprintf_o w v = fixedOct w v ++ [0] := by
  obtain ⟨k, rfl⟩ : ∃ k, w = k + 1 := ⟨w - 1, by omega⟩
  obtain ⟨D, hD, _, hpad⟩ := octDigitsAux_spec k v (v + 1) [] hv (by omega)
  unfold sprintf_o octDigits
  rw [Nat.mod_eq_of_lt hu, hD, List.append_nil, hpad]

theorem octStep_digit (out d : Nat) (hd : d < 8) (ho : out * 8 + d < U32) :
    octStep out (48 + d) = out * 8 + d := by
  unfold octStep
  have hc : charVal (48 + d) = ((48 + d : Nat) : Int) := by
    unfold charVal
    have : (48 + d) % 256 = 48 + d := Nat.mod_eq_of_lt (by omega)
    rw [this, if_pos (by omega)]
  have h1 : ((charVal (48 + d) - 48) % (U32 : Int)).toNat = d := by
    rw [hc]
    have : (((48 + d : Nat) : Int) - 48) = (d : Int) := by push_cast; ring
    rw [this]
    have hlt : (d : Int) % (U32 : Int) = (d : Int) := by
      apply Int.emod_eq_of_lt (by omega)
      unfold U32; push_cast; omega
    rw [hlt]; simp
  have h2 : (out <<< 3) % U32 = 2 ^ 3 * out := by
    rw [Nat.shiftLeft_eq, Nat.mod_eq_of_lt (by omega)]
    ring
  rw [h1, h2, ← Nat.mul_add_lt_is_or (by omega)]
  ring

theorem oct2uint_loop_digits (ds rest : List Nat) (m out : Nat)
    (h : ∀ d ∈ ds, d ≠ 0) :
    oct2uint_loop (ds ++ rest) (ds.length + m) out = oct2uint_loop rest m (ds.foldl octStep out) := by
  induction ds generalizing out with
  | nil => simp
  | cons d ds ih =>
    have hd : d ≠ 0 := h d (List.mem_cons_self _ _)
    have e : (d :: ds).length + m = (ds.length + m) + 1 := by simp; omega
    rw [List.cons_append, e, oct2uint_loop, if_neg hd, List.foldl_cons]
    exact ih _ (fun x hx => h x (List.mem_cons_of_mem _ hx))

theorem foldl_octStep_fixedOct (w : Nat) : ∀ (v out : Nat), v < 8 ^ w → out * 8 ^ w + v < U32 →
    (fixedOct w v).foldl octStep out = out * 8 ^ w + v := by
  induction w with
  | zero => intro v out hv _; simp [fixedOct]; omega
  | succ w ih =>
    intro v out hv ho
    have hd : v / 8 < 8 ^ w := by
      rw [Nat.div_lt_iff_lt_mul (by norm_num)]
      rw [pow_succ] at hv
      exact hv
    have hv8 := Nat.div_add_mod v 8
    have e : out * 8 ^ (w + 1) + v = (out * 8 ^ w + v / 8) * 8 + v % 8 := by
      rw [pow_succ]; nlinarith
    have ho2 : out * 8 ^ w + v / 8 < U32 := by omega
    rw [fixedOct, List.foldl_append, ih (v / 8) out hd ho2, List.foldl_cons, List.foldl_nil,
      octStep_digit _ _ (Nat.mod_lt _ (by norm_num)) (by omega), e]

theorem fixedOct_nonzero (w v d : Nat) (h : d ∈ fixedOct w v) : d ≠ 0 := by
  have := fixedOct_digit w v d h
  omega

/-- Decoding `w` octal digits that are followed by a NUL, or that use up the whole
digit count, gives back the encoded value. -/
theorem oct2uint_fixedOct (w v size : Nat) (rest : List Nat) (hv : v < 8 ^ w) (hu : v < U32)
    (hs : w ≤ size) (hr : size = w ∨ rest.head? = some 0) :
    oct2uint (fixedOct w v ++ rest) size = v := by
  obtain ⟨m, rfl⟩ : ∃ m, size = (fixedOct w v).length + m := ⟨size - w, by rw [fixedOct_length]; omega⟩
  unfold oct2uint
  rw [oct2uint_loop_digits _ _ _ _ (fixedOct_nonzero w v), foldl_octStep_fixedOct w v 0 hv (by omega)]
  rw [fixedOct_length] at hr
  simp only [Nat.zero_mul, Nat.zero_add]
  rcases hr with hr | hr
  · have : m = 0 := by omega
    subst this
    cases rest <;> rfl
  · cases rest with
    | nil => simp at hr
    | cons c cs =>
      simp only [List.head?_cons, Option.some.injEq] at hr
      subst hr
      cases m <;> simp [oct2uint_loop]

/-! ## The checksum -/

theorem checksum_foldl (l : List Nat) (h : ∀ b ∈ l, b < 256) :
    ∀ c, c + 255 * l.length < U32 →
      l.foldl (fun check b => (check + b % 256) % U32) c = c + l.sum := by
  induction l with
  | nil => intro c _; simp
  | cons b l ih =>
    intro c hc
    have hb : b < 256 := h b (List.mem_cons_self _ _)
    simp only [List.length_cons] at hc
    have h1 : (c + b % 256) % U32 = c + b := by
      rw [Nat.mod_eq_of_lt hb, Nat.mod_eq_of_lt (by omega)]
    rw [List.foldl_cons, h1, ih (fun x hx => h x (List.mem_cons_of_mem _ hx)) (c + b) (by omega),
      List.sum_cons]
    omega

theorem sum_le_of_bytes (l : List Nat) (h : ∀ b ∈ l, b < 256) : l.sum ≤ 255 * l.length := by
  induction l with
  | nil => simp
  | cons b l ih =>
    have hb : b < 256 := h b (List.mem_cons_self _ _)
    have := ih (fun x hx => h x (List.mem_cons_of_mem _ hx))
    simp only [List.sum_cons, List.length_cons]
    omega

theorem checksum_loop_eq (block : List Nat) (h : ∀ b ∈ block, b < 256) :
    checksum_loop block = (block.take 500).sum ∧ (block.take 500).sum < 8 ^ 6 := by
  have hb : ∀ b ∈ block.take 500, b < 256 := fun b hb => h b (List.mem_of_mem_take hb)
  have hl : (block.take 500).length ≤ 500 := by simp
  have hU : U32 = 4294967296 := by unfold U32; norm_num
  constructor
  · unfold checksum_loop
    rw [checksum_foldl _ hb 0 (by omega)]
    simp
  · have := sum_le_of_bytes _ hb
    norm_num
    omega

/-- The block of an entry split around its `check` field. -/
theorem block_split (block : List Nat) (hlen : block.length = 512) :
    block = block.take 148 ++ (block.drop 148).take 8 ++ block.drop 156 ∧
      (block.take 148).length = 148 ∧ ((block.drop 148).take 8).length = 8 := by
  refine ⟨?_, by simp; omega, by simp; omega⟩
  have : block.drop 156 = (block.drop 148).drop 8 := by rw [List.drop_drop]
  rw [this, List.append_assoc, List.take_append_drop, List.take_append_drop]

theorem calculate_checksum_block (entry : tar_t) (hlen : entry.block.length = 512)
    (hbytes : ∀ b ∈ entry.block, b < 256) :
    (calculate_checksum entry).2 =
        ((entry.block.take 148 ++ List.replicate 8 32 ++ entry.block.drop 156).take 500).sum ∧
    (calculate_checksum entry).1.block = entry.block.take 148 ++
        (fixedOct 6 (calculate_checksum entry).2 ++ [0, 32]) ++ entry.block.drop 156 ∧
    (calculate_checksum entry).2 < 8 ^ 6 := by
  obtain ⟨hsplit, hA, hC⟩ := block_split entry.block hlen
  set A := entry.block.take 148 with hAdef
  set C := (entry.block.drop 148).take 8 with hCdef
  set B := entry.block.drop 156 with hBdef
  have hb1 : poke entry.block off_check (List.replicate 8 32) = A ++ List.replicate 8 32 ++ B := by
    have := poke_mid A C B (List.replicate 8 32) (by simp [hC])
    rw [hA, ← hsplit] at this
    rw [show off_check = 148 from rfl, this]
    simp [hC]
  have hbytes1 : ∀ b ∈ A ++ List.replicate 8 32 ++ B, b < 256 := by
    intro b hb
    simp only [List.mem_append, List.mem_replicate] at hb
    rcases hb with (hb | hb) | hb
    · exact hbytes b (List.mem_of_mem_take hb)
    · omega
    · exact hbytes b (List.mem_of_mem_drop hb)
  obtain ⟨hsum, hlt⟩ := checksum_loop_eq _ hbytes1
  have hret : (calculate_checksum entry).2 = ((A ++ List.replicate 8 32 ++ B).take 500).sum := by
    simp only [calculate_checksum, hb1, hsum]
  refine ⟨hret, ?_, by rw [hret]; exact hlt⟩
  rw [hret]
  set s := ((A ++ List.replicate 8 32 ++ B).take 500).sum with hs
  have hU : s < U32 := by unfold U32; omega
  have hspr : sprintf_o 6 s = fixedOct 6 s ++ [0] := sprintf_o_fixed 6 s (by norm_num) hlt hU
  have hfl : (fixedOct 6 s).length = 6 := fixedOct_length 6 s
  have hb2 : poke (A ++ List.replicate 8 32 ++ B) off_check (sprintf_o 6 s) =
      A ++ (fixedOct 6 s ++ [0, 32]) ++ B := by
    have := poke_mid A (List.replicate 8 32) B (sprintf_o 6 s) (by simp [hspr, hfl])
    rw [hA] at this
    rw [show off_check = 148 from rfl, this, hspr]
    simp [hfl]
  have hb3 : poke (A ++ (fixedOct 6 s ++ [0, 32]) ++ B) (off_check + 6) [0] =
      A ++ (fixedOct 6 s ++ [0, 32]) ++ B := by
    have := poke_mid (A ++ fixedOct 6 s) [0, 32] B [0] (by simp)
    simp only [List.length_append, hA, hfl, List.append_assoc] at this
    simp only [List.append_assoc, show off_check + 6 = 148 + 6 from rfl, this]
    simp
  have hb4 : poke (A ++ (fixedOct 6 s ++ [0, 32]) ++ B) (off_check + 7) [32] =
      A ++ (fixedOct 6 s ++ [0, 32]) ++ B := by
    have := poke_mid (A ++ fixedOct 6 s ++ [0]) [32] B [32] (by simp)
    simp only [List.length_append, hA, hfl, List.append_assoc, List.length_singleton] at this
    simp only [List.append_assoc, show off_check + 7 = 148 + (6 + 1) from rfl]
    simpa using this
  simp only [calculate_checksum, hb1, hsum, ← hs, hb2, hb3, hb4]

/-- C1: for every 512-byte header block, `calculate_checksum` returns the unsigned
sum of the first 500 bytes taken with the `check` field blanked to 8 spaces, leaves
in the `check` field six octal digits, a NUL and a space, the digits decode with
`oct2uint` to that sum, nothing outside the `check` field changes, and recomputing
the checksum of the written header gives the stored value again. -/
theorem C1_checksum_closure (entry : tar_t) (hlen : entry.block.length = 512)
    (hbytes : ∀ b ∈ entry.block, b < 256) :
    (calculate_checksum entry).2 =
        ((poke entry.block off_check (List.replicate 8 32)).take 500).sum ∧
    ((calculate_checksum entry).1.block.drop off_check).take 8 =
        fixedOct 6 (calculate_checksum entry).2 ++ [0, 32] ∧
    (∀ d ∈ fixedOct 6 (calculate_checksum entry).2, 48 ≤ d ∧ d ≤ 55) ∧
    (∀ n, 6 ≤ n → oct2uint ((calculate_checksum entry).1.block.drop off_check) n =
        (calculate_checksum entry).2) ∧
    (calculate_checksum entry).1.block.take off_check = entry.block.take off_check ∧
    (calculate_checksum entry).1.block.drop (off_check + 8) = entry.block.drop (off_check + 8) ∧
    (calculate_checksum entry).1.original_name = entry.original_name ∧
    (calculate_checksum entry).1.begin = entry.begin ∧
    ((poke (calculate_checksum entry).1.block off_check (List.replicate 8 32)).take 500).sum =
        (calculate_checksum entry).2 ∧
    calculate_checksum (calculate_checksum entry).1 = calculate_checksum entry := by
  obtain ⟨hret, hblk, hlt⟩ := calculate_checksum_block entry hlen hbytes
  obtain ⟨hsplit, hA, hC⟩ := block_split entry.block hlen
  set s := (calculate_checksum entry).2 with hs
  have hfl : (fixedOct 6 s).length = 6 := fixedOct_length 6 s
  have hU : s < U32 := by unfold U32; omega
  have hpoke : ∀ M : List Nat, M.length = 8 →
      poke (entry.block.take 148 ++ M ++ entry.block.drop 156) off_check (List.replicate 8 32) =
        entry.block.take 148 ++ List.replicate 8 32 ++ entry.block.drop 156 := by
    intro M hM
    have := poke_mid (entry.block.take 148) M (entry.block.drop 156) (List.replicate 8 32)
      (by simp [hM])
    rw [hA] at this
    rw [show off_check = 148 from rfl, this]
    simp [hM]
  have hblank : poke entry.block off_check (List.replicate 8 32) =
      entry.block.take 148 ++ List.replicate 8 32 ++ entry.block.drop 156 := by
    have := hpoke _ hC
    rwa [← hsplit] at this
  have hblank2 : poke (calculate_checksum entry).1.block off_check (List.replicate 8 32) =
      entry.block.take 148 ++ List.replicate 8 32 ++ entry.block.drop 156 := by
    rw [hblk]
    exact hpoke _ (by simp [hfl])
  have hdrop : (calculate_checksum entry).1.block.drop off_check =
      fixedOct 6 s ++ ([0, 32] ++ entry.block.drop 156) := by
    rw [hblk, show off_check = 148 from rfl, List.append_assoc]
    have := List.drop_left (entry.block.take 148) (fixedOct 6 s ++ [0, 32] ++ entry.block.drop 156)
    rw [hA] at this
    rw [this]
    simp
  refine ⟨?_, ?_, ?_, ?_, ?_, ?_, rfl, rfl, ?_, ?_⟩
  · rw [hblank]; exact hret
  · rw [hdrop, ← List.append_assoc]
    have : (fixedOct 6 s ++ [0, 32]).length = 8 := by simp [hfl]
    rw [← this, List.take_left]
  · intro d hd; exact fixedOct_digit 6 s d hd
  · intro n hn
    rw [hdrop]
    exact oct2uint_fixedOct 6 s n _ hlt hU hn (Or.inr rfl)
  · rw [hblk, show off_check = 148 from rfl, List.append_assoc]
    have := List.take_left (entry.block.take 148) (fixedOct 6 s ++ [0, 32] ++ entry.block.drop 156)
    rw [hA] at this
    rw [this]
  · rw [hblk, show off_check + 8 = 148 + 8 from rfl]
    have h8 : (fixedOct 6 s ++ [0, 32]).length = 8 := by simp [hfl]
    have := List.drop_left (entry.block.take 148 ++ (fixedOct 6 s ++ [0, 32])) (entry.block.drop 156)
    simp only [List.length_append, hA, hfl] at this
    simp only [List.length_cons, List.length_nil] at this
    rw [this]
  · rw [hblank2]; exact hret.symm
  · have hlen2 : (calculate_checksum entry).1.block.length = 512 := by
      rw [hblk]
      simp only [List.length_append, hA, hfl, List.length_drop, hlen]
      rfl
    have hbytes2 : ∀ b ∈ (calculate_checksum entry).1.block, b < 256 := by
      intro b hb
      rw [hblk] at hb
      simp only [List.mem_append] at hb
      rcases hb with (hb | hb | hb) | hb
      · exact hbytes b (List.mem_of_mem_take hb)
      · have := fixedOct_digit 6 s b hb; omega
      · simp at hb; omega
      · exact hbytes b (List.mem_of_mem_drop hb)
    obtain ⟨hret2, hblk2, _⟩ := calculate_checksum_block (calculate_checksum entry).1 hlen2 hbytes2
    have hA2 : (calculate_checksum entry).1.block.take 148 = entry.block.take 148 := by
      rw [hblk, List.append_assoc]
      have := List.take_left (entry.block.take 148) (fixedOct 6 s ++ [0, 32] ++ entry.block.drop 156)
      rw [hA] at this
      rw [this]
    have hB2 : (calculate_checksum entry).1.block.drop 156 = entry.block.drop 156 := by
      rw [hblk]
      have := List.drop_left (entry.block.take 148 ++ (fixedOct 6 s ++ [0, 32])) (entry.block.drop 156)
      simp only [List.length_append, hA, hfl] at this
      simp only [List.length_cons, List.length_nil] at this
      rw [this]
    rw [hA2, hB2, ← hret] at hret2
    rw [hA2, hB2, hret2, ← hblk] at hblk2
    apply Prod.ext
    · have e1 : (calculate_checksum (calculate_checksum entry).1).1.original_name =
          (calculate_checksum entry).1.original_name := rfl
      have e2 : (calculate_checksum (calculate_checksum entry).1).1.begin =
          (calculate_checksum entry).1.begin := rfl
      cases h1 : (calculate_checksum (calculate_checksum entry).1).1
      cases h2 : (calculate_checksum entry).1
      rw [h1, h2] at e1 e2 hblk2
      simp only at e1 e2 hblk2
      simp [e1, e2, hblk2]
    · exact hret2

set_option maxRecDepth 100000 in
theorem C1_checksum_closure_witness :
    sample_entry_ff.block.length = 512 ∧
    (calculate_checksum sample_entry_ff).2 =
        ((poke sample_entry_ff.block off_check (List.replicate 8 32)).take 500).sum ∧
    oct2uint ((calculate_checksum sample_entry_ff).1.block.drop off_check) 8 =
        (calculate_checksum sample_entry_ff).2 :=
  have hlen : sample_entry_ff.block.length = 512 := by decide!
  have h := C1_checksum_closure sample_entry_ff hlen (by
    intro b hb
    simp only [sample_entry_ff, List.mem_replicate] at hb
    omega)
  ⟨hlen, h.1, h.2.2.2.1 8 (by decide)⟩

/-! ## Descriptors -/

theorem sys_write_prefix_length (fd : fd_t) :
    ((fd.data ++ List.replicate (fd.pos - fd.data.length) 0).take fd.pos).length = fd.pos := by
  simp only [List.length_take, List.length_append, List.length_replicate]
  omega

theorem sys_write_sys_write (fd : fd_t) (a b : List Nat) :
    sys_write (sys_write fd a) b = sys_write fd (a ++ b) := by
  have hP := sys_write_prefix_length fd
  set P := (fd.data ++ List.replicate (fd.pos - fd.data.length) 0).take fd.pos with hPdef
  have h1 : (sys_write fd a).data = P ++ a ++ fd.data.drop (fd.pos + a.length) := rfl
  have h2 : (sys_write fd a).pos = fd.pos + a.length := rfl
  have hlen : (P ++ a).length = fd.pos + a.length := by simp [hP]
  have h3 : ((P ++ a ++ fd.data.drop (fd.pos + a.length)) ++
      List.replicate (fd.pos + a.length - (P ++ a ++ fd.data.drop (fd.pos + a.length)).length) 0).take
        (fd.pos + a.length) = P ++ a := by
    rw [List.append_assoc (P ++ a), ← hlen, List.take_left]
  have h4 : (P ++ a ++ fd.data.drop (fd.pos + a.length)).drop (fd.pos + a.length + b.length) =
      fd.data.drop (fd.pos + (a ++ b).length) := by
    rw [← hlen, ← List.drop_drop, List.drop_left, List.drop_drop, hlen, List.length_append]
    congr 1
    omega
  unfold sys_write
  simp only [fd_t.mk.injEq]
  refine ⟨?_, by simp [Nat.add_assoc]⟩
  show ((sys_write fd a).data ++ List.replicate ((sys_write fd a).pos - (sys_write fd a).data.length) 0).take
      (sys_write fd a).pos ++ b ++ (sys_write fd a).data.drop ((sys_write fd a).pos + b.length) = _
  rw [h1, h2, h3, h4]
  simp [List.append_assoc]

theorem sys_write_at_end (fd : fd_t) (buf : List Nat) (h : fd.pos = fd.data.length) :
    (sys_write fd buf).data = fd.data ++ buf := by
  unfold sys_write
  simp only [h, Nat.sub_self, List.replicate_zero, List.append_nil, List.take_length]
  rw [List.drop_of_length_le (by omega)]
  simp

/-! ## The terminator -/

theorem write_end_data_eq (fd : fd_t) (N : Nat) :
    write_end_data fd (N : Int) =
      if 10240 - N % 10240 < 1024 then
        (((10240 - N % 10240 + 10240 : Nat) : Int),
          write_size (write_size fd (List.replicate (10240 - N % 10240) 0))
            (List.replicate 10240 0))
      else (((10240 - N % 10240 : Nat) : Int), write_size fd (List.replicate (10240 - N % 10240) 0)) := by
  have hm : N % 10240 < 10240 := Nat.mod_lt _ (by norm_num)
  have hpad : ((RECORDSIZE : Nat) : Int) - (N : Int).tmod ((RECORDSIZE : Nat) : Int) =
      ((10240 - N % 10240 : Nat) : Int) := by
    have : (N : Int).tmod ((RECORDSIZE : Nat) : Int) = ((N % 10240 : Nat) : Int) := by
      unfold RECORDSIZE
      rw [← Int.ofNat_tmod]
    rw [this]
    unfold RECORDSIZE
    omega
  unfold write_end_data
  simp only [hpad, Int.toNat_ofNat]
  by_cases h : 10240 - N % 10240 < 1024
  · have h' : ((10240 - N % 10240 : Nat) : Int) < 2 * ((BLOCKSIZE : Nat) : Int) := by
      unfold BLOCKSIZE; omega
    rw [if_pos h', if_pos h]
    refine Prod.ext ?_ rfl
    show ((10240 - N % 10240 : Nat) : Int) + ((10240 : Nat) : Int) = _
    rw [← Nat.cast_add]
  · have h' : ¬ ((10240 - N % 10240 : Nat) : Int) < 2 * ((BLOCKSIZE : Nat) : Int) := by
      unfold BLOCKSIZE; omega
    rw [if_neg h', if_neg h]

/-- C6: for every final payload offset `N`, `write_end_data(fd, N)` first writes
`pad = 10240 - N mod 10240` zero bytes and, exactly when `pad < 1024`, a further
10240 zero bytes; it returns the number `k` of bytes written, `k` is at least 1024
and `N + k` is a multiple of 10240; when the descriptor stands at the end of a
file of length `N`, the file afterwards is the old content followed by `k` zero
bytes, so it ends with two zero blocks on a record boundary. -/
theorem C6_write_end_data (fd : fd_t) (N : Nat) :
    (write_end_data fd (N : Int)).2 =
      (if 10240 - N % 10240 < 1024 then
        write_size (write_size fd (List.replicate (10240 - N % 10240) 0)) (List.replicate 10240 0)
       else write_size fd (List.replicate (10240 - N % 10240) 0)) ∧
    (∃ k : Nat, (write_end_data fd (N : Int)).1 = (k : Int) ∧
      k = (if 10240 - N % 10240 < 1024 then 10240 - N % 10240 + 10240 else 10240 - N % 10240) ∧
      (write_end_data fd (N : Int)).2 = sys_write fd (List.replicate k 0) ∧
      1024 ≤ k ∧ (N + k) % 10240 = 0 ∧
      (fd.pos = N → fd.data.length = N →
        (write_end_data fd (N : Int)).2.data = fd.data ++ List.replicate k 0 ∧
        (write_end_data fd (N : Int)).2.data.length % 10240 = 0 ∧
        (write_end_data fd (N : Int)).2.data.drop
          ((write_end_data fd (N : Int)).2.data.length - 1024) = List.replicate 1024 0)) := by
  have hm : N % 10240 < 10240 := Nat.mod_lt _ (by norm_num)
  have hdm := Nat.div_add_mod N 10240
  rw [write_end_data_eq]
  by_cases h : 10240 - N % 10240 < 1024
  · simp only [if_pos h]
    refine ⟨trivial, 10240 - N % 10240 + 10240, rfl, rfl, ?_, by omega, by omega, ?_⟩
    · unfold write_size
      rw [sys_write_sys_write, ← List.replicate_add]
    · intro hp hl
      have hd : (write_size (write_size fd (List.replicate (10240 - N % 10240) 0))
          (List.replicate 10240 0)).data = fd.data ++ List.replicate (10240 - N % 10240 + 10240) 0 := by
        unfold write_size
        rw [sys_write_sys_write, ← List.replicate_add, sys_write_at_end _ _ (by omega)]
      rw [hd]
      refine ⟨rfl, by simp only [List.length_append, List.length_replicate]; omega, ?_⟩
      have e : (fd.data ++ List.replicate (10240 - N % 10240 + 10240) 0).length - 1024 =
          fd.data.length + (10240 - N % 10240 + 10240 - 1024) := by
        simp only [List.length_append, List.length_replicate]; omega
      rw [e, ← List.drop_drop, List.drop_left, List.drop_replicate]
      have e2 : 10240 - N % 10240 + 10240 - (10240 - N % 10240 + 10240 - 1024) = 1024 := by omega
      rw [e2]
  · simp only [if_neg h]
    refine ⟨trivial, 10240 - N % 10240, rfl, rfl, rfl, by omega, by omega, ?_⟩
    intro hp hl
    have hd : (write_size fd (List.replicate (10240 - N % 10240) 0)).data =
        fd.data ++ List.replicate (10240 - N % 10240) 0 := by
      unfold write_size
      rw [sys_write_at_end _ _ (by omega)]
    rw [hd]
    refine ⟨rfl, by simp only [List.length_append, List.length_replicate]; omega, ?_⟩
    have e : (fd.data ++ List.replicate (10240 - N % 10240) 0).length - 1024 =
        fd.data.length + (10240 - N % 10240 - 1024) := by
      simp only [List.length_append, List.length_replicate]; omega
    rw [e, ← List.drop_drop, List.drop_left, List.drop_replicate]
    have e2 : 10240 - N % 10240 - (10240 - N % 10240 - 1024) = 1024 := by omega
    rw [e2]

theorem C6_write_end_data_witness :
    (write_end_data { data := [], pos := 0 } ((0 : Nat) : Int)).2.data.length % 10240 = 0 := by
  obtain ⟨_, k, _, _, _, _, _, h⟩ := C6_write_end_data { data := [], pos := 0 } 0
  exact (h rfl rfl).2.1

/-! ## Fields of a block -/

@[simp] theorem poke_length_eq (mem : List Nat) (off : Nat) (bs : List Nat) :
    (poke mem off bs).length = mem.length := by
  simp only [poke, List.length_append, List.length_take, List.length_drop]
  omega

theorem getElem?_poke (mem bs : List Nat) (off i : Nat) :
    (poke mem off bs)[i]? =
      if off ≤ i ∧ i < off + bs.length ∧ i < mem.length then bs[i - off]? else mem[i]? := by
  unfold poke
  by_cases h1 : i < off
  · rw [if_neg (by omega), List.append_assoc]
    by_cases h2 : i < mem.length
    · rw [List.getElem?_append_left (by simp; omega), List.getElem?_take_of_lt h1]
    · rw [List.getElem?_eq_none (by simp; omega), List.getElem?_eq_none (by omega)]
  · by_cases h2 : i < mem.length
    · by_cases h3 : i < off + bs.length
      · rw [if_pos ⟨by omega, h3, h2⟩, List.getElem?_append_left (by simp; omega),
          List.getElem?_append_right (by simp; omega), List.getElem?_take_of_lt (by simp; omega)]
        congr 1
        simp
        omega
      · rw [if_neg (by omega), List.getElem?_append_right (by simp; omega), List.getElem?_drop]
        congr 1
        simp
        omega
    · rw [if_neg (by omega), List.getElem?_eq_none (by simp; omega),
        List.getElem?_eq_none (by omega)]

theorem getElem?_slice (mem : List Nat) (off n i : Nat) :
    (slice mem off n)[i]? = if i < n then mem[off + i]? else none := by
  unfold slice
  rw [List.getElem?_take, List.getElem?_drop]

theorem slice_length (mem : List Nat) (off n : Nat) (h : off + n ≤ mem.length) :
    (slice mem off n).length = n := by
  simp only [slice, List.length_take, List.length_drop]
  omega

theorem slice_poke_disjoint (mem bs : List Nat) (off a n : Nat)
    (h : a + n ≤ off ∨ off + bs.length ≤ a) :
    slice (poke mem off bs) a n = slice mem a n := by
  apply List.ext_getElem?
  intro i
  rw [getElem?_slice, getElem?_slice]
  by_cases hi : i < n
  · rw [if_pos hi, if_pos hi, getElem?_poke, if_neg (by omega)]
  · rw [if_neg hi, if_neg hi]

theorem slice_poke_self (mem bs : List Nat) (off : Nat) (h : off + bs.length ≤ mem.length) :
    slice (poke mem off bs) off bs.length = bs := by
  apply List.ext_getElem?
  intro i
  rw [getElem?_slice]
  by_cases hi : i < bs.length
  · rw [if_pos hi, getElem?_poke, if_pos ⟨by omega, by omega, by omega⟩]
    congr 1
    omega
  · rw [if_neg hi, List.getElem?_eq_none (by omega)]

theorem slice_slice (mem : List Nat) (off n a m : Nat) (h : a + m ≤ n) :
    slice (slice mem off n) a m = slice mem (off + a) m := by
  apply List.ext_getElem?
  intro i
  simp only [getElem?_slice]
  by_cases hi : i < m
  · rw [if_pos hi, if_pos hi, if_pos (by omega), Nat.add_assoc]
  · rw [if_neg hi, if_neg hi]

theorem drop_eq_slice_append (mem : List Nat) (off n : Nat) :
    mem.drop off = slice mem off n ++ mem.drop (off + n) := by
  unfold slice
  rw [← List.drop_drop, List.take_append_drop]

theorem slice_append_left (A B : List Nat) : slice (A ++ B) 0 A.length = A := by
  unfold slice
  simp

theorem peek_eq_of_slice (mem : List Nat) (i b : Nat) (h : slice mem i 1 = [b]) :
    peek mem i = b := by
  have := congrArg (fun l => l[0]?) h
  simp only [getElem?_slice, Nat.add_zero] at this
  rw [if_pos (by omega)] at this
  unfold peek
  rw [List.getD_eq_getElem?_getD, this]
  rfl

/-- Decoding a field that holds `w` octal digits followed by a NUL. -/
theorem oct2uint_of_slice (mem : List Nat) (off w v n : Nat)
    (hs : slice mem off (w + 1) = fixedOct w v ++ [0]) (hv : v < 8 ^ w) (hu : v < U32)
    (hn : w ≤ n) : oct2uint (mem.drop off) n = v := by
  rw [drop_eq_slice_append mem off (w + 1), hs, List.append_assoc]
  exact oct2uint_fixedOct w v n _ hv hu hn (Or.inr rfl)

/-! ## Lengths of octal text -/

theorem octDigits_length_le (n : Nat) (h : n < U32) : (octDigits n).length ≤ 11 := by
  have h8 : n < 8 ^ (10 + 1) := by unfold U32 at h; omega
  obtain ⟨D, hD, hl, _⟩ := octDigitsAux_spec 10 n (n + 1) [] h8 (by omega)
  unfold octDigits
  rw [hD]
  simpa using hl

theorem sprintf_o_length_le (w v : Nat) (hw : w ≤ 11) : (sprintf_o w v).length ≤ 12 := by
  have := octDigits_length_le (v % U32) (Nat.mod_lt _ (by unfold U32; norm_num))
  unfold sprintf_o
  simp only [List.length_append, List.length_replicate, List.length_singleton]
  omega

theorem sprintf_o_eleven (v : Nat) : sprintf_o 11 v = fixedOct 11 (v % U32) ++ [0] := by
  have hu : v % U32 < U32 := Nat.mod_lt _ (by unfold U32; norm_num)
  have hu2 : v % U32 < 8 ^ 11 := by
    have : U32 ≤ 8 ^ 11 := by unfold U32; norm_num
    omega
  have h := sprintf_o_fixed 11 (v % U32) (by norm_num) hu2 hu
  unfold sprintf_o at h ⊢
  rwa [Nat.mod_mod] at h

/-! ## The checksum leaves the other fields alone -/

theorem checksum_foldl_le (l : List Nat) :
    ∀ c, c + 255 * l.length < U32 →
      l.foldl (fun check b => (check + b % 256) % U32) c ≤ c + 255 * l.length := by
  induction l with
  | nil => intro c _; simp
  | cons b l ih =>
    intro c hc
    have hb : b % 256 < 256 := Nat.mod_lt _ (by norm_num)
    simp only [List.length_cons] at hc
    have h1 : (c + b % 256) % U32 = c + b % 256 := Nat.mod_eq_of_lt (by omega)
    rw [List.foldl_cons, h1]
    have := ih (c + b % 256) (by omega)
    simp only [List.length_cons]
    omega

theorem checksum_loop_lt (block : List Nat) : checksum_loop block < 8 ^ 6 := by
  have hl : (block.take 500).length ≤ 500 := by simp
  have hU : U32 = 4294967296 := by unfold U32; norm_num
  have := checksum_foldl_le (block.take 500) 0 (by omega)
  unfold checksum_loop
  norm_num
  omega

theorem sprintf_o_six_length (v : Nat) (h : v < 8 ^ 6) : (sprintf_o 6 v).length = 7 := by
  rw [sprintf_o_fixed 6 v (by norm_num) h (by unfold U32; omega)]
  simp [fixedOct_length]

theorem calculate_checksum_slice (e : tar_t) (a n : Nat) (h : a + n ≤ 148 ∨ 156 ≤ a) :
    slice (calculate_checksum e).1.block a n = slice e.block a n := by
  have h7 := sprintf_o_six_length _ (checksum_loop_lt (poke e.block off_check (List.replicate 8 32)))
  simp only [calculate_checksum]
  rw [slice_poke_disjoint _ _ _ _ _ (by simp [off_check]; omega),
    slice_poke_disjoint _ _ _ _ _ (by simp [off_check]; omega),
    slice_poke_disjoint _ _ _ _ _ (by rw [h7]; simp [off_check]; omega),
    slice_poke_disjoint _ _ _ _ _ (by simp [off_check]; omega)]

@[simp] theorem calculate_checksum_length (e : tar_t) :
    (calculate_checksum e).1.block.length = e.block.length := by
  simp [calculate_checksum]

@[simp] theorem calculate_checksum_original_name (e : tar_t) :
    (calculate_checksum e).1.original_name = e.original_name := rfl

@[simp] theorem calculate_checksum_begin (e : tar_t) :
    (calculate_checksum e).1.begin = e.begin := rfl

/-! ## The fields `format_tar_data` fills -/

theorem format_tar_data_some (fs : fs_t) (filename : List Nat) (e : tar_t)
    (h : format_tar_data fs filename = some e) :
    ∃ st b1 login, fs.lstat filename = some st ∧
      format_type fs st filename (format_common st filename) = some b1 ∧
      fs.getlogin = some login ∧ login.length < 32 ∧
      e = (calculate_checksum (fresh_entry filename (format_names fs st login b1))).1 := by
  unfold format_tar_data at h
  cases hl : fs.lstat filename with
  | none => simp [hl] at h
  | some st =>
    simp only [hl] at h
    cases ht : format_type fs st filename (format_common st filename) with
    | none => simp [ht] at h
    | some b1 =>
      simp only [ht] at h
      cases hg : fs.getlogin with
      | none => simp [hg] at h
      | some login =>
        simp only [hg] at h
        by_cases h32 : 32 ≤ login.length
        · simp [h32] at h
        · rw [if_neg h32] at h
          exact ⟨st, b1, login, rfl, ht, rfl, by omega, (Option.some.inj h).symm⟩

theorem format_names_slice (fs : fs_t) (st : stat_t) (login b : List Nat) (a n : Nat)
    (hlogin : login.length < 32) (h : a + n ≤ 265 ∨ 397 ≤ a) :
    slice (format_names fs st login b) a n = slice b a n := by
  unfold format_names
  cases fs.getgrgid st.st_gid with
  | none =>
    simp only
    rw [slice_poke_disjoint _ _ _ _ _ (by simp [off_owner]; omega)]
  | some gr_name =>
    simp only
    have hg : (strncpy gr_name 100).length = 100 := by
      simp only [strncpy, List.length_append, List.length_take, List.length_replicate]
      omega
    rw [slice_poke_disjoint _ _ _ _ _ (by rw [hg]; simp [off_group]; omega),
      slice_poke_disjoint _ _ _ _ _ (by simp [off_owner]; omega)]

@[simp] theorem format_names_length (fs : fs_t) (st : stat_t) (login b : List Nat) :
    (format_names fs st login b).length = b.length := by
  unfold format_names
  cases fs.getgrgid st.st_gid <;> simp

theorem format_type_slice (fs : fs_t) (st : stat_t) (filename b b1 : List Nat) (a n : Nat)
    (ht : format_type fs st filename b = some b1) (h : a + n ≤ 124 ∨ (135 ≤ a ∧ a + n ≤ 156)) :
    slice b1 a n = slice b a n := by
  have h8 : ∀ v, (sprintf_o 8 v).length ≤ 12 := fun v => sprintf_o_length_le 8 v (by norm_num)
  have h8a := h8 st.dev_major
  have h8b := h8 st.dev_minor
  unfold format_type at ht
  simp only at ht
  split_ifs at ht
  · rw [← Option.some.inj ht, slice_poke_disjoint _ _ _ _ _ (by simp [off_type]; omega)]
  · cases hr : fs.readlink filename with
    | none => simp [hr] at ht
    | some target =>
      simp only [hr] at ht
      rw [← Option.some.inj ht,
        slice_poke_disjoint _ _ _ _ _ (by simp [off_link_name]; omega),
        slice_poke_disjoint _ _ _ _ _ (by simp [off_size]; omega),
        slice_poke_disjoint _ _ _ _ _ (by simp [off_type]; omega)]
  · rw [← Option.some.inj ht, slice_poke_disjoint _ _ _ _ _ (by simp [off_minor]; omega),
      slice_poke_disjoint _ _ _ _ _ (by simp [off_major]; omega),
      slice_poke_disjoint _ _ _ _ _ (by simp [off_type]; omega)]
  · rw [← Option.some.inj ht, slice_poke_disjoint _ _ _ _ _ (by simp [off_minor]; omega),
      slice_poke_disjoint _ _ _ _ _ (by simp [off_major]; omega),
      slice_poke_disjoint _ _ _ _ _ (by simp [off_type]; omega)]
  · rw [← Option.some.inj ht, slice_poke_disjoint _ _ _ _ _ (by simp [off_type]; omega)]
  · rw [← Option.some.inj ht, slice_poke_disjoint _ _ _ _ _ (by simp [off_type]; omega)]

theorem format_type_length (fs : fs_t) (st : stat_t) (filename b b1 : List Nat)
    (ht : format_type fs st filename b = some b1) : b1.length = b.length := by
  unfold format_type at ht
  simp only at ht
  split_ifs at ht
  · rw [← Option.some.inj ht]; simp
  · cases hr : fs.readlink filename with
    | none => simp [hr] at ht
    | some target =>
      simp only [hr] at ht
      rw [← Option.some.inj ht]; simp
  · rw [← Option.some.inj ht]; simp
  · rw [← Option.some.inj ht]; simp
  · rw [← Option.some.inj ht]; simp
  · rw [← Option.some.inj ht]; simp

@[simp] theorem format_common_length (st : stat_t) (filename : List Nat) :
    (format_common st filename).length = 512 := by
  simp only [format_common, poke_length_eq, List.length_replicate]

/-- The size field after the `switch`: zeroed for a symbolic link, kept otherwise. -/
theorem format_type_size (fs : fs_t) (st : stat_t) (filename b b1 : List Nat)
    (hb : b.length = 512)
    (ht : format_type fs st filename b = some b1) :
    slice b1 off_size 11 =
      if st.st_mode &&& S_IFMT = S_IFLNK then List.replicate 11 48 else slice b off_size 11 := by
  have h8 : ∀ v, (sprintf_o 8 v).length ≤ 12 := fun v => sprintf_o_length_le 8 v (by norm_num)
  have h8a := h8 st.dev_major
  have h8b := h8 st.dev_minor
  unfold format_type at ht
  simp only at ht
  split_ifs at ht with h1 h2 h3 h4 h5 h6
  · have hne : ¬ st.st_mode &&& S_IFMT = S_IFLNK := by rw [h1]; decide
    rw [if_neg hne, ← Option.some.inj ht,
      slice_poke_disjoint _ _ _ _ _ (by simp [off_type, off_size])]
  · cases hr : fs.readlink filename with
    | none => simp [hr] at ht
    | some target =>
      simp only [hr] at ht
      rw [if_pos h2, ← Option.some.inj ht,
        slice_poke_disjoint _ _ _ _ _ (by simp [off_link_name, off_size])]
      have := slice_poke_self (poke b off_type [SYMLINK]) (List.replicate 11 48) off_size
        (by simp [off_size, hb])
      simpa using this
  · rw [if_neg h2, ← Option.some.inj ht,
      slice_poke_disjoint _ _ _ _ _ (by simp [off_minor, off_size]),
      slice_poke_disjoint _ _ _ _ _ (by simp [off_major, off_size]),
      slice_poke_disjoint _ _ _ _ _ (by simp [off_type, off_size])]
  · rw [if_neg h2, ← Option.some.inj ht,
      slice_poke_disjoint _ _ _ _ _ (by simp [off_minor, off_size]),
      slice_poke_disjoint _ _ _ _ _ (by simp [off_major, off_size]),
      slice_poke_disjoint _ _ _ _ _ (by simp [off_type, off_size])]
  · rw [if_neg h2, ← Option.some.inj ht,
      slice_poke_disjoint _ _ _ _ _ (by simp [off_type, off_size])]
  · rw [if_neg h2, ← Option.some.inj ht,
      slice_poke_disjoint _ _ _ _ _ (by simp [off_type, off_size])]

theorem slice_add (mem : List Nat) (a n m : Nat) :
    slice mem a (n + m) = slice mem a n ++ slice mem (a + n) m := by
  unfold slice
  rw [List.take_add, List.drop_drop]

/-! ## The numeric fields written by `format_tar_data` -/

theorem and_0777_lt (m : Nat) : m &&& 0o777 < 512 := by
  have : m &&& 0o777 ≤ 0o777 := Nat.and_le_right
  omega

theorem sprintf_o_seven (v : Nat) (h : v < 8 ^ 7) : sprintf_o 7 v = fixedOct 7 v ++ [0] :=
  sprintf_o_fixed 7 v (by norm_num) h (by unfold U32; omega)

theorem format_common_mode (st : stat_t) (filename : List Nat) :
    slice (format_common st filename) off_mode 8 = fixedOct 7 (st.st_mode &&& 0o777) ++ [0] := by
  have hm := and_0777_lt st.st_mode
  have hs := sprintf_o_seven (st.st_mode &&& 0o777) (by omega)
  have hl : (sprintf_o 7 (st.st_mode &&& 0o777)).length = 8 := by rw [hs]; simp [fixedOct_length]
  unfold format_common
  simp only
  rw [slice_poke_disjoint _ _ _ _ _ (by simp [off_mode, off_ustar]),
    slice_poke_disjoint _ _ _ _ _ (by simp [off_mode, off_group]),
    slice_poke_disjoint _ _ _ _ _ (by simp [off_mode, off_mtime]),
    slice_poke_disjoint _ _ _ _ _ (by simp [off_mode, off_size]),
    slice_poke_disjoint _ _ _ _ _ (by simp [off_mode, off_gid]),
    slice_poke_disjoint _ _ _ _ _ (by simp [off_mode, off_uid])]
  have := slice_poke_self (poke (List.replicate 512 0) off_name
    (strncpy (filename.drop (strip_move filename)) 100)) (sprintf_o 7 (st.st_mode &&& 0o777)) off_mode
    (by rw [hl]; simp only [poke_length_eq, List.length_replicate, off_mode]; omega)
  rw [hl] at this
  rw [this, hs]

theorem format_common_uid (st : stat_t) (filename : List Nat) (h : st.st_uid < 8 ^ 7) :
    slice (format_common st filename) off_uid 8 = fixedOct 7 st.st_uid ++ [0] := by
  have hs := sprintf_o_seven st.st_uid h
  have hl : (sprintf_o 7 st.st_uid).length = 8 := by rw [hs]; simp [fixedOct_length]
  unfold format_common
  simp only
  rw [slice_poke_disjoint _ _ _ _ _ (by simp [off_uid, off_ustar]),
    slice_poke_disjoint _ _ _ _ _ (by simp [off_uid, off_group]),
    slice_poke_disjoint _ _ _ _ _ (by simp [off_uid, off_mtime]),
    slice_poke_disjoint _ _ _ _ _ (by simp [off_uid, off_size]),
    slice_poke_disjoint _ _ _ _ _ (by simp [off_uid, off_gid])]
  have := slice_poke_self (poke (poke (List.replicate 512 0) off_name
    (strncpy (filename.drop (strip_move filename)) 100)) off_mode
      (sprintf_o 7 (st.st_mode &&& 0o777))) (sprintf_o 7 st.st_uid) off_uid
    (by rw [hl]; simp only [poke_length_eq, List.length_replicate, off_uid]; omega)
  rw [hl] at this
  rw [this, hs]

theorem format_common_gid (st : stat_t) (filename : List Nat) (h : st.st_gid < 8 ^ 7) :
    slice (format_common st filename) off_gid 8 = fixedOct 7 st.st_gid ++ [0] := by
  have hs := sprintf_o_seven st.st_gid h
  have hl : (sprintf_o 7 st.st_gid).length = 8 := by rw [hs]; simp [fixedOct_length]
  unfold format_common
  simp only
  rw [slice_poke_disjoint _ _ _ _ _ (by simp [off_gid, off_ustar]),
    slice_poke_disjoint _ _ _ _ _ (by simp [off_gid, off_group]),
    slice_poke_disjoint _ _ _ _ _ (by simp [off_gid, off_mtime]),
    slice_poke_disjoint _ _ _ _ _ (by simp [off_gid, off_size])]
  have := slice_poke_self (poke (poke (poke (List.replicate 512 0) off_name
    (strncpy (filename.drop (strip_move filename)) 100)) off_mode
      (sprintf_o 7 (st.st_mode &&& 0o777))) off_uid (sprintf_o 7 st.st_uid))
      (sprintf_o 7 st.st_gid) off_gid
    (by rw [hl]; simp only [poke_length_eq, List.length_replicate, off_gid]; omega)
  rw [hl] at this
  rw [this, hs]

theorem format_common_size (st : stat_t) (filename : List Nat) :
    slice (format_common st filename) off_size 12 = fixedOct 11 (st.st_size % U32) ++ [0] := by
  have hs := sprintf_o_eleven st.st_size
  have hl : (sprintf_o 11 st.st_size).length = 12 := by rw [hs]; simp [fixedOct_length]
  unfold format_common
  simp only
  rw [slice_poke_disjoint _ _ _ _ _ (by simp [off_size, off_ustar]),
    slice_poke_disjoint _ _ _ _ _ (by simp [off_size, off_group]),
    slice_poke_disjoint _ _ _ _ _ (by simp [off_size, off_mtime])]
  have := slice_poke_self (poke (poke (poke (poke (List.replicate 512 0) off_name
    (strncpy (filename.drop (strip_move filename)) 100)) off_mode
      (sprintf_o 7 (st.st_mode &&& 0o777))) off_uid (sprintf_o 7 st.st_uid))
      off_gid (sprintf_o 7 st.st_gid)) (sprintf_o 11 st.st_size) off_size
    (by rw [hl]; simp only [poke_length_eq, List.length_replicate, off_size]; omega)
  rw [hl] at this
  rw [this, hs]

theorem format_common_mtime (st : stat_t) (filename : List Nat) :
    slice (format_common st filename) off_mtime 12 = fixedOct 11 (st.st_mtime % U32) ++ [0] := by
  have hs := sprintf_o_eleven st.st_mtime
  have hl : (sprintf_o 11 st.st_mtime).length = 12 := by rw [hs]; simp [fixedOct_length]
  unfold format_common
  simp only
  rw [slice_poke_disjoint _ _ _ _ _ (by simp [off_mtime, off_ustar]),
    slice_poke_disjoint _ _ _ _ _ (by simp [off_mtime, off_group])]
  have := slice_poke_self (poke (poke (poke (poke (poke (List.replicate 512 0) off_name
    (strncpy (filename.drop (strip_move filename)) 100)) off_mode
      (sprintf_o 7 (st.st_mode &&& 0o777))) off_uid (sprintf_o 7 st.st_uid))
      off_gid (sprintf_o 7 st.st_gid)) off_size (sprintf_o 11 st.st_size))
      (sprintf_o 11 st.st_mtime) off_mtime
    (by rw [hl]; simp only [poke_length_eq, List.length_replicate, off_mtime]; omega)
  rw [hl] at this
  rw [this, hs]

/-- A field below the checksum, as `format_tar_data` leaves it, is the field left
by the `switch` on the file type. -/
theorem format_tar_data_low_slice (fs : fs_t) (filename : List Nat) (e : tar_t)
    (h : format_tar_data fs filename = some e) (a n : Nat) (ha : a + n ≤ 148) :
    ∃ st b1, fs.lstat filename = some st ∧
      format_type fs st filename (format_common st filename) = some b1 ∧
      slice e.block a n = slice b1 a n := by
  obtain ⟨st, b1, login, hl, ht, _, h32, he⟩ := format_tar_data_some fs filename e h
  refine ⟨st, b1, hl, ht, ?_⟩
  rw [he, calculate_checksum_slice _ _ _ (Or.inl ha)]
  exact format_names_slice fs st login b1 a n h32 (Or.inl (by omega))

theorem slice_append_right (A B : List Nat) : slice (A ++ B) A.length B.length = B := by
  unfold slice
  simp

theorem slice_split_of_eq (mem : List Nat) (a : Nat) (F G : List Nat)
    (h : slice mem a (F.length + G.length) = F ++ G) :
    slice mem a F.length = F ∧ slice mem (a + F.length) G.length = G := by
  constructor
  · have := slice_slice mem a (F.length + G.length) 0 F.length (by omega)
    rw [h, slice_append_left, Nat.add_zero] at this
    exact this.symm
  · have := slice_slice mem a (F.length + G.length) F.length G.length (by omega)
    rw [h, slice_append_right] at this
    exact this.symm

/-- The 12 bytes of the size field as `format_tar_data` leaves them. -/
theorem format_tar_data_size_field (fs : fs_t) (filename : List Nat) (st : stat_t) (e : tar_t)
    (hl : fs.lstat filename = some st) (he : format_tar_data fs filename = some e) :
    slice e.block off_size 12 =
      fixedOct 11 (if st.st_mode &&& S_IFMT = S_IFLNK then 0 else st.st_size % U32) ++ [0] := by
  obtain ⟨st', b1, hl', ht, hs⟩ := format_tar_data_low_slice fs filename e he off_size 12
    (by simp [off_size])
  rw [hl] at hl'
  cases Option.some.inj hl'
  have hc := format_common_size st filename
  have hF : (fixedOct 11 (st.st_size % U32)).length = 11 := fixedOct_length _ _
  have hc' : slice (format_common st filename) off_size
      ((fixedOct 11 (st.st_size % U32)).length + [0].length) =
      fixedOct 11 (st.st_size % U32) ++ [0] := by
    rw [hF]; exact hc
  obtain ⟨h11, h1⟩ := slice_split_of_eq _ _ _ _ hc'
  rw [hF] at h11 h1
  have hsz := format_type_size fs st filename _ b1 (format_common_length st filename) ht
  have hlast : slice b1 (off_size + 11) 1 = slice (format_common st filename) (off_size + 11) 1 :=
    format_type_slice fs st filename _ b1 _ _ ht (Or.inr (by simp [off_size]))
  rw [hs, show (12 : Nat) = 11 + 1 from rfl, slice_add, hsz, hlast]
  simp only [List.length_singleton] at h1
  rw [h1, h11]
  by_cases hk : st.st_mode &&& S_IFMT = S_IFLNK
  · rw [if_pos hk, if_pos hk, fixedOct_zero]
  · rw [if_neg hk, if_neg hk]

/-- C10 (amended): in a header filled by `format_tar_data`, `oct2uint` called on
the mode, uid, gid, size or mtime field with the digit count of the field, or
more, returns the value that was encoded: the permission bits for the mode, the
uid and the gid when they are below `8 ^ 7`, and the size and the mtime when they
are below `2 ^ 32`, the range of the `int` they are cast to (the size of a
symbolic link is stored as 0). -/
theorem C10_numeric_fields_roundtrip (fs : fs_t) (filename : List Nat) (st : stat_t) (e : tar_t)
    (hl : fs.lstat filename = some st) (he : format_tar_data fs filename = some e) :
    (∀ n, 7 ≤ n → oct2uint (e.block.drop off_mode) n = st.st_mode &&& 0o777) ∧
    (st.st_uid < 8 ^ 7 → ∀ n, 7 ≤ n → oct2uint (e.block.drop off_uid) n = st.st_uid) ∧
    (st.st_gid < 8 ^ 7 → ∀ n, 7 ≤ n → oct2uint (e.block.drop off_gid) n = st.st_gid) ∧
    (st.st_size < 2 ^ 32 → ∀ n, 11 ≤ n → oct2uint (e.block.drop off_size) n =
      if st.st_mode &&& S_IFMT = S_IFLNK then 0 else st.st_size) ∧
    (st.st_mtime < 2 ^ 32 → ∀ n, 11 ≤ n → oct2uint (e.block.drop off_mtime) n = st.st_mtime) := by
  have low : ∀ a n, a + n ≤ 124 ∨ (135 ≤ a ∧ a + n ≤ 148) →
      slice e.block a n = slice (format_common st filename) a n := by
    intro a n han
    obtain ⟨st', b1, hl', ht, hs⟩ := format_tar_data_low_slice fs filename e he a n (by omega)
    rw [hl] at hl'
    cases Option.some.inj hl'
    rw [hs]
    exact format_type_slice fs st filename _ b1 a n ht (by omega)
  have hU : U32 = 2 ^ 32 := rfl
  refine ⟨?_, ?_, ?_, ?_, ?_⟩
  · intro n hn
    have hm := and_0777_lt st.st_mode
    have := low off_mode 8 (Or.inl (by simp [off_mode]))
    rw [format_common_mode] at this
    exact oct2uint_of_slice e.block off_mode 7 _ n this (by omega) (by rw [hU]; omega) hn
  · intro hu n hn
    have := low off_uid 8 (Or.inl (by simp [off_uid]))
    rw [format_common_uid st filename hu] at this
    exact oct2uint_of_slice e.block off_uid 7 _ n this hu (by rw [hU]; omega) hn
  · intro hg n hn
    have := low off_gid 8 (Or.inl (by simp [off_gid]))
    rw [format_common_gid st filename hg] at this
    exact oct2uint_of_slice e.block off_gid 7 _ n this hg (by rw [hU]; omega) hn
  · intro hsz n hn
    have := format_tar_data_size_field fs filename st e hl he
    rw [Nat.mod_eq_of_lt (by rw [hU]; exact hsz)] at this
    refine oct2uint_of_slice e.block off_size 11 _ n this ?_ ?_ hn
    · split_ifs <;> omega
    · rw [hU]; split_ifs <;> omega
  · intro hmt n hn
    have := low off_mtime 12 (Or.inr (by simp [off_mtime]))
    rw [format_common_mtime, Nat.mod_eq_of_lt (by rw [hU]; exact hmt)] at this
    exact oct2uint_of_slice e.block off_mtime 11 _ n this (by omega) (by rw [hU]; omega) hn

set_option maxRecDepth 100000 in
theorem C10_numeric_fields_roundtrip_witness :
    ∃ e, format_tar_data (fs_one path_f (st_regular 6) [1, 2, 3, 4, 5, 6] none) path_f = some e ∧
      oct2uint (e.block.drop off_mode) 7 = 0o644 ∧ oct2uint (e.block.drop off_size) 11 = 6 := by
  cases he : format_tar_data (fs_one path_f (st_regular 6) [1, 2, 3, 4, 5, 6] none) path_f with
  | none => exact absurd he (by decide!)
  | some e =>
    have h := C10_numeric_fields_roundtrip (fs_one path_f (st_regular 6) [1, 2, 3, 4, 5, 6] none)
      path_f (st_regular 6) e rfl he
    exact ⟨e, rfl, h.1 7 (by decide), h.2.2.2.1 (by decide) 11 (by decide)⟩

set_option maxRecDepth 100000 in
/-- C10 fails as stated.  A regular file of size `2 ^ 32`, which is below `8 ^ 11`,
gets the size field `00000000000`, which decodes to 0; and the major number 1 of a
character device, which is below `8 ^ 7`, decodes to 0 with the digit count 7 that
`extract_entry` and `ls_entry` pass, both when the group of the file is known
(the 100-byte `strncpy` into `group` wipes the field) and when it is not (the
field holds 8 digits, of which 7 are read). -/
theorem C10_counterexample :
    ((format_tar_data (fs_one path_f (st_regular (2 ^ 32)) [] none) path_f).map
        (fun e => oct2uint (e.block.drop off_size) 11) = some 0 ∧
      (st_regular (2 ^ 32)).st_size = 2 ^ 32 ∧ 2 ^ 32 < 8 ^ 11 ∧ (0 : Nat) ≠ 2 ^ 32) ∧
    ((format_tar_data (fs_one path_f st_chardev [] (some [103])) path_f).map
        (fun e => oct2uint (e.block.drop off_major) 7) = some 0 ∧
      (format_tar_data (fs_one path_f st_chardev [] none) path_f).map
        (fun e => oct2uint (e.block.drop off_major) 7) = some 0 ∧
      st_chardev.dev_major = 1 ∧ 1 < 8 ^ 7) := by
  refine ⟨⟨by decide!, rfl, by norm_num, by norm_num⟩, by decide!, by decide!, rfl, by norm_num⟩

/-! ## Reading from a descriptor -/

theorem sys_read_short (fd : fd_t) (size m : Nat) (h : (sys_read fd size).1.length < size) :
    sys_read (sys_read fd size).2 m = ([], (sys_read fd size).2) := by
  have hl : (sys_read fd size).1.length = fd.data.length - fd.pos := by
    simp only [sys_read, List.length_take, List.length_drop] at h ⊢
    omega
  have hd : (sys_read fd size).2.data.drop (sys_read fd size).2.pos = [] := by
    apply List.drop_of_length_le
    show fd.data.length ≤ fd.pos + (sys_read fd size).1.length
    omega
  unfold sys_read at hd ⊢
  simp only at hd ⊢
  rw [hd]
  simp

theorem read_size_loop_after (fuel : Nat) (fd : fd_t) (size : Nat) :
    read_size_loop fuel (sys_read fd size).2 size (sys_read fd size).1 = sys_read fd size := by
  cases fuel with
  | zero => rfl
  | succ k =>
    rw [read_size_loop]
    by_cases h1 : (sys_read fd size).1.length < size
    · rw [if_pos h1]
      simp only [sys_read_short fd size _ h1, List.length_nil, Nat.lt_irrefl, if_false]
    · rw [if_neg h1]

theorem read_size_eq_sys_read (fd : fd_t) (size : Nat) : read_size fd size = sys_read fd size := by
  unfold read_size
  rw [read_size_loop]
  by_cases hs : 0 < size
  · simp only [List.length_nil, hs, if_true, Nat.sub_zero, List.nil_append]
    by_cases h0 : 0 < (sys_read fd size).1.length
    · rw [if_pos h0]
      exact read_size_loop_after size fd size
    · rw [if_neg h0]
      have : (sys_read fd size).1 = [] := List.length_eq_zero.mp (by omega)
      exact Prod.ext this.symm rfl
  · have : size = 0 := by omega
    subst this
    simp [sys_read]

theorem read_size_eq (fd : fd_t) (size : Nat) :
    read_size fd size = ((fd.data.drop fd.pos).take size,
      { fd with pos := fd.pos + ((fd.data.drop fd.pos).take size).length }) := by
  rw [read_size_eq_sys_read]
  rfl

theorem read_size_block (pre b rest : List Nat) :
    read_size { data := pre ++ (b ++ rest), pos := pre.length } b.length =
      (b, { data := pre ++ (b ++ rest), pos := pre.length + b.length }) := by
  rw [read_size_eq]
  simp only [List.drop_left, List.take_left]

theorem iszeroed_replicate (n : Nat) : iszeroed (List.replicate n 0) n = true := by
  unfold iszeroed peek
  rw [List.all_eq_true]
  intro i hi
  have hi' : i < n := List.mem_range.mp hi
  simp [List.getElem?_replicate, hi']

/-! ## Scanning an archive -/

theorem archive_bytes_length_ge (segs : List (List Nat × List Nat))
    (h : ∀ s ∈ segs, s.1.length = 512) : 512 * segs.length ≤ (archive_bytes segs).length := by
  induction segs with
  | nil => simp [archive_bytes]
  | cons s rest ih =>
    have h1 := h s (List.mem_cons_self _ _)
    have h2 := ih (fun x hx => h x (List.mem_cons_of_mem _ hx))
    simp only [archive_bytes, List.length_append, List.length_cons]
    omega

/-- One iteration of `tar_read` on a header block that is not all zero. -/
theorem tar_read_loop_header (heap : Nat → tar_t) (fuel : Nat) (pre b rest : List Nat)
    (offset count : Nat) (acc : List tar_t) (hb : b.length = 512) (hz : iszeroed b 512 = false) :
    tar_read_loop heap (fuel + 1) { data := pre ++ (b ++ rest), pos := pre.length } offset count
        true acc =
      tar_read_loop heap fuel
        { data := pre ++ (b ++ rest),
          pos := pre.length + 512 + read_jump (header_entry b) }
        ((offset + (512 + read_jump (header_entry b)) % U32) % U32) (count + 1) true
        (acc ++ [{ heap count with block := b, begin := offset }]) := by
  have hr := read_size_block pre b rest
  rw [hb] at hr
  rw [tar_read_loop]
  simp only [if_true, hr, hb, bne_self_eq_false, Bool.and_false, hz]
  rfl

/-- The iteration of `tar_read` on two zero blocks. -/
theorem tar_read_loop_end (heap : Nat → tar_t) (fuel : Nat) (pre tail : List Nat)
    (offset count : Nat) (acc : List tar_t) :
    tar_read_loop heap (fuel + 1)
        { data := pre ++ (List.replicate 1024 0 ++ tail), pos := pre.length } offset count true acc =
      some { ret := (count : Int), archive := acc,
             fd := { data := pre ++ (List.replicate 1024 0 ++ tail),
                     pos := pre.length + 512 + 512 + (RECORDSIZE - offset % RECORDSIZE) } } := by
  have hsplit : List.replicate 1024 0 ++ tail =
      List.replicate 512 0 ++ (List.replicate 512 0 ++ tail) := by
    rw [← List.append_assoc, ← List.replicate_add]
  have hr1 := read_size_block pre (List.replicate 512 0) (List.replicate 512 0 ++ tail)
  have hr2 := read_size_block (pre ++ List.replicate 512 0) (List.replicate 512 0) tail
  simp only [List.length_replicate, List.length_append, List.append_assoc] at hr1 hr2
  have hz := iszeroed_replicate 512
  rw [tar_read_loop, hsplit]
  simp only [if_true, hr1, List.length_replicate, bne_self_eq_false, Bool.and_false, hz, hr2]
  rfl

theorem tar_read_loop_segments (heap : Nat → tar_t) (segs : List (List Nat × List Nat)) :
    ∀ (pre tail : List Nat) (fuel offset count : Nat) (acc : List tar_t),
      (∀ s ∈ segs, s.1.length = 512 ∧ iszeroed s.1 512 = false ∧
        s.2.length = read_jump (header_entry s.1)) →
      segs.length + 1 ≤ fuel →
      ∃ es fd', tar_read_loop heap fuel
          { data := pre ++ (archive_bytes segs ++ (List.replicate 1024 0 ++ tail)),
            pos := pre.length } offset count true acc =
          some { ret := ((count + segs.length : Nat) : Int), archive := acc ++ es, fd := fd' } ∧
        es.map (fun e => e.block) = segs.map (fun s => s.1) := by
  induction segs with
  | nil =>
    intro pre tail fuel offset count acc _ hf
    obtain ⟨f, rfl⟩ : ∃ f, fuel = f + 1 := ⟨fuel - 1, by simp at hf; omega⟩
    refine ⟨[], fd_t.mk (pre ++ (List.replicate 1024 0 ++ tail))
      (pre.length + 512 + 512 + (RECORDSIZE - offset % RECORDSIZE)), ?_, rfl⟩
    simp only [archive_bytes, List.nil_append, List.append_nil, List.length_nil, Nat.add_zero]
    exact tar_read_loop_end heap f pre tail offset count acc
  | cons s rest ih =>
    intro pre tail fuel offset count acc hs hf
    obtain ⟨f, rfl⟩ : ∃ f, fuel = f + 1 := ⟨fuel - 1, by simp at hf; omega⟩
    obtain ⟨h512, hz, hp⟩ := hs s (List.mem_cons_self _ _)
    have hrest := fun x hx => hs x (List.mem_cons_of_mem s hx)
    obtain ⟨es, fd', hrun, hblocks⟩ := ih (pre ++ s.1 ++ s.2) tail f
      ((offset + (512 + read_jump (header_entry s.1)) % U32) % U32) (count + 1)
      (acc ++ [{ heap count with block := s.1, begin := offset }]) hrest
      (by simp only [List.length_cons] at hf; omega)
    refine ⟨{ heap count with block := s.1, begin := offset } :: es, fd', ?_, ?_⟩
    · have hstep := tar_read_loop_header heap f pre s.1
        (s.2 ++ (archive_bytes rest ++ (List.replicate 1024 0 ++ tail))) offset count acc h512 hz
      have hdata : pre ++ (archive_bytes (s :: rest) ++ (List.replicate 1024 0 ++ tail)) =
          pre ++ (s.1 ++ (s.2 ++ (archive_bytes rest ++ (List.replicate 1024 0 ++ tail)))) := by
        simp only [archive_bytes, List.append_assoc]
      have hdata2 : pre ++ s.1 ++ s.2 ++ (archive_bytes rest ++ (List.replicate 1024 0 ++ tail)) =
          pre ++ (s.1 ++ (s.2 ++ (archive_bytes rest ++ (List.replicate 1024 0 ++ tail)))) := by
        simp only [List.append_assoc]
      have hpos : (pre ++ s.1 ++ s.2).length = pre.length + 512 + read_jump (header_entry s.1) := by
        simp only [List.length_append, h512, hp]
      rw [hdata, hstep]
      rw [hdata2, hpos] at hrun
      rw [hrun]
      have e1 : count + 1 + rest.length = count + (s :: rest).length := by
        simp only [List.length_cons]; omega
      rw [e1, List.append_assoc, List.singleton_append]
    · simp only [List.map_cons, hblocks]

theorem tar_read_segments (heap : Nat → tar_t) (segs : List (List Nat × List Nat))
    (tail : List Nat)
    (h : ∀ s ∈ segs, s.1.length = 512 ∧ iszeroed s.1 512 = false ∧
      s.2.length = read_jump (header_entry s.1)) :
    ∃ es fd', tar_read heap
        { data := archive_bytes segs ++ (List.replicate 1024 0 ++ tail), pos := 0 } =
        some { ret := (segs.length : Int), archive := es, fd := fd' } ∧
      es.map (fun e => e.block) = segs.map (fun s => s.1) := by
  have hlen := archive_bytes_length_ge segs (fun s hs => (h s hs).1)
  have hfuel : segs.length + 1 ≤
      2 * ((archive_bytes segs ++ (List.replicate 1024 0 ++ tail)).length / 512) + 3 := by
    have : 512 * segs.length ≤ (archive_bytes segs ++ (List.replicate 1024 0 ++ tail)).length := by
      simp only [List.length_append]; omega
    omega
  obtain ⟨es, fd', hrun, hb⟩ := tar_read_loop_segments heap segs [] tail _ 0 0 [] h hfuel
  refine ⟨es, fd', ?_, hb⟩
  unfold tar_read
  simp only [List.nil_append, List.length_nil, Nat.zero_add] at hrun
  exact hrun

theorem read_jump_eq_padded (e : tar_t) (h : size_of e ≤ 2 ^ 32 - 512) :
    read_jump e = padded (size_of e) := by
  unfold read_jump padded U32
  simp only
  split_ifs with h1
  · rw [Nat.mod_eq_of_lt (by omega)]; omega
  · omega

/-- C2 (amended): for every `n` and every archive made of `n` pairs of a non-zero
header block and a payload whose length is the size that `oct2uint` reads from the
header, at most `2 ^ 32 - 512`, rounded up to a multiple of 512, followed by two
all-zero blocks and anything else (so also zero padding to the record boundary),
`tar_read` called with an empty list returns `n` and fills the list with `n`
entries whose blocks are the `n` headers in file order. -/
theorem C2_tar_read_archive (heap : Nat → tar_t) (segs : List (List Nat × List Nat))
    (tail : List Nat)
    (h : ∀ s ∈ segs, s.1.length = 512 ∧ iszeroed s.1 512 = false ∧
      size_of (header_entry s.1) ≤ 2 ^ 32 - 512 ∧
      s.2.length = padded (size_of (header_entry s.1))) :
    ∃ r, tar_read heap
        { data := archive_bytes segs ++ (List.replicate 1024 0 ++ tail), pos := 0 } = some r ∧
      r.ret = (segs.length : Int) ∧ r.archive.length = segs.length ∧
      r.archive.map (fun e => e.block) = segs.map (fun s => s.1) := by
  obtain ⟨es, fd', hrun, hb⟩ := tar_read_segments heap segs tail (fun s hs => by
    obtain ⟨h1, h2, h3, h4⟩ := h s hs
    exact ⟨h1, h2, by rw [h4, read_jump_eq_padded _ h3]⟩)
  refine ⟨_, hrun, rfl, ?_, hb⟩
  have := congrArg List.length hb
  simpa using this

theorem archive_bytes_cons (s : List Nat × List Nat) (rest : List (List Nat × List Nat)) :
    archive_bytes (s :: rest) = s.1 ++ s.2 ++ archive_bytes rest := rfl

theorem archive_bytes_nil : archive_bytes [] = [] := rfl

theorem hdr_big_length : hdr_big.length = 512 := by
  simp only [hdr_big, poke_length_eq, List.length_replicate]

theorem hdr_small_length : hdr_small.length = 512 := by
  simp only [hdr_small, poke_length_eq, List.length_replicate]

set_option maxRecDepth 100000 in
theorem hdr_big_size : size_of (header_entry hdr_big) = 2 ^ 32 - 1 := by decide!

set_option maxRecDepth 100000 in
theorem hdr_big_nonzero : iszeroed hdr_big 512 = false := by decide!

set_option maxRecDepth 100000 in
theorem hdr_small_nonzero : iszeroed hdr_small 512 = false := by decide!

set_option maxRecDepth 100000 in
theorem hdr_small_size : size_of (header_entry hdr_small) = 0 := by decide!

theorem C2_tar_read_archive_witness :
    ∃ r, tar_read heap_empty
        { data := archive_bytes [(hdr_small, [])] ++
            (List.replicate 1024 0 ++ List.replicate 8704 0), pos := 0 } = some r ∧
      r.ret = 1 ∧ r.archive.length = 1 ∧ r.archive.map (fun e => e.block) = [hdr_small] :=
  C2_tar_read_archive heap_empty [(hdr_small, [])] (List.replicate 8704 0) (by
    intro s hs
    rw [List.mem_singleton] at hs
    subst hs
    refine ⟨hdr_small_length, hdr_small_nonzero, ?_, ?_⟩
    · rw [hdr_small_size]; norm_num
    · rw [hdr_small_size]; rfl)

theorem big_archive_shape : ∀ s ∈ big_archive, s.1.length = 512 ∧ iszeroed s.1 512 = false ∧
    s.2.length = padded (size_of (header_entry s.1)) := by
  intro s hs
  simp only [big_archive, List.mem_cons, List.mem_singleton, List.not_mem_nil, or_false] at hs
  rcases hs with rfl | rfl
  · refine ⟨hdr_big_length, hdr_big_nonzero, ?_⟩
    simp only [List.length_replicate, hdr_big_size, padded]
    norm_num
  · refine ⟨hdr_small_length, hdr_small_nonzero, ?_⟩
    simp only [hdr_small_size, padded, List.length_nil]

theorem big_file_eq : big_file = hdr_big ++ List.replicate (2 ^ 32) 0 ++ (hdr_small ++ [] ++ []) ++
    (List.replicate 1024 0 ++ List.replicate 4096 0) := by
  rw [big_file, big_archive, archive_bytes_cons, archive_bytes_cons, archive_bytes_nil]

theorem big_file_length : big_file.length % 10240 = 0 := by
  have hl : (hdr_big ++ List.replicate (2 ^ 32) 0 ++ (hdr_small ++ [] ++ []) ++
      (List.replicate 1024 0 ++ List.replicate 4096 0)).length =
      512 + 2 ^ 32 + (512 + 0 + 0) + (1024 + 4096) := by
    rw [List.length_append, List.length_append, List.length_append, List.length_append,
      List.length_append, List.length_append, List.length_replicate, List.length_replicate,
      List.length_replicate, List.length_nil, hdr_big_length, hdr_small_length]
  have hm : (512 + 2 ^ 32 + (512 + 0 + 0) + (1024 + 4096)) % 10240 = 0 := by norm_num
  rw [big_file_eq, hl]
  exact hm

theorem big_file_scan_shape : big_file = archive_bytes [(hdr_big, [])] ++
    (List.replicate 1024 0 ++ (List.replicate (2 ^ 32 - 1024) 0 ++
      (hdr_small ++ (List.replicate 1024 0 ++ List.replicate 4096 0)))) := by
  have hr : List.replicate (2 ^ 32) (0 : Nat) =
      List.replicate 1024 0 ++ List.replicate (2 ^ 32 - 1024) 0 := by
    rw [← List.replicate_add]
    have e : 1024 + (2 ^ 32 - 1024) = 2 ^ 32 := by norm_num
    rw [e]
  rw [big_file_eq, archive_bytes_cons, archive_bytes_nil, hr]
  simp only [List.append_assoc, List.append_nil, List.nil_append]

theorem read_jump_of_size (e : tar_t) (v : Nat) (h : size_of e = v) :
    read_jump e = if v % 512 ≠ 0 then (v + (512 - v % 512)) % U32 else v := by
  unfold read_jump
  rw [h]

theorem big_file_scan :
    ∃ r, tar_read heap_empty { data := big_file, pos := 0 } = some r ∧ r.ret = 1 := by
  have hh : ∀ s ∈ [(hdr_big, ([] : List Nat))], s.1.length = 512 ∧ iszeroed s.1 512 = false ∧
      s.2.length = read_jump (header_entry s.1) := by
    intro s hs
    rw [List.mem_singleton] at hs
    subst hs
    refine ⟨hdr_big_length, hdr_big_nonzero, ?_⟩
    rw [read_jump_of_size _ _ hdr_big_size]
    decide
  obtain ⟨es, fd', hrun, _⟩ := tar_read_segments heap_empty [(hdr_big, [])]
      (List.replicate (2 ^ 32 - 1024) 0 ++
        (hdr_small ++ (List.replicate 1024 0 ++ List.replicate 4096 0))) hh
  rw [← big_file_scan_shape] at hrun
  refine ⟨_, hrun, ?_⟩
  show (([(hdr_big, ([] : List Nat))].length : Nat) : Int) = 1
  rfl

/-- C2 fails as stated.  `big_file` is an archive of two entries in the sense of the
claim: each header is a non-zero block, each payload has the length given by the
octal size field rounded up to 512 (`2 ^ 32` bytes for the size `37777777777`),
two zero blocks and zero padding to the record boundary follow.  For the first
header the rounding in `unsigned int` wraps to 0, the scan meets the zero bytes of
the payload and `tar_read` returns 1. -/
theorem C2_counterexample :
    (∀ s ∈ big_archive, s.1.length = 512 ∧ iszeroed s.1 512 = false ∧
      s.2.length = padded (size_of (header_entry s.1))) ∧
    big_archive.length = 2 ∧ big_file.length % 10240 = 0 ∧
    ∃ r, tar_read heap_empty { data := big_file, pos := 0 } = some r ∧ r.ret = 1 :=
  ⟨big_archive_shape, rfl, big_file_length, big_file_scan⟩

/-- The scan of `tar_read` over a sequence of headers and payloads that ends with
two zero blocks, with the list and the descriptor it leaves. -/
theorem tar_read_loop_exact (heap : Nat → tar_t) (segs : List (List Nat × List Nat)) :
    ∀ (pre tail : List Nat) (fuel offset count : Nat) (acc : List tar_t),
      (∀ s ∈ segs, s.1.length = 512 ∧ iszeroed s.1 512 = false ∧
        s.2.length = read_jump (header_entry s.1)) →
      segs.length + 1 ≤ fuel →
      tar_read_loop heap fuel
          { data := pre ++ (archive_bytes segs ++ (List.replicate 1024 0 ++ tail)),
            pos := pre.length } offset count true acc =
        some { ret := ((count + segs.length : Nat) : Int),
               archive := acc ++ read_entries heap segs offset count,
               fd := { data := pre ++ (archive_bytes segs ++ (List.replicate 1024 0 ++ tail)),
                       pos := pre.length + (archive_bytes segs).length + 512 + 512 +
                         (RECORDSIZE - read_end_offset segs offset % RECORDSIZE) } } := by
  induction segs with
  | nil =>
    intro pre tail fuel offset count acc _ hf
    obtain ⟨f, rfl⟩ : ∃ f, fuel = f + 1 := ⟨fuel - 1, by simp at hf; omega⟩
    simp only [archive_bytes, List.nil_append, List.append_nil, List.length_nil, Nat.add_zero,
      read_entries, read_end_offset]
    exact tar_read_loop_end heap f pre tail offset count acc
  | cons s rest ih =>
    intro pre tail fuel offset count acc hs hf
    obtain ⟨f, rfl⟩ : ∃ f, fuel = f + 1 := ⟨fuel - 1, by simp at hf; omega⟩
    obtain ⟨h512, hz, hp⟩ := hs s (List.mem_cons_self _ _)
    have hrest := fun x hx => hs x (List.mem_cons_of_mem s hx)
    have hrun := ih (pre ++ s.1 ++ s.2) tail f (read_next_offset offset s.1) (count + 1)
      (acc ++ [{ heap count with block := s.1, begin := offset }]) hrest
      (by simp only [List.length_cons] at hf; omega)
    have hstep := tar_read_loop_header heap f pre s.1
      (s.2 ++ (archive_bytes rest ++ (List.replicate 1024 0 ++ tail))) offset count acc h512 hz
    have hdata : pre ++ (archive_bytes (s :: rest) ++ (List.replicate 1024 0 ++ tail)) =
        pre ++ (s.1 ++ (s.2 ++ (archive_bytes rest ++ (List.replicate 1024 0 ++ tail)))) := by
      simp only [archive_bytes, List.append_assoc]
    have hdata2 : pre ++ s.1 ++ s.2 ++ (archive_bytes rest ++ (List.replicate 1024 0 ++ tail)) =
        pre ++ (s.1 ++ (s.2 ++ (archive_bytes rest ++ (List.replicate 1024 0 ++ tail)))) := by
      simp only [List.append_assoc]
    have hpos : (pre ++ s.1 ++ s.2).length = pre.length + 512 + read_jump (header_entry s.1) := by
      simp only [List.length_append, h512, hp]
    have hlen : (archive_bytes (s :: rest)).length =
        512 + read_jump (header_entry s.1) + (archive_bytes rest).length := by
      simp only [archive_bytes, List.length_append, h512, hp]
    have e1 : count + 1 + rest.length = count + (s :: rest).length := by
      simp only [List.length_cons]; omega
    have e2 : pre.length + 512 + read_jump (header_entry s.1) + (archive_bytes rest).length =
        pre.length + (512 + read_jump (header_entry s.1) + (archive_bytes rest).length) := by
      omega
    rw [hdata2, hpos] at hrun
    rw [hdata, hstep]
    unfold read_next_offset at hrun
    rw [hrun, e1, hlen, e2, List.append_assoc, List.singleton_append]
    rfl

/-- The result of `tar_read` on an archive that ends with two zero blocks. -/
theorem tar_read_exact (heap : Nat → tar_t) (segs : List (List Nat × List Nat))
    (tail : List Nat)
    (h : ∀ s ∈ segs, s.1.length = 512 ∧ iszeroed s.1 512 = false ∧
      s.2.length = read_jump (header_entry s.1)) :
    tar_read heap { data := archive_bytes segs ++ (List.replicate 1024 0 ++ tail), pos := 0 } =
      some { ret := (segs.length : Int),
             archive := read_entries heap segs 0 0,
             fd := { data := archive_bytes segs ++ (List.replicate 1024 0 ++ tail),
                     pos := (archive_bytes segs).length + 512 + 512 +
                       (RECORDSIZE - read_end_offset segs 0 % RECORDSIZE) } } := by
  have hlen := archive_bytes_length_ge segs (fun s hs => (h s hs).1)
  have hfuel : segs.length + 1 ≤
      2 * ((archive_bytes segs ++ (List.replicate 1024 0 ++ tail)).length / 512) + 3 := by
    have : 512 * segs.length ≤ (archive_bytes segs ++ (List.replicate 1024 0 ++ tail)).length := by
      simp only [List.length_append]; omega
    omega
  have hrun := tar_read_loop_exact heap segs [] tail _ 0 0 [] h hfuel
  unfold tar_read
  simp only [List.nil_append, List.length_nil, Nat.zero_add] at hrun
  exact hrun

/-! ## Extraction of a payload -/

theorem oct2uint_loop_lt (oct : List Nat) : ∀ (size out : Nat), out < U32 →
    oct2uint_loop oct size out < U32 := by
  induction oct with
  | nil => intro size out h; simpa [oct2uint_loop] using h
  | cons c cs ih =>
    intro size out h
    cases size with
    | zero => simpa [oct2uint_loop] using h
    | succ n =>
      rw [oct2uint_loop]
      split_ifs
      · exact h
      · apply ih
        have hU : U32 = 2 ^ 32 := rfl
        have h1 : (out <<< 3) % U32 < 2 ^ 32 := by rw [← hU]; exact Nat.mod_lt _ (by rw [hU]; norm_num)
        have h2 : ((charVal c - 48) % (U32 : Int)).toNat < 2 ^ 32 := by
          have hpos : (0 : Int) < (U32 : Int) := by rw [hU]; norm_num
          have := Int.emod_lt_of_pos (charVal c - 48) hpos
          have := Int.emod_nonneg (charVal c - 48) (ne_of_gt hpos)
          rw [hU] at *
          omega
        rw [hU]
        exact Nat.or_lt_two_pow h1 h2

theorem oct2uint_lt (oct : List Nat) (size : Nat) : oct2uint oct size < U32 :=
  oct2uint_loop_lt oct size 0 (by unfold U32; norm_num)

theorem read_size_inside (fd : fd_t) (m : Nat) (h : fd.pos + m ≤ fd.data.length) :
    read_size fd m = (slice fd.data fd.pos m, { data := fd.data, pos := fd.pos + m }) := by
  rw [read_size_eq]
  have : ((fd.data.drop fd.pos).take m).length = m := by
    simp only [List.length_take, List.length_drop]; omega
  rw [this]
  rfl

theorem extract_copy_spec (size start : Nat) (data : List Nat) (hsz : size < U32)
    (hin : start + size ≤ data.length) :
    ∀ (k fuel got : Nat) (written : List (List Nat)), got ≤ size → size - got ≤ 512 * k → k < fuel →
      ∃ chunks, extract_copy fuel { data := data, pos := start + got } size got written =
          some ({ data := data, pos := start + size }, written ++ chunks) ∧
        chunks.flatten = slice data (start + got) (size - got) ∧
        ∀ c ∈ chunks, c.length ≤ 512 := by
  intro k
  induction k with
  | zero =>
    intro fuel got written hg hk hf
    obtain ⟨f, rfl⟩ : ∃ f, fuel = f + 1 := ⟨fuel - 1, by omega⟩
    have : got = size := by omega
    subst this
    refine ⟨[], ?_, ?_, by simp⟩
    · rw [extract_copy, if_neg (by omega)]; simp
    · simp [slice]
  | succ k ih =>
    intro fuel got written hg hk hf
    obtain ⟨f, rfl⟩ : ∃ f, fuel = f + 1 := ⟨fuel - 1, by omega⟩
    by_cases hlt : got < size
    · have hn : (size + U32 - got) % U32 = size - got := by
        have : size + U32 - got = (size - got) + U32 := by omega
        rw [this, Nat.add_mod_right, Nat.mod_eq_of_lt (by omega)]
      set m := if size - got < 512 then size - got else 512 with hm
      have hm1 : m ≤ size - got := by rw [hm]; split_ifs <;> omega
      have hm2 : m ≤ 512 := by rw [hm]; split_ifs <;> omega
      have hm3 : size - got - m ≤ 512 * k := by rw [hm]; split_ifs <;> omega
      have hread := read_size_inside { data := data, pos := start + got } m (by simp only; omega)
      obtain ⟨chunks, hrun, hflat, hlen⟩ := ih f (got + m) (written ++ [slice data (start + got) m])
        (by omega) (by omega) (by omega)
      refine ⟨slice data (start + got) m :: chunks, ?_, ?_, ?_⟩
      · rw [extract_copy, if_pos hlt]
        simp only [hn, ← hm, hread]
        have hl : (slice data (start + got) m).length = m := slice_length _ _ _ (by omega)
        rw [hl, Nat.mod_eq_of_lt (by omega), Nat.add_assoc, hrun]
        simp
      · rw [List.flatten_cons, hflat]
        have : size - got = m + (size - (got + m)) := by omega
        rw [this, slice_add]
        congr 2
        omega
      · intro c hc
        rcases List.mem_cons.mp hc with rfl | hc
        · have hl : (slice data (start + got) m).length = m := slice_length _ _ _ (by omega)
          omega
        · exact hlen c hc
    · have : got = size := by omega
      subst this
      refine ⟨[], ?_, ?_, by simp⟩
      · rw [extract_copy, if_neg (by omega)]; simp
      · simp [slice]

/-- What `extract_entry` does for a regular or contiguous entry when the
directories and the output file can be made: it seeks to `512 + begin` computed in
`unsigned int` and copies `size` bytes from there. -/
theorem extract_entry_regular (env : extract_env) (fd : fd_t) (entry : tar_t)
    (ht : is_file_type (type_of entry) = true) (hname : cstr entry.block ≠ [])
    (hin : (512 + entry.begin) % U32 + size_of entry ≤ fd.data.length)
    (hmk : 0 ≤ recursive_mkdir env
      ((cstr entry.block).take (parent_len ((cstr entry.block).length - 1) (cstr entry.block)))
      DEFAULT_DIR_MODE)
    (hopen : env.errno_of (fs_call.open_create (cstr entry.block)
      (oct2uint (entry.block.drop off_mode) 7 &&& 0o777)) = none)
    (fuel : Nat) (hf : size_of entry / 512 + 1 < fuel) :
    ∃ chunks, extract_entry env fuel fd entry =
        some { ret := 0,
               fd := { data := fd.data, pos := (512 + entry.begin) % U32 + size_of entry },
               written := chunks } ∧
      chunks.flatten = slice fd.data ((512 + entry.begin) % U32) (size_of entry) ∧
      ∀ c ∈ chunks, c.length ≤ 512 := by
  have hsz : size_of entry < U32 := oct2uint_lt _ _
  obtain ⟨chunks, hrun, hflat, hlen⟩ := extract_copy_spec (size_of entry)
    ((512 + entry.begin) % U32) fd.data hsz hin (size_of entry / 512 + 1) fuel 0 [] (by omega)
    (by omega) hf
  refine ⟨chunks, ?_, by simpa using hflat, hlen⟩
  have hlen0 : (cstr entry.block).length ≠ 0 := by
    intro h0; exact hname (List.length_eq_zero.mp h0)
  unfold extract_entry
  simp only [ht, if_true, hlen0, if_false, not_lt.mpr hmk, hopen, Option.isSome_none,
    Bool.false_eq_true]
  have hseek : lseek_set fd ((512 + entry.begin) % U32) =
      { data := fd.data, pos := (512 + entry.begin) % U32 + 0 } := rfl
  unfold size_of at hrun
  rw [hseek, hrun]
  simp [size_of]

/-- C7 (amended): for every regular or contiguous entry with a non-empty name whose
`begin + 512` is below `2 ^ 32` and whose payload lies inside the archive, when the
parent directories and the output file can be made, `extract_entry` passes to
`write` on the output file chunks of at most 512 bytes which together are exactly
the `size` bytes at the archive offsets from `begin + 512` on, and returns 0. -/
theorem C7_extract_payload (env : extract_env) (fd : fd_t) (entry : tar_t)
    (ht : is_file_type (type_of entry) = true) (hname : cstr entry.block ≠ [])
    (hb : entry.begin + 512 < 2 ^ 32)
    (hin : entry.begin + 512 + size_of entry ≤ fd.data.length)
    (hmk : 0 ≤ recursive_mkdir env
      ((cstr entry.block).take (parent_len ((cstr entry.block).length - 1) (cstr entry.block)))
      DEFAULT_DIR_MODE)
    (hopen : env.errno_of (fs_call.open_create (cstr entry.block)
      (oct2uint (entry.block.drop off_mode) 7 &&& 0o777)) = none)
    (fuel : Nat) (hf : size_of entry / 512 + 1 < fuel) :
    ∃ r, extract_entry env fuel fd entry = some r ∧ r.ret = 0 ∧
      r.written.flatten = slice fd.data (entry.begin + 512) (size_of entry) ∧
      (∀ c ∈ r.written, c.length ≤ 512) ∧
      r.fd.pos = entry.begin + 512 + size_of entry := by
  have hs : (512 + entry.begin) % U32 = entry.begin + 512 := by
    rw [Nat.mod_eq_of_lt (by unfold U32; omega)]; omega
  obtain ⟨chunks, hrun, hflat, hlen⟩ := extract_entry_regular env fd entry ht hname
    (by rw [hs]; exact hin) hmk hopen fuel hf
  rw [hs] at hrun hflat
  exact ⟨_, hrun, rfl, hflat, hlen, rfl⟩

theorem hdr_file_length (n : Nat) : (hdr_file n).length = 512 := by
  simp only [hdr_file, poke_length_eq, List.length_replicate]

set_option maxRecDepth 100000 in
theorem hdr_file_facts (n : Nat) (h : n = 1 ∨ n = 3) :
    is_file_type (type_of { original_name := [], begin := 0, block := hdr_file n }) = true ∧
    cstr (hdr_file n) = [97] ∧
    size_of { original_name := [], begin := 0, block := hdr_file n } = n ∧
    oct2uint ((hdr_file n).drop off_mode) 7 = 0 := by
  rcases h with rfl | rfl <;> decide!

set_option maxRecDepth 100000 in
theorem C7_extract_payload_witness :
    ∃ r, extract_entry env_ok 2 { data := small_file, pos := 0 } small_entry = some r ∧
      r.ret = 0 ∧ r.written.flatten = [1, 2, 3] := by
  obtain ⟨h1, h2, h3, h4⟩ := hdr_file_facts 3 (Or.inr rfl)
  have hsz : size_of small_entry = 3 := h3
  obtain ⟨r, hr, hret, hw, _, _⟩ := C7_extract_payload env_ok { data := small_file, pos := 0 }
    small_entry h1 (by rw [show small_entry.block = hdr_file 3 from rfl, h2]; decide)
    (by decide) (by rw [hsz]; decide!) (by
      rw [show small_entry.block = hdr_file 3 from rfl, h2]; decide)
    rfl 2 (by rw [hsz]; decide)
  refine ⟨r, hr, hret, ?_⟩
  rw [hw, hsz]
  decide!

theorem far_file_payload : slice far_file (far_entry.begin + 512) (size_of far_entry) = [9] := by
  have hsz : size_of far_entry = 1 := (hdr_file_facts 1 (Or.inl rfl)).2.2.1
  have hl : (List.replicate (2 ^ 32 - 512) 7 ++ hdr_file 1).length = far_entry.begin + 512 := by
    rw [List.length_append, List.length_replicate, hdr_file_length]
    rfl
  rw [hsz, far_file, ← hl]
  unfold slice
  rw [List.drop_left]
  rfl

theorem far_file_start : slice far_file 0 1 = [7] := by
  have e : List.replicate (2 ^ 32 - 512) 7 = [7] ++ List.replicate (2 ^ 32 - 513) 7 := by
    have : 2 ^ 32 - 512 = 1 + (2 ^ 32 - 513) := by norm_num
    rw [this, List.replicate_add]
    rfl
  rw [far_file, e, List.append_assoc, List.append_assoc]
  exact slice_append_left [7] _

theorem far_file_length : far_file.length = 2 ^ 32 + 1 := by
  rw [far_file, List.length_append, List.length_append, List.length_replicate, hdr_file_length]
  rfl

/-- C7 fails as stated.  `far_entry` is a regular entry with the name `a` whose
header lies at offset `2 ^ 32 - 512` of `far_file` and whose one payload byte, 9,
lies inside the file at offset `2 ^ 32`.  The sum `512 + begin` wraps to 0 in
`unsigned int`, so `extract_entry` copies the first byte of the file, 7. -/
theorem C7_counterexample :
    is_file_type (type_of far_entry) = true ∧ cstr far_entry.block ≠ [] ∧
    far_entry.begin + 512 + size_of far_entry ≤ far_file.length ∧
    slice far_file (far_entry.begin + 512) (size_of far_entry) = [9] ∧
    ∀ fuel, 1 < fuel → ∃ r, extract_entry env_ok fuel { data := far_file, pos := 0 } far_entry =
      some r ∧ r.ret = 0 ∧ r.written.flatten = [7] := by
  obtain ⟨h1, h2, h3, h4⟩ := hdr_file_facts 1 (Or.inl rfl)
  have hsz : size_of far_entry = 1 := h3
  have hname : cstr far_entry.block = [97] := h2
  have hwrap : (512 + far_entry.begin) % U32 = 0 := by decide
  refine ⟨h1, by rw [hname]; decide, ?_, far_file_payload, ?_⟩
  · rw [hsz, far_file_length]; decide
  · intro fuel hf
    obtain ⟨chunks, hrun, hflat, _⟩ := extract_entry_regular env_ok
      { data := far_file, pos := 0 } far_entry h1 (by rw [hname]; decide)
      (by rw [hwrap, hsz, far_file_length]; decide)
      (by rw [hname]; decide) rfl fuel (by rw [hsz]; omega)
    refine ⟨_, hrun, rfl, ?_⟩
    rw [hflat, hwrap, hsz]
    exact far_file_start

/-! ## Comparison of names -/

theorem cstr_nil : cstr [] = [] := rfl

theorem cstr_cons_zero (l : List Nat) : cstr (0 :: l) = [] := by
  simp [cstr]

theorem cstr_cons_ne (c : Nat) (l : List Nat) (h : c ≠ 0) : cstr (c :: l) = c :: cstr l := by
  simp [cstr, h]

/-- `strncmp` over one byte more than the longer of the two strings decides whether
the two C strings are the same. -/
theorem strncmp_eq0_iff : ∀ (n : Nat) (a b : List Nat), max (strlen a) (strlen b) < n →
    (strncmp_eq0 a b n = true ↔ cstr a = cstr b) := by
  intro n
  induction n with
  | zero => intro a b h; omega
  | succ k ih =>
    intro a b h
    rw [strncmp_eq0]
    cases a with
    | nil =>
      cases b with
      | nil => simp
      | cons d b' =>
        by_cases hd : d = 0
        · subst hd; simp [cstr_cons_zero, cstr_nil]
        · simp [cstr_cons_ne d b' hd, cstr_nil, hd, Ne.symm hd]
    | cons c a' =>
      cases b with
      | nil =>
        by_cases hc : c = 0
        · subst hc; simp [cstr_cons_zero, cstr_nil]
        · simp [cstr_cons_ne c a' hc, cstr_nil, hc]
      | cons d b' =>
        by_cases hc : c = 0
        · subst hc
          by_cases hd : d = 0
          · subst hd; simp [cstr_cons_zero]
          · simp [cstr_cons_zero, cstr_cons_ne d b' hd, hd, Ne.symm hd]
        · by_cases hd : d = 0
          · subst hd
            simp [cstr_cons_zero, cstr_cons_ne c a' hc, hc]
          · have hlen : max (strlen a') (strlen b') < k := by
              simp only [strlen, cstr_cons_ne c a' hc, cstr_cons_ne d b' hd, List.length_cons] at h
              simp only [strlen]
              omega
            have := ih a' b' hlen
            by_cases hcd : c = d
            · subst hcd
              simp [cstr_cons_ne c a' hc, cstr_cons_ne c b' hc, hc, this]
            · simp [cstr_cons_ne c a' hc, cstr_cons_ne d b' hd, hcd]

theorem strncmp_names (a b : List Nat) :
    strncmp_eq0 a b (max (strlen a) (strlen b) + 1) = decide (cstr a = cstr b) := by
  have := strncmp_eq0_iff (max (strlen a) (strlen b) + 1) a b (by omega)
  by_cases h : cstr a = cstr b
  · rw [this.mpr h]; simp [h]
  · have : strncmp_eq0 a b (max (strlen a) (strlen b) + 1) = false := by
      cases hs : strncmp_eq0 a b (max (strlen a) (strlen b) + 1) with
      | false => rfl
      | true => exact absurd (this.mp hs) h
    rw [this]; simp [h]

/-! ## `exists` and `check_match` -/

theorem exists_name_isNone (A : List tar_t) (f : List Nat) :
    («exists» A f false).isNone = true ↔ ∀ e ∈ A, entry_name e ≠ cstr f := by
  unfold «exists»
  simp only [Bool.false_eq_true, if_false, strncmp_names]
  split_ifs with h
  · simp only [Option.isNone_some, Bool.false_eq_true, false_iff]
    rw [List.findIdx_lt_length] at h
    obtain ⟨e, he, hp⟩ := h
    intro hall
    exact hall e he (by simpa [entry_name] using hp)
  · simp only [Option.isNone_none, true_iff]
    have h' := (List.findIdx_eq_length.mp (Nat.le_antisymm (List.findIdx_le_length _) (Nat.not_lt.mp h)))
    intro e he
    have := h' e he
    simpa [entry_name] using this

theorem check_match_loop_spec (e : tar_t) (g : List Nat → Bool) :
    ∀ (files : List (List Nat)) (i : Nat),
      0 ≤ check_match_loop e i (files.map g) files ∧
      (check_match_loop e i (files.map g) files = 0 ↔
        ∀ f ∈ files, g f = true ∨ entry_name e ≠ cstr f) := by
  intro files
  induction files with
  | nil => intro i; simp [check_match_loop]
  | cons f fs ih =>
    intro i
    rw [List.map_cons, check_match_loop]
    simp only [List.headD_cons, List.tail_cons, strncmp_names]
    by_cases hg : g f = true
    · simp only [hg, Bool.not_true, Bool.false_and, Bool.false_eq_true, if_false]
      refine ⟨(ih (i + 1)).1, ?_⟩
      rw [(ih (i + 1)).2]
      simp [hg]
    · have hg' : g f = false := by simpa using hg
      by_cases hn : cstr e.block = cstr f
      · simp only [hg', Bool.not_false, Bool.true_and, hn, decide_True, if_true]
        refine ⟨by omega, ?_⟩
        constructor
        · intro h; omega
        · intro h
          rcases h f (List.mem_cons_self _ _) with h1 | h1
          · rw [hg'] at h1; exact absurd h1 (by simp)
          · exact absurd hn h1
      · simp only [hg', Bool.not_false, Bool.true_and, hn, decide_False, Bool.false_eq_true,
          if_false]
        refine ⟨(ih (i + 1)).1, ?_⟩
        rw [(ih (i + 1)).2]
        constructor
        · intro h x hx
          rcases List.mem_cons.mp hx with rfl | hx
          · exact Or.inr hn
          · exact h x hx
        · intro h x hx
          exact h x (List.mem_cons_of_mem _ hx)

/-- `check_match` against the `bad` marks of `tar_remove` is zero exactly for the
entries whose name is none of the given names, and never negative. -/
theorem check_match_zero_iff (A : List tar_t) (files : List (List Nat)) (e : tar_t)
    (he : ∃ a ∈ A, a.block = e.block) :
    0 ≤ check_match e (files.map (fun f => («exists» A f false).isNone)) files ∧
    (check_match e (files.map (fun f => («exists» A f false).isNone)) files = 0 ↔
      name_kept files e = true) := by
  obtain ⟨h0, hiff⟩ := check_match_loop_spec e (fun f => («exists» A f false).isNone) files 0
  refine ⟨h0, ?_⟩
  unfold check_match
  rw [hiff]
  unfold name_kept
  rw [List.all_eq_true]
  constructor
  · intro h f hf
    rcases h f hf with h1 | h1
    · obtain ⟨a, ha, hab⟩ := he
      have := (exists_name_isNone A f).mp h1 a ha
      have hne : entry_name e ≠ cstr f := by
        unfold entry_name at this ⊢
        rw [← hab]; exact this
      simpa using hne
    · simpa using h1
  · intro h f hf
    exact Or.inr (by simpa using h f hf)

/-! ## The list after `tar_remove` -/

theorem tar_remove_loop_list (A : List tar_t) (files : List (List Nat)) :
    ∀ (rest : List tar_t) (fd : fd_t) (r w : Nat) (kept : List tar_t) (fix : Option Nat),
      (∀ e ∈ rest, ∃ a ∈ A, a.block = e.block) →
      (tar_remove_loop (files.map (fun f => («exists» A f false).isNone)) files
        fd r w kept fix rest).aborted = false →
      (tar_remove_loop (files.map (fun f => («exists» A f false).isNone)) files
        fd r w kept fix rest).archive.map entry_content =
        kept.map entry_content ++ (rest.filter (name_kept files)).map entry_content := by
  intro rest
  induction rest with
  | nil => intro fd r w kept fix _ _; simp [tar_remove_loop]
  | cons node rest ih =>
    intro fd r w kept fix hA hab
    have hrest : ∀ e ∈ rest, ∃ a ∈ A, a.block = e.block :=
      fun e he => hA e (List.mem_cons_of_mem _ he)
    set curr : tar_t := fix_begin fix node with hcurr
    have hblock : curr.block = node.block := by rw [hcurr]; cases fix <;> rfl
    have hcontent : entry_content curr = entry_content node := by
      rw [hcurr]; cases fix <;> rfl
    have hkeep : name_kept files curr = name_kept files node := by
      unfold name_kept entry_name; rw [hblock]
    obtain ⟨h0, hiff⟩ := check_match_zero_iff A files curr (by
      obtain ⟨a, ha, hab⟩ := hA node (List.mem_cons_self _ _)
      exact ⟨a, ha, by rw [hab, hblock]⟩)
    rw [tar_remove_loop] at hab ⊢
    simp only [← hcurr] at hab ⊢
    rw [if_neg (not_lt.mpr h0)] at hab ⊢
    by_cases hm : check_match curr (files.map (fun f => («exists» A f false).isNone)) files = 0
    · have hk : name_kept files node = true := by rw [← hkeep]; exact hiff.mp hm
      rw [if_pos hm] at hab ⊢
      rw [List.filter_cons_of_pos hk]
      by_cases hwr : w < r
      · rw [if_pos hwr] at hab ⊢
        cases hc : remove_copy (remove_total curr).toNat fd 0 (remove_total curr) r w with
        | none => rw [hc] at hab; simp at hab
        | some res =>
          obtain ⟨fd1, r1, w1⟩ := res
          rw [hc] at hab
          dsimp only at hab ⊢
          rw [ih fd1 r1 w1 (kept ++ [curr]) none hrest hab]
          simp [hcontent]
      · rw [if_neg hwr] at hab ⊢
        rw [ih _ _ _ (kept ++ [curr]) none hrest hab]
        simp [hcontent]
    · have hk : ¬ name_kept files node = true := by rw [← hkeep]; exact fun h => hm (hiff.mpr h)
      rw [if_neg hm] at hab ⊢
      rw [List.filter_cons_of_neg hk]
      exact ih _ _ _ kept _ hrest hab

theorem toInt32_small (u : Nat) (h : u < 2 ^ 31) : toInt32 u = (u : Int) := by
  unfold toInt32
  have : u % U32 = u := Nat.mod_eq_of_lt (by unfold U32; omega)
  rw [this, if_pos h]

theorem toUInt32_small (u : Nat) (h : u < 2 ^ 32) : toUInt32 (u : Int) = u := by
  unfold toUInt32
  have : ((u : Int) % (U32 : Int)) = (u : Int) := by
    apply Int.emod_eq_of_lt (by omega)
    unfold U32; push_cast; omega
  rw [this]; simp

theorem padded_ge (n : Nat) : n ≤ padded n ∧ padded n % 512 = 0 ∧ padded n < n + 512 := by
  unfold padded
  omega

theorem remove_total_eq (e : tar_t) (p : List Nat) (h2 : p.length = padded (size_of e))
    (h3 : is_file_type (type_of e) = false → size_of e = 0)
    (hb : 512 + p.length < 2 ^ 31) :
    remove_total e = ((512 + p.length : Nat) : Int) := by
  obtain ⟨hp1, hp2, hp3⟩ := padded_ge (size_of e)
  unfold remove_total
  cases ht : is_file_type (type_of e) with
  | false =>
    simp only [Bool.false_eq_true, if_false]
    have := h3 ht
    rw [h2, this]
    rfl
  | true =>
    simp only [if_true]
    have h512 : toUInt32 512 = 512 := toUInt32_small 512 (by norm_num)
    rw [h512, toInt32_small _ (by omega)]
    have htm : ((512 + size_of e : Nat) : Int).tmod 512 = ((size_of e % 512 : Nat) : Int) := by
      have : ((512 + size_of e : Nat) : Int).tmod ((512 : Nat) : Int) =
          (((512 + size_of e) % 512 : Nat) : Int) := (Int.ofNat_tmod _ _).symm
      rw [show ((512 : Nat) : Int) = 512 from rfl] at this
      rw [this]
      congr 1
      omega
    rw [htm]
    by_cases hz : size_of e % 512 = 0
    · have : ¬ ((size_of e % 512 : Nat) : Int) ≠ 0 := by rw [hz]; simp
      rw [if_neg this, h2]
      congr 1
      unfold padded
      omega
    · have : ((size_of e % 512 : Nat) : Int) ≠ 0 := by
        intro h; apply hz; exact_mod_cast h
      rw [if_pos this]
      have hsum : ((512 + size_of e : Nat) : Int) + (512 - ((size_of e % 512 : Nat) : Int)) =
          ((512 + padded (size_of e) : Nat) : Int) := by
        unfold padded
        have := Nat.mod_lt (size_of e) (by norm_num : 0 < 512)
        omega
      rw [hsum, toUInt32_small _ (by omega), toInt32_small _ (by omega), h2]

theorem remove_total_fix_begin (fix : Option Nat) (e : tar_t) :
    remove_total (fix_begin fix e) = remove_total e := by
  cases fix <;> rfl

/-! ## Moving an entry towards the start of the file -/

theorem sys_write_mid (K M Y buf : List Nat) (h : buf.length = M.length) :
    sys_write { data := K ++ (M ++ Y), pos := K.length } buf =
      { data := K ++ (buf ++ Y), pos := K.length + buf.length } := by
  unfold sys_write
  simp only [fd_t.mk.injEq, and_true]
  have h1 : (K ++ (M ++ Y) ++ List.replicate (K.length - (K ++ (M ++ Y)).length) 0).take K.length
      = K := by
    rw [List.append_assoc, List.take_left]
  have h2 : (K ++ (M ++ Y)).drop (K.length + buf.length) = Y := by
    rw [← List.drop_drop, List.drop_left, h, List.drop_left]
  rw [h1, h2, List.append_assoc]

theorem remove_copy_blocks : ∀ (n : Nat) (E K J X : List Nat) (got : Int) (fuel : Nat),
    E.length = 512 * n → 512 ≤ J.length → n ≤ fuel → K.length + J.length + E.length < 2 ^ 32 →
    ∃ J', remove_copy fuel { data := K ++ (J ++ (E ++ X)), pos := K.length } got
        (got + ((512 * n : Nat) : Int)) (K.length + J.length) K.length =
        some ({ data := (K ++ E) ++ (J' ++ X), pos := K.length + E.length },
          K.length + J.length + E.length, K.length + E.length) ∧
      J'.length = J.length := by
  intro n
  induction n with
  | zero =>
    intro E K J X got fuel hE _ _ _
    have hE' : E = [] := List.length_eq_zero.mp (by omega)
    subst hE'
    refine ⟨J, ?_, rfl⟩
    cases fuel with
    | zero => simp [remove_copy]
    | succ f =>
      rw [remove_copy, if_neg (by simp)]
      simp
  | succ n ih =>
    intro E K J X got fuel hE hJ hf hb
    obtain ⟨f, rfl⟩ : ∃ f, fuel = f + 1 := ⟨fuel - 1, by omega⟩
    have hEs : E = E.take 512 ++ E.drop 512 := (List.take_append_drop 512 E).symm
    have hB : (E.take 512).length = 512 := by simp only [List.length_take]; omega
    have hE2 : (E.drop 512).length = 512 * n := by simp only [List.length_drop]; omega
    have hJs : J = J.take 512 ++ J.drop 512 := (List.take_append_drop 512 J).symm
    have hJ1 : (J.take 512).length = 512 := by simp only [List.length_take]; omega
    have hJ2 : (J.drop 512).length = J.length - 512 := by simp only [List.length_drop]
    set B := E.take 512 with hBdef
    set E' := E.drop 512 with hE'def
    have hU : U32 = 2 ^ 32 := rfl
    have hlen : E.length = 512 + E'.length := by rw [hEs, List.length_append, hB]
    -- the read of the block at `read_offset`
    have hread : read_size (lseek_set (fd_t.mk (K ++ (J ++ (E ++ X))) K.length)
        (K.length + J.length)) 512 =
        (B, { data := K ++ (J ++ (E ++ X)), pos := K.length + J.length + 512 }) := by
      have := read_size_block (K ++ J) B (E' ++ X)
      rw [hB] at this
      have hd : K ++ J ++ (B ++ (E' ++ X)) = K ++ (J ++ (E ++ X)) := by
        rw [hEs]; simp only [List.append_assoc]
      rw [hd, List.length_append] at this
      exact this
    -- the write of the block at `write_offset`
    have hwrite : write_size (lseek_set (fd_t.mk (K ++ (J ++ (E ++ X)))
        (K.length + J.length + 512)) K.length) B =
        { data := (K ++ B) ++ ((J.drop 512 ++ B) ++ (E' ++ X)), pos := (K ++ B).length } := by
      have := sys_write_mid K (J.take 512) (J.drop 512 ++ (E ++ X)) B (by rw [hB, hJ1])
      have hd : K ++ (J.take 512 ++ (J.drop 512 ++ (E ++ X))) = K ++ (J ++ (E ++ X)) := by
        rw [← List.append_assoc (J.take 512), List.take_append_drop]
      rw [hd] at this
      unfold write_size lseek_set
      simp only
      rw [this, List.length_append]
      congr 1
      rw [hEs]
      simp only [List.append_assoc]
    obtain ⟨J', hrun, hJ'⟩ := ih E' (K ++ B) (J.drop 512 ++ B) X (got + 512) f hE2
      (by rw [List.length_append, hJ2, hB]; omega) (by omega)
      (by simp only [List.length_append, hJ2, hB]; omega)
    refine ⟨J', ?_, ?_⟩
    · rw [remove_copy, if_pos (by push_cast; omega), hread]
      simp only [hB, bne_self_eq_false, Bool.false_eq_true, if_false, hwrite]
      have e1 : (K.length + J.length + 512) % U32 = (K ++ B).length + (J.drop 512 ++ B).length := by
        rw [Nat.mod_eq_of_lt (by rw [hU]; omega)]
        simp only [List.length_append, hJ2, hB]; omega
      have e2 : (K.length + 512) % U32 = (K ++ B).length := by
        rw [Nat.mod_eq_of_lt (by rw [hU]; omega)]
        simp only [List.length_append, hB]
      have e3 : got + ((512 * (n + 1) : Nat) : Int) = (got + 512) + ((512 * n : Nat) : Int) := by
        push_cast; ring
      rw [e1, e2, e3, hrun]
      have e4 : K ++ B ++ E' = K ++ E := by rw [List.append_assoc, ← hEs]
      have e5 : (K ++ B).length + E'.length = K.length + E.length := by
        rw [List.length_append, hB, hlen]; omega
      have e6 : (K ++ B).length + (J.drop 512 ++ B).length + E'.length =
          K.length + J.length + E.length := by
        simp only [List.length_append, hJ2, hB, hlen]; omega
      rw [e4, e5, e6]
    · rw [hJ', List.length_append, hJ2, hB]; omega

theorem item_bytes_cons (it : tar_t × List Nat) (rest : List (tar_t × List Nat)) :
    item_bytes (it :: rest) = it.1.block ++ it.2 ++ item_bytes rest := rfl

theorem item_bytes_nil : item_bytes [] = [] := rfl

/-- The file and the offsets after the loop of `tar_remove`, started on a file that
holds the bytes `K` of the entries kept so far, a gap `J` left by the entries
removed so far, and the entries still to come. -/
theorem tar_remove_loop_file (A : List tar_t) (files : List (List Nat)) :
    ∀ (rest : List (tar_t × List Nat)) (K J tail : List Nat) (kept : List tar_t)
      (fix : Option Nat),
      (∀ it ∈ rest, (∃ a ∈ A, a.block = it.1.block) ∧ it.1.block.length = 512 ∧
        it.2.length = padded (size_of it.1) ∧
        (is_file_type (type_of it.1) = false → size_of it.1 = 0)) →
      J.length % 512 = 0 →
      K.length + J.length + (item_bytes rest).length < 2 ^ 31 →
      (tar_remove_loop (files.map (fun f => («exists» A f false).isNone)) files
        { data := K ++ (J ++ (item_bytes rest ++ tail)), pos := K.length }
        (K.length + J.length) K.length kept fix (rest.map Prod.fst)).aborted = false ∧
      (tar_remove_loop (files.map (fun f => («exists» A f false).isNone)) files
        { data := K ++ (J ++ (item_bytes rest ++ tail)), pos := K.length }
        (K.length + J.length) K.length kept fix (rest.map Prod.fst)).write_offset =
        (K ++ item_bytes (rest.filter (fun it => name_kept files it.1))).length ∧
      (tar_remove_loop (files.map (fun f => («exists» A f false).isNone)) files
        { data := K ++ (J ++ (item_bytes rest ++ tail)), pos := K.length }
        (K.length + J.length) K.length kept fix (rest.map Prod.fst)).fd.pos =
        (K ++ item_bytes (rest.filter (fun it => name_kept files it.1))).length ∧
      ∃ J', (tar_remove_loop (files.map (fun f => («exists» A f false).isNone)) files
        { data := K ++ (J ++ (item_bytes rest ++ tail)), pos := K.length }
        (K.length + J.length) K.length kept fix (rest.map Prod.fst)).fd.data =
        (K ++ item_bytes (rest.filter (fun it => name_kept files it.1))) ++ (J' ++ tail) := by
  intro rest
  induction rest with
  | nil =>
    intro K J tail kept fix _ _ _
    simp only [List.map_nil, tar_remove_loop, List.filter_nil, item_bytes_nil, List.append_nil,
      List.nil_append, true_and]
    exact ⟨J, rfl⟩
  | cons it rest ih =>
    intro K J tail kept fix hit hJ hb
    obtain ⟨hA, h512, hpay, hnon⟩ := hit it (List.mem_cons_self _ _)
    have hrest := fun x hx => hit x (List.mem_cons_of_mem it hx)
    obtain ⟨hp1, hp2, hp3⟩ := padded_ge (size_of it.1)
    set E := it.1.block ++ it.2 with hE
    have hElen : E.length = 512 + it.2.length := by rw [hE, List.length_append, h512]
    have hbytes : item_bytes (it :: rest) = E ++ item_bytes rest := item_bytes_cons it rest
    rw [hbytes, List.length_append] at hb
    have htotal : remove_total (fix_begin fix it.1) = ((E.length : Nat) : Int) := by
      rw [remove_total_fix_begin, hElen]
      exact remove_total_eq it.1 it.2 hpay hnon (by omega)
    have hblock : (fix_begin fix it.1).block = it.1.block := by cases fix <;> rfl
    have hkeep : name_kept files (fix_begin fix it.1) = name_kept files it.1 := by
      unfold name_kept entry_name; rw [hblock]
    obtain ⟨h0, hiff⟩ := check_match_zero_iff A files (fix_begin fix it.1) (by
      obtain ⟨a, ha, hab⟩ := hA
      exact ⟨a, ha, by rw [hab, hblock]⟩)
    rw [hkeep] at hiff
    have hU : U32 = 2 ^ 32 := rfl
    have hr1 : toUInt32 (((K.length + J.length : Nat) : Int) + ((E.length : Nat) : Int)) =
        K.length + J.length + E.length := by
      rw [← Nat.cast_add]; exact toUInt32_small _ (by omega)
    have hw1 : toUInt32 ((K.length : Int) + ((E.length : Nat) : Int)) = K.length + E.length := by
      rw [← Nat.cast_add]; exact toUInt32_small _ (by omega)
    rw [List.map_cons, tar_remove_loop]
    simp only [htotal, if_neg (not_lt.mpr h0), hbytes]
    by_cases hm : check_match (fix_begin fix it.1)
        (files.map (fun f => («exists» A f false).isNone)) files = 0
    · have hk : name_kept files it.1 = true := hiff.mp hm
      have hfil : (it :: rest).filter (fun it => name_kept files it.1) =
          it :: rest.filter (fun it => name_kept files it.1) :=
        List.filter_cons_of_pos (by simpa using hk)
      have hassoc : K ++ item_bytes (it :: rest.filter (fun it => name_kept files it.1)) =
          (K ++ E) ++ item_bytes (rest.filter (fun it => name_kept files it.1)) := by
        rw [item_bytes_cons, hE]
        simp only [List.append_assoc]
      simp only [if_pos hm, hfil, hassoc]
      by_cases hJ0 : J.length = 0
      · have hJnil : J = [] := List.length_eq_zero.mp hJ0
        subst hJnil
        simp only [List.length_nil, Nat.add_zero, Nat.lt_irrefl, if_false, hw1]
        have := ih (K ++ E) [] tail (kept ++ [fix_begin fix it.1]) none hrest (by simp)
          (by simp only [List.length_append, List.length_nil]; simp at hb; omega)
        simp only [List.length_append, List.length_nil, Nat.add_zero, List.nil_append,
          List.append_assoc] at this ⊢
        exact this
      · have hJ512 : 512 ≤ J.length := by omega
        have hwr : K.length < K.length + J.length := by omega
        obtain ⟨J', hcopy, hJ'⟩ := remove_copy_blocks ((512 + it.2.length) / 512) E K J
          (item_bytes rest ++ tail) 0 (Int.toNat ((E.length : Nat) : Int))
          (by rw [hElen, hpay]; omega) hJ512
          (by rw [Int.toNat_ofNat, hElen]; omega) (by omega)
        have hn : (0 : Int) + ((512 * ((512 + it.2.length) / 512) : Nat) : Int) =
            ((E.length : Nat) : Int) := by
          rw [Int.zero_add, hElen, hpay]
          congr 1
          omega
        rw [hn] at hcopy
        have hdata : K ++ (J ++ (E ++ item_bytes rest ++ tail)) =
            K ++ (J ++ (E ++ (item_bytes rest ++ tail))) := by
          simp only [List.append_assoc]
        simp only [if_pos hwr, hdata, hcopy]
        have := ih (K ++ E) J' tail (kept ++ [fix_begin fix it.1]) none hrest (by omega)
          (by simp only [List.length_append]; omega)
        have e1 : (K ++ E).length + J'.length = K.length + J.length + E.length := by
          rw [List.length_append, hJ']; omega
        have e2 : (K ++ E).length = K.length + E.length := List.length_append _ _
        rw [e1, e2] at this
        exact this
    · have hk : ¬ name_kept files it.1 = true := fun h => hm (hiff.mpr h)
      have hfil : (it :: rest).filter (fun it => name_kept files it.1) =
          rest.filter (fun it => name_kept files it.1) :=
        List.filter_cons_of_neg (by simpa using hk)
      simp only [if_neg hm, hfil, hr1]
      have := ih K (J ++ E) tail kept
        (some (if kept.isEmpty then 0 else (fix_begin fix it.1).begin)) hrest
        (by rw [List.length_append, hElen, hpay]; omega)
        (by simp only [List.length_append]; omega)
      have e1 : K.length + (J ++ E).length = K.length + J.length + E.length := by
        rw [List.length_append]; omega
      have e2 : K ++ (J ++ E ++ (item_bytes rest ++ tail)) =
          K ++ (J ++ (E ++ item_bytes rest ++ tail)) := by
        simp only [List.append_assoc]
      rw [e1, e2] at this
      exact this

theorem item_bytes_filter_length_le (p : tar_t × List Nat → Bool) (items : List (tar_t × List Nat)) :
    (item_bytes (items.filter p)).length ≤ (item_bytes items).length := by
  induction items with
  | nil => simp
  | cons it rest ih =>
    by_cases h : p it = true
    · rw [List.filter_cons_of_pos h, item_bytes_cons, item_bytes_cons]
      simp only [List.length_append]
      omega
    · rw [List.filter_cons_of_neg h, item_bytes_cons]
      simp only [List.length_append]
      omega

/-- The terminator written at the end of a file of length `N`. -/
theorem write_end_data_at_end (fd : fd_t) (N : Nat) (hp : fd.pos = N) (hl : fd.data.length = N) :
    ∃ k, (write_end_data fd (N : Int)).2.data = fd.data ++ List.replicate k 0 ∧ 1024 ≤ k ∧
      (N + k) % 10240 = 0 := by
  have hm : N % 10240 < 10240 := Nat.mod_lt _ (by norm_num)
  have hdm := Nat.div_add_mod N 10240
  rw [write_end_data_eq]
  by_cases h : 10240 - N % 10240 < 1024
  · rw [if_pos h]
    refine ⟨10240 - N % 10240 + 10240, ?_, by omega, by omega⟩
    show (write_size (write_size fd (List.replicate (10240 - N % 10240) 0))
      (List.replicate 10240 0)).data = _
    unfold write_size
    rw [sys_write_sys_write, ← List.replicate_add, sys_write_at_end _ _ (by omega)]
  · rw [if_neg h]
    refine ⟨10240 - N % 10240, ?_, by omega, by omega⟩
    show (write_size fd (List.replicate (10240 - N % 10240) 0)).data = _
    unfold write_size
    rw [sys_write_at_end _ _ (by omega)]

theorem ftruncate_prefix (S rest : List Nat) (pos : Nat) :
    ftruncate { data := S ++ rest, pos := pos } S.length = { data := S, pos := pos } := by
  unfold ftruncate
  simp only [fd_t.mk.injEq, and_true]
  rw [List.take_left]
  have : S.length - (S ++ rest).length = 0 := by simp
  rw [this]
  simp

/-- C5 (amended): for every archive file shorter than `2 ^ 31` bytes that consists
of contiguous entries from offset 0 on, each a 512-byte header followed by a
payload of the header's size rounded up to 512, where only regular and contiguous
entries have a non-zero size, and for every target set, `tar_remove` called with
the list of these entries completes its loop and leaves a file that is the
concatenation, in the original order, of the header and payload of every entry
whose name is not a target, followed only by zero bytes, at least 1024 of them,
with a total length that is a multiple of 10240. -/
theorem C5_remove_file (items : List (tar_t × List Nat)) (tail : List Nat) (pos : Nat)
    (files : List (List Nat)) (hitems : items ≠ []) (hfiles : files ≠ [])
    (hshape : ∀ it ∈ items, it.1.block.length = 512 ∧ it.2.length = padded (size_of it.1) ∧
      (is_file_type (type_of it.1) = false → size_of it.1 = 0))
    (hsmall : (item_bytes items).length < 2 ^ 31) :
    (tar_remove { data := item_bytes items ++ tail, pos := pos } (items.map Prod.fst)
      files).aborted = false ∧
    ∃ k, (tar_remove { data := item_bytes items ++ tail, pos := pos } (items.map Prod.fst)
        files).fd.data =
        item_bytes (items.filter (fun it => name_kept files it.1)) ++ List.replicate k 0 ∧
      1024 ≤ k ∧
      (tar_remove { data := item_bytes items ++ tail, pos := pos } (items.map Prod.fst)
        files).fd.data.length % 10240 = 0 := by
  have hA' : (items.map Prod.fst).isEmpty = false := by cases items <;> simp_all
  have hf' : files.isEmpty = false := by cases files <;> simp_all
  obtain ⟨hab, hw, hpos, J', hdata⟩ := tar_remove_loop_file (items.map Prod.fst) files items [] []
    tail [] none (fun it hit => by
      obtain ⟨h1, h2, h3⟩ := hshape it hit
      exact ⟨⟨it.1, List.mem_map_of_mem _ hit, rfl⟩, h1, h2, h3⟩) rfl (by simpa using hsmall)
  simp only [List.nil_append, List.length_nil, Nat.add_zero] at hab hw hpos hdata
  set S := item_bytes (items.filter (fun it => name_kept files it.1)) with hS
  have hSlen : S.length < 2 ^ 31 := by
    have := item_bytes_filter_length_le (fun it => name_kept files it.1) items
    rw [← hS] at this
    omega
  set st := tar_remove_loop ((files.map (fun f => («exists» (items.map Prod.fst) f false).isNone)))
    files { data := item_bytes items ++ tail, pos := 0 } 0 0 [] none (items.map Prod.fst) with hst
  have hfd : st.fd = { data := S ++ (J' ++ tail), pos := S.length } := by
    cases hfd : st.fd with
    | mk d p =>
      rw [hfd] at hdata hpos
      simp only at hdata hpos
      rw [hdata, hpos]
  have htr : ftruncate st.fd st.write_offset = { data := S, pos := S.length } := by
    rw [hfd, hw]
    exact ftruncate_prefix S (J' ++ tail) S.length
  obtain ⟨k, hk, hk1, hk2⟩ := write_end_data_at_end { data := S, pos := S.length } S.length
    rfl rfl
  have hres : tar_remove { data := item_bytes items ++ tail, pos := pos } (items.map Prod.fst)
      files = remove_result.mk
        (if (files.map (fun f => («exists» (items.map Prod.fst) f false).isNone)).any id
          then -1 else 0)
        st.archive (write_end_data { data := S, pos := S.length } (S.length : Int)).2 false := by
    unfold tar_remove
    simp only [hA', hf', Bool.false_eq_true, if_false]
    have hseek : lseek_set { data := item_bytes items ++ tail, pos := pos } 0 =
        { data := item_bytes items ++ tail, pos := 0 } := rfl
    rw [hseek, ← hst, hab]
    simp only [Bool.false_eq_true, if_false]
    rw [htr, hw, toInt32_small _ hSlen]
  rw [hres]
  refine ⟨rfl, k, hk, hk1, ?_⟩
  show (write_end_data { data := S, pos := S.length } (S.length : Int)).2.data.length % 10240 = 0
  rw [hk, List.length_append, List.length_replicate]
  exact hk2

theorem hdr_of_length (name size type : Nat) : (hdr_of name size type).length = 512 := by
  simp only [hdr_of, poke_length_eq, List.length_replicate]

set_option maxRecDepth 1000000 in
theorem pair_items_shape : ∀ it ∈ pair_items, it.1.block.length = 512 ∧
    it.2.length = padded (size_of it.1) ∧
    (is_file_type (type_of it.1) = false → size_of it.1 = 0) := by
  intro it hit
  simp only [pair_items, List.mem_cons, List.mem_singleton, List.not_mem_nil, or_false] at hit
  rcases hit with rfl | rfl
  · exact ⟨hdr_of_length _ _ _, by decide!, by decide!⟩
  · exact ⟨hdr_of_length _ _ _, by decide!, by decide!⟩

theorem pair_items_length : (item_bytes pair_items).length = 1024 := by
  rw [pair_items, item_bytes_cons, item_bytes_cons, item_bytes_nil]
  simp only [List.length_append, List.length_nil, header_entry, hdr_of_length]

theorem C5_remove_file_witness :
    (tar_remove { data := item_bytes pair_items ++ List.replicate 9216 0, pos := 0 }
      (pair_items.map Prod.fst) [[97]]).aborted = false ∧
    ∃ k, (tar_remove { data := item_bytes pair_items ++ List.replicate 9216 0, pos := 0 }
        (pair_items.map Prod.fst) [[97]]).fd.data =
        item_bytes (pair_items.filter (fun it => name_kept [[97]] it.1)) ++ List.replicate k 0 ∧
      1024 ≤ k ∧
      (tar_remove { data := item_bytes pair_items ++ List.replicate 9216 0, pos := 0 }
        (pair_items.map Prod.fst) [[97]]).fd.data.length % 10240 = 0 :=
  C5_remove_file pair_items (List.replicate 9216 0) 0 [[97]] (List.cons_ne_nil _ _)
    (List.cons_ne_nil _ _) pair_items_shape (by rw [pair_items_length]; norm_num)

set_option maxRecDepth 1000000 in
theorem link_items_shape : ∀ s ∈ link_items.map (fun it => (it.1.block, it.2)),
    s.1.length = 512 ∧ iszeroed s.1 512 = false ∧ s.2.length = read_jump (header_entry s.1) := by
  intro s hs
  simp only [link_items, List.map_cons, List.map_nil, List.mem_cons, List.mem_singleton,
    List.not_mem_nil, or_false] at hs
  rcases hs with rfl | rfl | rfl
  · exact ⟨hdr_of_length _ _ _, by decide!, by decide!⟩
  · exact ⟨hdr_of_length _ _ _, by decide!, by decide!⟩
  · exact ⟨hdr_of_length _ _ _, by decide!, by decide!⟩

theorem link_file_eq : link_file =
    archive_bytes (link_items.map (fun it => (it.1.block, it.2))) ++
      (List.replicate 1024 0 ++ List.replicate 7168 0) := by
  rw [← List.replicate_add]
  rfl

set_option maxRecDepth 1000000 in
/-- C5 fails as stated.  `link_file` consists of three contiguous entries, a record
terminator and padding; `tar_read` returns the list of the three headers.  The
second entry is a symbolic link whose header carries the size 1, so `tar_read`
skips one payload block after it, while `tar_remove` counts 512 bytes for an entry
that is not a regular file.  After removing the first entry the block behind the
link and its payload is all zero: the header of the third entry, which survives,
is not in the file. -/
theorem C5_counterexample :
    (tar_read heap_empty { data := link_file, pos := 0 }).map
      (fun r => (r.archive.map (fun e => e.block),
        (tar_remove r.fd r.archive [[120]]).aborted,
        slice (tar_remove r.fd r.archive [[120]]).fd.data 1024 512)) =
      some (link_items.map (fun it => it.1.block), false, List.replicate 512 0) ∧
    slice (item_bytes (link_items.filter (fun it => name_kept [[120]] it.1))) 1024 512 =
      hdr_of 102 0 NORMAL ∧
    hdr_of 102 0 NORMAL ≠ List.replicate 512 0 := by
  refine ⟨?_, by decide!, by decide!⟩
  rw [link_file_eq, tar_read_exact heap_empty _ _ link_items_shape, Option.map_some']
  decide!

/-! ## C11: `begin` and the blocks of the entries of `tar_read` -/

/-- One iteration of `tar_read` on a single zero block followed by a header block:
the header is taken from the second read and `update` is cleared. -/
theorem tar_read_loop_lone_zero (heap : Nat → tar_t) (fuel : Nat) (pre b rest : List Nat)
    (offset count : Nat) (acc : List tar_t) (hb : b.length = 512) (hz : iszeroed b 512 = false) :
    tar_read_loop heap (fuel + 1)
        { data := pre ++ (List.replicate 512 0 ++ (b ++ rest)), pos := pre.length } offset count
        true acc =
      tar_read_loop heap fuel
        { data := pre ++ (List.replicate 512 0 ++ (b ++ rest)),
          pos := pre.length + 512 + 512 + read_jump (header_entry b) }
        (read_next_offset offset b) (count + 1) false
        (acc ++ [{ heap count with block := b, begin := offset }]) := by
  have hr1 := read_size_block pre (List.replicate 512 0) (b ++ rest)
  have hr2 := read_size_block (pre ++ List.replicate 512 0) b rest
  simp only [List.length_replicate, List.length_append, List.append_assoc, hb] at hr1 hr2
  have hz0 := iszeroed_replicate 512
  rw [tar_read_loop]
  simp only [if_true, hr1, List.length_replicate, bne_self_eq_false, Bool.and_false, hz0, hr2,
    hb, hz]
  rfl

/-- One iteration of `tar_read` with `update` cleared: nothing is read, the block
of the entry is the content of the node that `malloc` returned. -/
theorem tar_read_loop_no_update (heap : Nat → tar_t) (fuel : Nat) (fd : fd_t)
    (offset count : Nat) (acc : List tar_t) (hz : iszeroed (heap count).block 512 = false) :
    tar_read_loop heap (fuel + 1) fd offset count false acc =
      tar_read_loop heap fuel (lseek_cur fd (read_jump (header_entry (heap count).block)))
        (read_next_offset offset (heap count).block) (count + 1) true
        (acc ++ [{ heap count with begin := offset }]) := by
  rw [tar_read_loop]
  simp only [Bool.false_and, hz, Bool.false_eq_true, if_false]
  rfl

theorem read_next_offset_zero (offset : Nat) (b : List Nat) (h : read_jump (header_entry b) = 0)
    (ho : offset + 512 < 2 ^ 32) : read_next_offset offset b = offset + 512 := by
  unfold read_next_offset U32
  rw [h, Nat.add_zero]
  omega

/-- C11 fails on an archive in which a single zero block precedes a header.  The
file holds a zero block, the headers `a` and `b` of two empty entries and the
terminator.  `tar_read` takes `a` from the second read of its first iteration but
stores the offset 0 in `begin`, while `a` lies at offset 512; the next iteration
reads nothing and makes an entry of the stale content of the fresh node `heap 1`,
a block that is not in the file; `b`, at offset 1024, is the third entry. -/
theorem C11_lone_zero_block (heap : Nat → tar_t) (a b tail : List Nat)
    (ha : a.length = 512) (hb : b.length = 512)
    (hza : iszeroed a 512 = false) (hzb : iszeroed b 512 = false)
    (hja : read_jump (header_entry a) = 0) (hjb : read_jump (header_entry b) = 0)
    (hg : iszeroed (heap 1).block 512 = false)
    (hjg : read_jump (header_entry (heap 1).block) = 0) :
    ∃ fd', tar_read heap
        { data := List.replicate 512 0 ++ (a ++ (b ++ (List.replicate 1024 0 ++ tail))),
          pos := 0 } =
      some { ret := 3,
             archive := [{ heap 0 with block := a, begin := 0 },
                         { heap 1 with begin := 512 },
                         { heap 2 with block := b, begin := 1024 }],
             fd := fd' } := by
  unfold tar_read
  generalize hF : 2 * ((List.replicate 512 0 ++ (a ++ (b ++ (List.replicate 1024 0 ++
    tail)))).length / 512) + 3 = F
  have h4 : 4 ≤ F := by
    simp only [List.length_append, List.length_replicate, ha, hb] at hF
    omega
  obtain ⟨f, rfl⟩ : ∃ f, F = f + 4 := ⟨F - 4, by omega⟩
  have h1 := tar_read_loop_lone_zero heap (f + 3) [] a (b ++ (List.replicate 1024 0 ++ tail))
    0 0 [] ha hza
  have h2 := tar_read_loop_no_update heap (f + 2)
    { data := List.replicate 512 0 ++ (a ++ (b ++ (List.replicate 1024 0 ++ tail))),
      pos := 1024 } 512 1 [{ heap 0 with block := a, begin := 0 }] hg
  have h3 := tar_read_loop_header heap (f + 1) (List.replicate 512 0 ++ a) b
    (List.replicate 1024 0 ++ tail) 1024 2
    [{ heap 0 with block := a, begin := 0 }, { heap 1 with begin := 512 }] hb hzb
  have h5 := tar_read_loop_end heap f (List.replicate 512 0 ++ a ++ b) tail 1536 3
    [{ heap 0 with block := a, begin := 0 }, { heap 1 with begin := 512 },
     { heap 2 with block := b, begin := 1024 }]
  have o1 : read_next_offset 0 a = 512 := read_next_offset_zero 0 a hja (by norm_num)
  have o2 : read_next_offset 512 (heap 1).block = 1024 :=
    read_next_offset_zero 512 _ hjg (by norm_num)
  have o3 : read_next_offset 1024 b = 1536 := read_next_offset_zero 1024 b hjb (by norm_num)
  simp only [List.nil_append, List.length_nil, Nat.zero_add, hja, o1, Nat.add_zero,
    Nat.reduceAdd] at h1
  simp only [hjg, o2, lseek_cur, Nat.add_zero, Nat.reduceAdd, List.cons_append,
    List.nil_append] at h2
  simp only [List.length_append, List.length_replicate, ha, hjb, Nat.add_zero, Nat.reduceAdd,
    List.append_assoc, List.cons_append, List.nil_append] at h3
  simp only [List.length_append, List.length_replicate, ha, hb, Nat.reduceAdd,
    List.append_assoc] at h5
  unfold read_next_offset at o3
  rw [hjb] at o3
  rw [h1, h2, h3, o3, h5]
  exact ⟨_, rfl⟩

set_option maxRecDepth 100000 in
theorem C11_lone_zero_block_witness :
    ∃ fd', tar_read heap_stale { data := lone_file, pos := 0 } =
      some { ret := 3,
             archive := [{ heap_stale 0 with block := hdr_of 97 0 NORMAL, begin := 0 },
                         { heap_stale 1 with begin := 512 },
                         { heap_stale 2 with block := hdr_of 98 0 NORMAL, begin := 1024 }],
             fd := fd' } := by
  unfold lone_file
  exact C11_lone_zero_block heap_stale (hdr_of 97 0 NORMAL) (hdr_of 98 0 NORMAL) lone_tail
    (hdr_of_length _ _ _) (hdr_of_length _ _ _) (by decide!) (by decide!) (by decide!)
    (by decide!) (by decide!) (by decide!)

/-! ## C12: `begin` after `tar_remove` -/

set_option maxRecDepth 1000000 in
/-- C12 fails in the code: `tar_remove` stores a new `begin` only into the entry
that follows a removed one.  On the list of the four one-block entries `a`, `b`,
`c`, `d` at the offsets 0, 512, 1024, 1536, removing `b` succeeds and leaves `a`,
`c`, `d` with `begin` 0, 512 and 1536, while the header of `d` is moved to the
offset 1024 of the rewritten file. -/
theorem C12_stale_begin :
    (tar_remove { data := quad_file, pos := 0 } quad_list [[98]]).ret = 0 ∧
    (tar_remove { data := quad_file, pos := 0 } quad_list [[98]]).archive.map
        (fun e => (entry_name e, e.begin)) = [([97], 0), ([99], 512), ([100], 1536)] ∧
    slice (tar_remove { data := quad_file, pos := 0 } quad_list [[98]]).fd.data 1024 512 =
      hdr_of 100 0 NORMAL ∧
    (tar_remove { data := quad_file, pos := 0 } quad_list [[98]]).fd.data.length = 10240 := by
  decide!

/-! ## C13: the size field of entries that are not regular files -/

/-- The size `tar_read`, `tar_write` and `extract_entry` decode from a header made
by `format_tar_data`: zero for a symbolic link, and the `st_size` of `lstat` as an
`unsigned int` for every other type. -/
theorem format_tar_data_size_of (fs : fs_t) (filename : List Nat) (st : stat_t) (e : tar_t)
    (hl : fs.lstat filename = some st) (he : format_tar_data fs filename = some e) :
    size_of e = if st.st_mode &&& S_IFMT = S_IFLNK then 0 else st.st_size % U32 := by
  have h := format_tar_data_size_field fs filename st e hl he
  have hlt : (if st.st_mode &&& S_IFMT = S_IFLNK then 0 else st.st_size % U32) < 2 ^ 32 := by
    split_ifs
    · norm_num
    · exact Nat.mod_lt _ (by norm_num [U32])
  exact oct2uint_of_slice e.block off_size 11 _ 11 h (by omega) (by rw [U32]; exact hlt)
    (le_refl _)

set_option maxRecDepth 1000000 in
/-- C13 fails in the code for a directory: `format_tar_data` clears the size field
only for a symbolic link.  For the empty directory `d`, whose `lstat` reports the
size 4096, `tar_write` on an empty archive succeeds and returns 512, and the
one header it writes has the type `5` and a size field that decodes to 4096. -/
theorem C13_directory_size :
    (tar_write fs_dir 2 { data := [], pos := 0 } [] [[100]]).ret = 512 ∧
    type_of (header_entry
      (slice (tar_write fs_dir 2 { data := [], pos := 0 } [] [[100]]).fd.data 0 512)) =
        DIRECTORY ∧
    size_of (header_entry
      (slice (tar_write fs_dir 2 { data := [], pos := 0 } [] [[100]]).fd.data 0 512)) = 4096 ∧
    (tar_write fs_dir 2 { data := [], pos := 0 } [] [[100]]).fd.data.length = 10240 := by
  decide!

/-! ## C14: `tar_read` on an archive without terminator -/

/-- Every exit of the loop of `tar_read` returns the number of entries in the
list. -/
theorem tar_read_loop_count (heap : Nat → tar_t) :
    ∀ (fuel : Nat) (fd : fd_t) (offset count : Nat) (update : Bool) (acc : List tar_t)
      (r : read_result),
      tar_read_loop heap fuel fd offset count update acc = some r →
      acc.length = count → r.ret = (r.archive.length : Int) ∧ acc <+: r.archive := by
  intro fuel
  induction fuel with
  | zero =>
    intro fd offset count update acc r h
    simp [tar_read_loop] at h
  | succ fuel ih =>
    intro fd offset count update acc r h hc
    rw [tar_read_loop] at h
    cases update
    · simp only [Bool.false_and, Bool.false_eq_true, if_false] at h
      split_ifs at h
      all_goals first
        | (cases Option.some.inj h; exact ⟨by simp [hc], List.prefix_refl _⟩)
        | (obtain ⟨ha, hb⟩ := ih _ _ _ _ _ r h (by simp [hc])
           exact ⟨ha, (List.prefix_append _ _).trans hb⟩)
    · simp only [Bool.true_and, if_true] at h
      split_ifs at h
      all_goals first
        | (cases Option.some.inj h; exact ⟨by simp [hc], List.prefix_refl _⟩)
        | (obtain ⟨ha, hb⟩ := ih _ _ _ _ _ r h (by simp [hc])
           exact ⟨ha, (List.prefix_append _ _).trans hb⟩)

/-- C14 fails in the code: `tar_read` has no failing exit for a valid descriptor and
an empty list.  Whenever it returns, also after a read that gives fewer than 512
bytes, the value is the number of entries in the list it built, which is not
negative, and the list is kept. -/
theorem C14_short_read_count (heap : Nat → tar_t) (fd : fd_t) (r : read_result)
    (h : tar_read heap fd = some r) : 0 ≤ r.ret ∧ r.ret = (r.archive.length : Int) := by
  have h1 := (tar_read_loop_count heap _ fd 0 0 true [] r h rfl).1
  exact ⟨by rw [h1]; exact Int.natCast_nonneg _, h1⟩

set_option maxRecDepth 1000000 in
theorem C14_short_read_count_witness :
    tar_read heap_empty { data := cut_file, pos := 0 } = some cut_result ∧
      0 ≤ cut_result.ret ∧ cut_result.ret = (cut_result.archive.length : Int) :=
  ⟨by decide!, C14_short_read_count heap_empty { data := cut_file, pos := 0 } cut_result
    (by decide!)⟩

/-! ## C15: `tar_read` and the checksum -/

/-- C15 (amended): `tar_read` does not verify checksums.  For every non-zero header
block `b` of 512 bytes, also one that stores a value that is neither the sum of its
first 500 bytes nor that of all 512 bytes, taken with the field blanked, followed by
a payload of the size of the header, rounded up, and by two zero blocks, the scan
succeeds: `tar_read` returns 1 and the list holds `b`. -/
theorem C15_checksum_ignored (heap : Nat → tar_t) (b p tail : List Nat)
    (hb : b.length = 512) (hz : iszeroed b 512 = false)
    (hp : p.length = read_jump (header_entry b))
    (_hbad : stored_check b ≠ blank_sum b 500 ∧ stored_check b ≠ blank_sum b 512) :
    ∃ fd', tar_read heap { data := b ++ (p ++ (List.replicate 1024 0 ++ tail)), pos := 0 } =
      some { ret := 1, archive := [{ heap 0 with block := b, begin := 0 }], fd := fd' } := by
  have h := tar_read_exact heap [(b, p)] tail (by
    intro s hs
    rw [List.mem_singleton] at hs
    subst hs
    exact ⟨hb, hz, hp⟩)
  have hd : archive_bytes [(b, p)] ++ (List.replicate 1024 0 ++ tail) =
      b ++ (p ++ (List.replicate 1024 0 ++ tail)) := by
    simp only [archive_bytes, List.append_nil, List.append_assoc]
  rw [hd] at h
  exact ⟨_, h⟩

set_option maxRecDepth 1000000 in
theorem C15_checksum_ignored_witness :
    (stored_check (hdr_of 97 0 NORMAL) = 0 ∧ blank_sum (hdr_of 97 0 NORMAL) 500 = 929 ∧
      blank_sum (hdr_of 97 0 NORMAL) 512 = 929) ∧
    ∃ fd', tar_read heap_empty
        { data := hdr_of 97 0 NORMAL ++ ([] ++ (List.replicate 1024 0 ++ List.replicate 8704 0)),
          pos := 0 } =
      some { ret := 1,
             archive := [{ heap_empty 0 with block := hdr_of 97 0 NORMAL, begin := 0 }],
             fd := fd' } :=
  ⟨by decide!, C15_checksum_ignored heap_empty (hdr_of 97 0 NORMAL) [] (List.replicate 8704 0)
    (hdr_of_length _ _ _) (by decide!) (by decide!) (by decide!)⟩

set_option maxRecDepth 1000000 in
/-- C15 fails as stated: `tar_read` never looks at the `check` field.  The header
of the empty regular file `a` with an all-NUL check field stores the value 0, while
the sum of its first 500 bytes and of all 512 bytes, with the field blanked, is 929;
`tar_read` over the archive of this header, two zero blocks and the padding of the
record returns 1, and the list holds the header. -/
theorem C15_counterexample :
    (stored_check (hdr_of 97 0 NORMAL) = 0 ∧ blank_sum (hdr_of 97 0 NORMAL) 500 = 929 ∧
      blank_sum (hdr_of 97 0 NORMAL) 512 = 929) ∧
    ∃ fd', tar_read heap_empty
        { data := hdr_of 97 0 NORMAL ++ List.replicate 9728 0, pos := 0 } =
      some { ret := 1, archive := [entry_at 0 (hdr_of 97 0 NORMAL)], fd := fd' } := by
  have hfacts : (stored_check (hdr_of 97 0 NORMAL) = 0 ∧
      blank_sum (hdr_of 97 0 NORMAL) 500 = 929 ∧ blank_sum (hdr_of 97 0 NORMAL) 512 = 929) ∧
      iszeroed (hdr_of 97 0 NORMAL) 512 = false ∧
      ([] : List Nat).length = read_jump (header_entry (hdr_of 97 0 NORMAL)) := by decide!
  refine ⟨hfacts.1, ?_⟩
  have h := tar_read_exact heap_empty [(hdr_of 97 0 NORMAL, [])] (List.replicate 8704 0) (by
    intro s hs
    rw [List.mem_singleton] at hs
    subst hs
    exact ⟨hdr_of_length _ _ _, hfacts.2.1, hfacts.2.2⟩)
  have hd : archive_bytes [(hdr_of 97 0 NORMAL, [])] ++
      (List.replicate 1024 0 ++ List.replicate 8704 0) =
      hdr_of 97 0 NORMAL ++ List.replicate 9728 0 := by
    rw [← List.replicate_add]
    simp only [archive_bytes, List.append_nil, List.append_assoc]
  rw [hd] at h
  exact ⟨_, h⟩


/-! ## C16: what `tar_update` appends -/

theorem hdr_old_length : hdr_old.length = 512 := by
  simp only [hdr_old, poke_length_eq, hdr_of_length]

set_option maxRecDepth 1000000 in
theorem upd_file_shape : ∀ s ∈ [(hdr_old, ([] : List Nat))],
    s.1.length = 512 ∧ iszeroed s.1 512 = false ∧ s.2.length = read_jump (header_entry s.1) := by
  intro s hs
  rw [List.mem_singleton] at hs
  subst hs
  exact ⟨hdr_old_length, by decide!, by decide!⟩

set_option maxRecDepth 1000000 in
/-- C16 fails in the code: `tar_update` looks the path up with `exists(tar, files[i],
1)`, which compares `original_name`, a field that `tar_read` never stores.  The
archive `upd_file` holds the entry `f` with the modification time 1000 and is
scanned into nodes whose `original_name` is empty; the file `f` was modified at time
500.  `tar_update` still selects `f`, returns 0 and appends a second entry for `f`
behind the first. -/
theorem C16_older_file_appended :
    ∃ r, tar_read heap_empty { data := upd_file, pos := 0 } = some r ∧
      r.archive.map (fun e => (entry_name e, mtime_of e)) = [([102], 1000)] ∧
      fs_older.lstat path_f = some st_older ∧ st_older.st_mtime = 500 ∧
      update_select fs_older r.archive [path_f] [] = some [path_f] ∧
      (tar_update fs_older 2 r.fd r.archive [path_f]).ret = 0 ∧
      (tar_update fs_older 2 r.fd r.archive [path_f]).archive.length = 2 ∧
      cstr (slice (tar_update fs_older 2 r.fd r.archive [path_f]).fd.data 512 512) = [102] ∧
      (tar_update fs_older 2 r.fd r.archive [path_f]).fd.data ≠ upd_file := by
  have h := tar_read_exact heap_empty [(hdr_old, [])] (List.replicate 8704 0) upd_file_shape
  have hd : archive_bytes [(hdr_old, [])] ++ (List.replicate 1024 0 ++ List.replicate 8704 0) =
      upd_file := by
    simp only [archive_bytes, List.append_nil, List.append_assoc, upd_file, List.nil_append]
  rw [hd] at h
  refine ⟨_, h, ?_⟩
  decide!

/-! ## C17: `tar_update` and a failing `lstat` -/

/-- The loop of `tar_update` returns from the function when `lstat` fails for one of
the paths. -/
theorem update_select_none (fs : fs_t) (archive : List tar_t) (files : List (List Nat))
    (h : ∃ p ∈ files, fs.lstat p = none) :
    ∀ newer, update_select fs archive files newer = none := by
  induction files with
  | nil =>
    obtain ⟨p, hp, _⟩ := h
    exact absurd hp (List.not_mem_nil _)
  | cons f rest ih =>
    intro newer
    rw [update_select]
    cases hl : fs.lstat f with
    | none => rfl
    | some st =>
      have hrest : ∃ p ∈ rest, fs.lstat p = none := by
        obtain ⟨p, hp, hn⟩ := h
        rcases List.mem_cons.mp hp with rfl | hp'
        · rw [hl] at hn
          exact absurd hn (by simp)
        · exact ⟨p, hp', hn⟩
      simp only
      cases «exists» archive f true with
      | none => exact ih hrest _
      | some i =>
        simp only
        split_ifs
        · exact ih hrest _
        · exact ih hrest _

/-- C17 fails in the code: the `RC_ERROR` after the failing `lstat` returns from
`tar_update`.  Whenever `lstat` fails for one of the paths, the function returns -1
and has written nothing: the archive file and the list are as before, so no other
path is appended, whether it is new or newer than its entry. -/
theorem C17_stat_failure_stops (fs : fs_t) (depth : Nat) (fd : fd_t) (archive : List tar_t)
    (files : List (List Nat)) (h : ∃ p ∈ files, fs.lstat p = none) :
    tar_update fs depth fd archive files = { ret := -1, archive := archive, fd := fd } := by
  have hne : files.isEmpty = false := by
    obtain ⟨p, hp, _⟩ := h
    cases files with
    | nil => exact absurd hp (List.not_mem_nil _)
    | cons f rest => rfl
  unfold tar_update
  rw [hne, update_select_none fs archive files h []]
  rfl

set_option maxRecDepth 1000000 in
theorem C17_stat_failure_stops_witness :
    (fs_newer.lstat path_m = none ∧ fs_newer.lstat path_f = some (st_regular 0) ∧
      mtime_of (entry_at 0 hdr_old) < (st_regular 0).st_mtime) ∧
    tar_update fs_newer 2 { data := upd_file, pos := 0 } [entry_at 0 hdr_old] [path_m, path_f] =
      { ret := -1, archive := [entry_at 0 hdr_old], fd := { data := upd_file, pos := 0 } } :=
  ⟨by decide!, C17_stat_failure_stops fs_newer 2 { data := upd_file, pos := 0 }
    [entry_at 0 hdr_old] [path_m, path_f] ⟨path_m, by decide!, by decide!⟩⟩

/-! ## C18: the filter of `ls_entry` -/

/-- The test `strncmp(a, b, n) == 0` over the longer of the two lengths, or more, is
equality of the strings. -/
theorem strncmp_eq0_max : ∀ (n : Nat) (a b : List Nat), max (strlen a) (strlen b) ≤ n →
    (strncmp_eq0 a b n = true ↔ cstr a = cstr b) := by
  intro n
  induction n with
  | zero =>
    intro a b h
    have ha : (cstr a).length = 0 := by simp only [strlen] at h; omega
    have hb : (cstr b).length = 0 := by simp only [strlen] at h; omega
    rw [strncmp_eq0, List.length_eq_zero.mp ha, List.length_eq_zero.mp hb]
    simp
  | succ k ih =>
    intro a b h
    rw [strncmp_eq0]
    cases a with
    | nil =>
      cases b with
      | nil => simp
      | cons d b' =>
        by_cases hd : d = 0
        · subst hd; simp [cstr_cons_zero, cstr_nil]
        · simp [cstr_cons_ne d b' hd, cstr_nil, hd, Ne.symm hd]
    | cons c a' =>
      cases b with
      | nil =>
        by_cases hc : c = 0
        · subst hc; simp [cstr_cons_zero, cstr_nil]
        · simp [cstr_cons_ne c a' hc, cstr_nil, hc]
      | cons d b' =>
        by_cases hc : c = 0
        · subst hc
          by_cases hd : d = 0
          · subst hd; simp [cstr_cons_zero]
          · simp [cstr_cons_zero, cstr_cons_ne d b' hd, hd, Ne.symm hd]
        · by_cases hd : d = 0
          · subst hd
            simp [cstr_cons_zero, cstr_cons_ne c a' hc, hc]
          · have hlen : max (strlen a') (strlen b') ≤ k := by
              simp only [strlen, cstr_cons_ne c a' hc, cstr_cons_ne d b' hd, List.length_cons] at h
              simp only [strlen]
              omega
            have := ih a' b' hlen
            by_cases hcd : c = d
            · subst hcd
              simp [cstr_cons_ne c a' hc, cstr_cons_ne c b' hc, hc, this]
            · simp [cstr_cons_ne c a' hc, cstr_cons_ne d b' hd, hcd]

/-- The flag `print` after the loop of `ls_entry`. -/
theorem ls_print_loop_spec (entry : tar_t) (files : List (List Nat)) (print : Bool) :
    ls_print_loop entry files print =
      (files.any (fun f => decide (entry_name entry ≠ cstr f)) || print) := by
  induction files with
  | nil => simp [ls_print_loop]
  | cons f rest ih =>
    rw [ls_print_loop, ih, List.any_cons]
    have h := strncmp_eq0_max _ entry.block f (le_refl _)
    by_cases hn : entry_name entry = cstr f
    · have : strncmp_eq0 entry.block f (max (strlen entry.block) (strlen f)) = true :=
        h.mpr hn
      simp [this, hn]
    · have : strncmp_eq0 entry.block f (max (strlen entry.block) (strlen f)) = false := by
        cases hq : strncmp_eq0 entry.block f (max (strlen entry.block) (strlen f)) with
        | false => rfl
        | true => exact absurd (h.mp hq) hn
      simp [this, hn]

set_option maxRecDepth 1000000 in
/-- C18 fails in the code: the test of `ls_entry` lacks the negation of `strncmp`.
For every entry and every filter list, `ls_entry` prints the entry exactly when no
filter is given or the name of the entry differs from at least one filter argument.
With the single filter `a.txt`, `tar_ls` over the entries `a.txt` and `b.txt` prints
the line `b.txt` and nothing else. -/
theorem C18_ls_entry_inverted :
    (∀ (entry : tar_t) (files : List (List Nat)),
      ls_entry entry files =
        if files.isEmpty || files.any (fun f => decide (entry_name entry ≠ cstr f)) then
          (0, entry_name entry ++ [10])
        else (0, [])) ∧
    ls_entry (entry_named name_a_txt) [name_a_txt] = (0, []) ∧
    ls_entry (entry_named name_b_txt) [name_a_txt] = (0, name_b_txt ++ [10]) ∧
    tar_ls [entry_named name_a_txt, entry_named name_b_txt] [name_a_txt] =
      (0, name_b_txt ++ [10]) := by
  refine ⟨?_, by decide!, by decide!, by decide!⟩
  intro entry files
  unfold ls_entry
  simp only [ls_print_loop_spec, entry_name]
  rw [Bool.or_comm]

/-! ## C20: the name and the original name of an entry -/

/-- The test `strncmp(p, q, strlen(q)) == 0` for a string `q`: `p` starts with `q`. -/
theorem strncmp_eq0_prefix (q : List Nat) (hq : ∀ c ∈ q, c ≠ 0) :
    ∀ p : List Nat, strncmp_eq0 p q q.length = true ↔ q <+: p := by
  induction q with
  | nil => intro p; simp [strncmp_eq0]
  | cons c q ih =>
    intro p
    have hc : c ≠ 0 := hq c (List.mem_cons_self _ _)
    have ih' := ih (fun x hx => hq x (List.mem_cons_of_mem _ hx))
    rw [List.length_cons, strncmp_eq0]
    cases p with
    | nil => simp [Ne.symm hc]
    | cons a p =>
      by_cases hac : a = c
      · subst hac
        simp [hc, ih' p, List.cons_prefix_cons]
      · simp [hac, List.cons_prefix_cons]
        intro h
        exact absurd h.symm hac

/-- The number of bytes `format_tar_data` skips is the length of the leading `/`,
`./` or `../` of the path. -/
theorem drop_strip_move (p : List Nat) : p.drop (strip_move p) = spec_stored_name p := by
  have h1 := strncmp_eq0_prefix [47] (by simp) p
  have h2 := strncmp_eq0_prefix [46, 47] (by simp) p
  have h3 := strncmp_eq0_prefix [46, 46, 47] (by simp) p
  simp only [List.length_cons, List.length_nil, Nat.zero_add, Nat.reduceAdd] at h1 h2 h3
  unfold strip_move spec_stored_name
  by_cases c1 : [47] <+: p
  · rw [if_pos (h1.mpr c1), if_pos c1]
  · rw [if_neg (fun h => c1 (h1.mp h)), if_neg c1]
    by_cases c2 : [46, 47] <+: p
    · rw [if_pos (h2.mpr c2), if_pos c2]
    · rw [if_neg (fun h => c2 (h2.mp h)), if_neg c2]
      by_cases c3 : [46, 46, 47] <+: p
      · rw [if_pos (h3.mpr c3), if_pos c3]
      · rw [if_neg (fun h => c3 (h3.mp h)), if_neg c3, List.drop_zero]

theorem format_common_name (st : stat_t) (filename : List Nat) :
    slice (format_common st filename) off_name 100 =
      strncpy (filename.drop (strip_move filename)) 100 := by
  have hl : (strncpy (filename.drop (strip_move filename)) 100).length = 100 := by
    simp only [strncpy, List.length_append, List.length_take, List.length_replicate]
    omega
  have h7 := sprintf_o_length_le 7
  unfold format_common
  simp only
  rw [slice_poke_disjoint _ _ _ _ _ (by simp [off_name, off_ustar]),
    slice_poke_disjoint _ _ _ _ _ (by simp [off_name, off_group]),
    slice_poke_disjoint _ _ _ _ _ (by simp [off_name, off_mtime]),
    slice_poke_disjoint _ _ _ _ _ (by simp [off_name, off_size]),
    slice_poke_disjoint _ _ _ _ _ (by simp [off_name, off_gid]),
    slice_poke_disjoint _ _ _ _ _ (by simp [off_name, off_uid]),
    slice_poke_disjoint _ _ _ _ _ (by simp [off_name, off_mode])]
  have := slice_poke_self (List.replicate 512 0)
    (strncpy (filename.drop (strip_move filename)) 100) off_name
    (by rw [hl]; simp only [List.length_replicate, off_name]; omega)
  rw [hl] at this
  exact this

/-- The name field and the original name of the entry `format_tar_data` fills, for
every path. -/
theorem format_tar_data_names (fs : fs_t) (p : List Nat) (e : tar_t)
    (he : format_tar_data fs p = some e) :
    slice e.block off_name 100 = strncpy (spec_stored_name p) 100 ∧
      e.original_name = strncpy p 100 := by
  obtain ⟨st, b1, _, ht, hs⟩ := format_tar_data_low_slice fs p e he off_name 100
    (by simp [off_name])
  obtain ⟨st', b1', login, _, _, _, _, hE⟩ := format_tar_data_some fs p e he
  refine ⟨?_, ?_⟩
  · rw [hs, format_type_slice fs st p _ b1 _ _ ht (Or.inl (by simp [off_name])),
      format_common_name, drop_strip_move]
  · rw [hE, calculate_checksum_original_name]
    rfl

/-- C20 (amended): for every path `p` of at most 100 bytes for which
`format_tar_data` succeeds, the 100-byte name field holds, NUL-padded, the path with
exactly one leading `/`, `./` or `../` removed, if it starts with one of them, and
`original_name` holds the unmodified path, NUL-padded. -/
theorem C20_stored_names (fs : fs_t) (p : List Nat) (e : tar_t)
    (he : format_tar_data fs p = some e) (hlen : p.length ≤ 100) :
    slice e.block off_name 100 =
        spec_stored_name p ++ List.replicate (100 - (spec_stored_name p).length) 0 ∧
      e.original_name = p ++ List.replicate (100 - p.length) 0 := by
  obtain ⟨h1, h2⟩ := format_tar_data_names fs p e he
  have hs : (spec_stored_name p).length ≤ 100 := by
    rw [← drop_strip_move, List.length_drop]
    omega
  rw [h1, h2]
  unfold strncpy
  rw [List.take_of_length_le hs, List.take_of_length_le hlen]
  exact ⟨rfl, rfl⟩

set_option maxRecDepth 1000000 in
theorem C20_stored_names_witness :
    (spec_stored_name path_up_up_a = [46, 46, 47, 97] ∧ spec_stored_name path_f = path_f) ∧
    ∃ e, format_tar_data (fs_one path_up_up_a (st_regular 0) [] none) path_up_up_a = some e ∧
      slice e.block off_name 100 = spec_stored_name path_up_up_a ++
        List.replicate (100 - (spec_stored_name path_up_up_a).length) 0 ∧
      e.original_name = path_up_up_a ++ List.replicate (100 - path_up_up_a.length) 0 := by
  refine ⟨by decide!, ?_⟩
  cases h : format_tar_data (fs_one path_up_up_a (st_regular 0) [] none) path_up_up_a with
  | none => exact absurd h (by decide!)
  | some e =>
    exact ⟨e, rfl, C20_stored_names (fs_one path_up_up_a (st_regular 0) [] none) path_up_up_a e
      h (by decide)⟩

set_option maxRecDepth 1000000 in
/-- C20 fails as stated for a path of more than 100 bytes: `strncpy` stores 100
bytes.  For the path of 101 bytes `a`, `format_tar_data` succeeds and `original_name`
holds 100 bytes, not the path. -/
theorem C20_counterexample :
    ∃ e, format_tar_data (fs_one path_long (st_regular 0) [] none) path_long = some e ∧
      e.original_name = List.replicate 100 97 ∧ e.original_name ≠ path_long ∧
      slice e.block off_name 100 = List.replicate 100 97 ∧
      spec_stored_name path_long = path_long := by
  cases h : format_tar_data (fs_one path_long (st_regular 0) [] none) path_long with
  | none => exact absurd h (by decide!)
  | some e =>
    obtain ⟨h1, h2⟩ := format_tar_data_names _ _ e h
    refine ⟨e, rfl, ?_, ?_, ?_, by decide!⟩
    · rw [h2]; decide!
    · rw [h2]; decide!
    · rw [h1]; decide!

/-! ## C19: where `tar_write` appends -/

theorem fd_grows_refl (fd : fd_t) (h : fd.pos ≤ fd.data.length) : fd_grows fd fd :=
  ⟨le_refl _, h, rfl⟩

theorem fd_grows_trans (a b c : fd_t) (h1 : fd_grows a b) (h2 : fd_grows b c) : fd_grows a c := by
  refine ⟨le_trans h1.1 h2.1, h2.2.1, ?_⟩
  calc c.data.take a.pos = (c.data.take b.pos).take a.pos := by
        rw [List.take_take, min_eq_left h1.1]
    _ = (b.data.take b.pos).take a.pos := by rw [h2.2.2]
    _ = b.data.take a.pos := by rw [List.take_take, min_eq_left h1.1]
    _ = a.data.take a.pos := h1.2.2

theorem sys_write_pos (fd : fd_t) (buf : List Nat) : (sys_write fd buf).pos = fd.pos + buf.length :=
  rfl

theorem fd_grows_sys_write (fd : fd_t) (buf : List Nat) (h : fd.pos ≤ fd.data.length) :
    fd_grows fd (sys_write fd buf) := by
  have e : fd.pos - fd.data.length = 0 := by omega
  have hl : (fd.data.take fd.pos).length = fd.pos := by
    rw [List.length_take]; omega
  unfold fd_grows sys_write
  simp only [e, List.replicate_zero, List.append_nil]
  refine ⟨by omega, ?_, ?_⟩
  · simp only [List.length_append, List.length_take, List.length_drop]
    omega
  · rw [List.append_assoc, List.take_left' hl]

theorem copy_file_grows : ∀ (fuel : Nat) (f fd : fd_t), fd.pos ≤ fd.data.length →
    fd_grows fd (copy_file fuel f fd) := by
  intro fuel
  induction fuel with
  | zero => intro f fd h; exact fd_grows_refl fd h
  | succ k ih =>
    intro f fd h
    rw [copy_file]
    split_ifs
    · have h1 := fd_grows_sys_write fd (read_size f 512).1 h
      exact fd_grows_trans _ _ _ h1 (ih _ _ h1.2.1)
    · exact fd_grows_refl fd h

theorem copy_file_pos : ∀ (fuel : Nat) (f fd : fd_t), f.data.length - f.pos < fuel →
    (copy_file fuel f fd).pos = fd.pos + (f.data.length - f.pos) := by
  intro fuel
  induction fuel with
  | zero => intro f fd h; omega
  | succ k ih =>
    intro f fd h
    have hc : ((f.data.drop f.pos).take 512).length = min 512 (f.data.length - f.pos) := by
      rw [List.length_take, List.length_drop]
    rw [copy_file, read_size_eq]
    simp only
    split_ifs with h0
    · rw [ih _ _ (by simp only; omega)]
      simp only [write_size, sys_write_pos]
      omega
    · omega

theorem write_file_grows (fs : fs_t) (st : write_state) (e : tar_t) (filename : List Nat)
    (h : st.fd.pos ≤ st.fd.data.length) : fd_grows st.fd (write_file fs st e filename).st.fd := by
  unfold write_file
  simp only
  generalize (if (is_file_type (type_of e) || type_of e == SYMLINK) = true then
    «exists» (List.take st.cur st.archive ++ [e]) filename true != some st.cur else false) = tarred
  generalize (if tarred = true then (calculate_checksum
    { original_name := e.original_name, begin := e.begin,
      block := poke (poke (poke e.block off_type [HARDLINK]) off_link_name
        (strncpy (cstr (poke e.block off_type [HARDLINK])) 100)) off_size
        (List.replicate 11 48) }).1 else e) = e1
  have h1 := fd_grows_sys_write st.fd e1.block h
  have hpad : ∀ fd2, fd_grows st.fd fd2 → fd_grows st.fd
      (if 512 - size_of e1 % 512 ≠ 512 then
        write_size fd2 (List.replicate (512 - size_of e1 % 512) 0) else fd2) := by
    intro fd2 h2
    split_ifs
    · exact fd_grows_trans _ _ _ h2 (fd_grows_sys_write fd2 _ h2.2.1)
    · exact h2
  by_cases hc : (is_file_type (type_of e1) && !tarred) = true
  · rw [if_pos hc]
    cases fs.open_read (cstr e1.block) with
    | none => exact h1
    | some content => exact hpad _ (fd_grows_trans _ _ _ h1 (copy_file_grows _ _ _ h1.2.1))
  · rw [if_neg hc]
    exact hpad _ h1

/-- The directory loop keeps what is in front of the offset, when the recursive call
does. -/
theorem write_children_grows (recurse : write_state → List Nat → write_result)
    (hrec : ∀ s path, s.fd.pos ≤ s.fd.data.length → fd_grows s.fd (recurse s path).st.fd)
    (parent : List Nat) (names : List (List Nat)) :
    ∀ st : write_state, st.fd.pos ≤ st.fd.data.length →
      fd_grows st.fd (write_children recurse parent st names).st.fd := by
  induction names with
  | nil => intro st h; exact fd_grows_refl _ h
  | cons d rest ih =>
    intro st h
    rw [write_children]
    simp only
    split_ifs with h1 h2
    · exact hrec { st with cur := st.cur + 1 } _ h
    · have hr := hrec { st with cur := st.cur + 1 } (parent ++ [47] ++ d) h
      generalize recurse { st with cur := st.cur + 1 } (parent ++ [47] ++ d) = r at hr ⊢
      exact fd_grows_trans _ _ _ hr
        (ih ⟨r.st.fd, r.st.archive, r.st.archive.length - 1, r.st.offset⟩ hr.2.1)
    · exact ih st h

theorem write_dir_grows (fs : fs_t) (recurse : write_state → List Nat → write_result)
    (hrec : ∀ s path, s.fd.pos ≤ s.fd.data.length → fd_grows s.fd (recurse s path).st.fd)
    (st : write_state) (e : tar_t) (h : st.fd.pos ≤ st.fd.data.length) :
    fd_grows st.fd (write_dir fs recurse st e).st.fd := by
  unfold write_dir
  simp only
  generalize (if (strlen e.block < 99 && name_last e (strlen e.block) != 47) = true then
    (calculate_checksum (tar_t.mk e.original_name e.begin
      (poke (poke e.block (strlen e.block) [47]) (strlen e.block + 1) [0]))).1
    else e) = e1
  have h1 := fd_grows_sys_write st.fd e1.block h
  cases fs.readdir (List.take (strlen e.block) e.block) with
  | none => exact h1
  | some names =>
    simp only
    have hc := write_children_grows recurse hrec (List.take (strlen e.block) e.block) names
      { fd := write_size st.fd e1.block, archive := List.take st.cur st.archive ++ [e1],
        cur := st.cur, offset := st.offset } h1.2.1
    split_ifs
    · exact fd_grows_trans _ _ _ h1 hc
    · exact fd_grows_trans _ _ _ h1 hc

theorem write_loop_grows (fs : fs_t) (recurse : write_state → List Nat → write_result)
    (hrec : ∀ s path, s.fd.pos ≤ s.fd.data.length → fd_grows s.fd (recurse s path).st.fd)
    (files : List (List Nat)) :
    ∀ st : write_state, st.fd.pos ≤ st.fd.data.length →
      fd_grows st.fd (write_loop fs recurse st files).st.fd := by
  induction files with
  | nil => intro st h; exact fd_grows_refl _ h
  | cons f rest ih =>
    intro st h
    rw [write_loop]
    cases format_tar_data fs f with
    | none => exact fd_grows_refl _ h
    | some e0 =>
      simp only
      have hstep : fd_grows st.fd
          (if type_of { e0 with begin := toUInt32 st.offset } = DIRECTORY then
            write_dir fs recurse st { e0 with begin := toUInt32 st.offset }
          else write_file fs st { e0 with begin := toUInt32 st.offset } f).st.fd := by
        split_ifs
        · exact write_dir_grows fs recurse hrec st _ h
        · exact write_file_grows fs st _ f h
      generalize (if type_of { e0 with begin := toUInt32 st.offset } = DIRECTORY then
          write_dir fs recurse st { e0 with begin := toUInt32 st.offset }
        else write_file fs st { e0 with begin := toUInt32 st.offset } f) = r at hstep ⊢
      split_ifs with hneg
      · exact hstep
      · exact fd_grows_trans _ _ _ hstep (ih _ hstep.2.1)

theorem write_entries_grows (fs : fs_t) : ∀ (depth : Nat) (st : write_state)
    (files : List (List Nat)), st.fd.pos ≤ st.fd.data.length →
    fd_grows st.fd (write_entries fs depth st files).st.fd := by
  intro depth
  induction depth with
  | zero => intro st files h; exact fd_grows_refl _ h
  | succ d ih =>
    intro st files h
    rw [write_entries]
    split_ifs
    · exact fd_grows_refl _ h
    · exact write_loop_grows fs _ (fun s path hs => ih s [path] hs) files st h

/-! ### The offset counter -/

theorem format_tar_data_block_length (fs : fs_t) (p : List Nat) (e : tar_t)
    (he : format_tar_data fs p = some e) : e.block.length = 512 := by
  obtain ⟨st, b1, login, _, ht, _, _, hE⟩ := format_tar_data_some fs p e he
  rw [hE, calculate_checksum_length]
  show (format_names fs st login b1).length = 512
  rw [format_names_length, format_type_length fs st p _ b1 ht, format_common_length]

/-- The header `write_entries` makes of an entry whose file is already in the list:
a hard link of size 0. -/
theorem hardlink_header (e : tar_t) (hb : e.block.length = 512) :
    type_of (calculate_checksum (tar_t.mk e.original_name e.begin
        (poke (poke (poke e.block off_type [HARDLINK]) off_link_name
          (strncpy (cstr (poke e.block off_type [HARDLINK])) 100)) off_size
          (List.replicate 11 48)))).1 = HARDLINK ∧
      size_of (calculate_checksum (tar_t.mk e.original_name e.begin
        (poke (poke (poke e.block off_type [HARDLINK]) off_link_name
          (strncpy (cstr (poke e.block off_type [HARDLINK])) 100)) off_size
          (List.replicate 11 48)))).1 = 0 := by
  constructor
  · apply peek_eq_of_slice
    rw [calculate_checksum_slice _ _ _ (Or.inr (by simp [off_type]))]
    show slice (poke (poke (poke e.block off_type [HARDLINK]) off_link_name
      (strncpy (cstr (poke e.block off_type [HARDLINK])) 100)) off_size
      (List.replicate 11 48)) off_type 1 = [HARDLINK]
    rw [slice_poke_disjoint _ _ _ _ _ (by simp [off_type, off_size]),
      slice_poke_disjoint _ _ _ _ _ (by simp [off_type, off_link_name])]
    exact slice_poke_self e.block [HARDLINK] off_type (by simp [off_type, hb])
  · unfold size_of
    rw [drop_eq_slice_append _ off_size 11,
      calculate_checksum_slice _ _ _ (Or.inl (by simp [off_size]))]
    have h := slice_poke_self (poke (poke e.block off_type [HARDLINK]) off_link_name
      (strncpy (cstr (poke e.block off_type [HARDLINK])) 100)) (List.replicate 11 48) off_size
      (by simp [off_size, hb])
    rw [List.length_replicate] at h
    show oct2uint (slice (poke (poke (poke e.block off_type [HARDLINK]) off_link_name
      (strncpy (cstr (poke e.block off_type [HARDLINK])) 100)) off_size
      (List.replicate 11 48)) off_size 11 ++ _) 11 = 0
    rw [h, ← fixedOct_zero 11]
    exact oct2uint_fixedOct 11 0 11 _ (by norm_num) (by norm_num [U32]) (le_refl _) (Or.inl rfl)

/-- The arithmetic of the offset counter behind a header and its payload, without
overflow. -/
theorem write_file_tail (o pos S : Nat) (fd2 : fd_t) (offset : Int) (ho : offset = (o : Int))
    (hle : o ≤ pos) (h2 : fd2.pos = pos + 512 + S)
    (hb2 : (if 512 - S % 512 ≠ 512 then
      write_size fd2 (List.replicate (512 - S % 512) 0) else fd2).pos < 2 ^ 31) :
    toInt32 (toUInt32 (if 512 - S % 512 ≠ 512 then
      toInt32 (toUInt32 offset + (512 - S % 512)) else offset) + S) + 512 =
      ((o + ((if 512 - S % 512 ≠ 512 then
        write_size fd2 (List.replicate (512 - S % 512) 0) else fd2).pos - pos) : Nat) : Int) := by
  rw [ho]
  by_cases hp : 512 - S % 512 ≠ 512
  · rw [if_pos hp] at hb2 ⊢
    rw [if_pos hp]
    simp only [write_size, sys_write_pos, List.length_replicate] at hb2 ⊢
    have e1 : toUInt32 (o : Int) = o := toUInt32_small o (by omega)
    have e2 : toInt32 (o + (512 - S % 512)) = ((o + (512 - S % 512) : Nat) : Int) :=
      toInt32_small _ (by omega)
    have e3 : toUInt32 ((o + (512 - S % 512) : Nat) : Int) = o + (512 - S % 512) :=
      toUInt32_small _ (by omega)
    have e4 : toInt32 (o + (512 - S % 512) + S) = ((o + (512 - S % 512) + S : Nat) : Int) :=
      toInt32_small _ (by omega)
    rw [e1, e2, e3, e4]
    push_cast
    omega
  · rw [if_neg hp] at hb2 ⊢
    rw [if_neg hp]
    have e1 : toUInt32 (o : Int) = o := toUInt32_small o (by omega)
    have e4 : toInt32 (o + S) = ((o + S : Nat) : Int) := toInt32_small _ (by omega)
    rw [e1, e4]
    push_cast
    omega

/-- The offset counter after the branch of `write_entries` for an entry that is not
a directory moves like the offset of the descriptor, when the payload has the length
the header states. -/
theorem write_file_offset (fs : fs_t) (st : write_state) (e : tar_t) (filename : List Nat)
    (hb : e.block.length = 512)
    (hs : if is_file_type (type_of e) then
        ∀ c, fs.open_read (cstr e.block) = some c → c.length = size_of e
      else size_of e = 0)
    (o : Nat) (ho : st.offset = (o : Int)) (hle : o ≤ st.fd.pos)
    (hok : 0 ≤ (write_file fs st e filename).ret)
    (hB : (write_file fs st e filename).st.fd.pos < 2 ^ 31) :
    (write_file fs st e filename).st.offset =
      ((o + ((write_file fs st e filename).st.fd.pos - st.fd.pos) : Nat) : Int) := by
  unfold write_file at hok hB ⊢
  simp only at hok hB ⊢
  generalize (if (is_file_type (type_of e) || type_of e == SYMLINK) = true then
    «exists» (List.take st.cur st.archive ++ [e]) filename true != some st.cur else false) =
      tarred at hok hB ⊢
  have hfacts : ∀ e1 : tar_t, e1 = (if tarred = true then (calculate_checksum
      { original_name := e.original_name, begin := e.begin,
        block := poke (poke (poke e.block off_type [HARDLINK]) off_link_name
          (strncpy (cstr (poke e.block off_type [HARDLINK])) 100)) off_size
          (List.replicate 11 48) }).1 else e) →
      e1.block.length = 512 ∧
      ((is_file_type (type_of e1) && !tarred) = true →
        ∀ c, fs.open_read (cstr e1.block) = some c → c.length = size_of e1) ∧
      (¬ (is_file_type (type_of e1) && !tarred) = true → size_of e1 = 0) := by
    intro e1 he1
    cases tarred with
    | true =>
      simp only [if_true] at he1
      obtain ⟨ht, hz⟩ := hardlink_header e hb
      subst he1
      refine ⟨by simp [hb], by simp, fun _ => hz⟩
    | false =>
      simp only [Bool.false_eq_true, if_false] at he1
      subst he1
      refine ⟨hb, ?_, ?_⟩
      · intro hc
        simp only [Bool.not_false, Bool.and_true] at hc
        rw [if_pos hc] at hs
        exact hs
      · intro hc
        simp only [Bool.not_false, Bool.and_true] at hc
        rw [if_neg hc] at hs
        exact hs
  generalize (if tarred = true then (calculate_checksum
    { original_name := e.original_name, begin := e.begin,
      block := poke (poke (poke e.block off_type [HARDLINK]) off_link_name
        (strncpy (cstr (poke e.block off_type [HARDLINK])) 100)) off_size
        (List.replicate 11 48) }).1 else e) = e1 at hfacts hok hB ⊢
  obtain ⟨F1, F2, F3⟩ := hfacts e1 rfl
  clear hfacts
  have hfd1 : (write_size st.fd e1.block).pos = st.fd.pos + 512 := by
    rw [write_size, sys_write_pos, F1]
  have tail := fun fd2 h2 hb2 =>
    write_file_tail o st.fd.pos (size_of e1) fd2 st.offset ho hle h2 hb2
  by_cases hc : (is_file_type (type_of e1) && !tarred) = true
  · rw [if_pos hc] at hok hB ⊢
    cases hr : fs.open_read (cstr e1.block) with
    | none =>
      rw [hr] at hok
      simp [write_error] at hok
    | some c =>
      rw [hr] at hB
      simp only at hB ⊢
      have hcl := F2 hc c hr
      exact tail _ (by rw [copy_file_pos _ _ _ (by simp), hfd1]; simp [hcl]) hB
  · rw [if_neg hc] at hB ⊢
    simp only at hB ⊢
    exact tail _ (by rw [hfd1, F3 hc]) hB

theorem write_children_offset (recurse : write_state → List Nat → write_result)
    (hgrow : ∀ s path, s.fd.pos ≤ s.fd.data.length → fd_grows s.fd (recurse s path).st.fd)
    (hoff : ∀ s path (o : Nat), s.fd.pos ≤ s.fd.data.length → s.offset = (o : Int) →
      o ≤ s.fd.pos → 0 ≤ (recurse s path).ret → (recurse s path).st.fd.pos < 2 ^ 31 →
      (recurse s path).st.offset = ((o + ((recurse s path).st.fd.pos - s.fd.pos) : Nat) : Int))
    (parent : List Nat) (names : List (List Nat)) :
    ∀ (st : write_state) (o : Nat), st.fd.pos ≤ st.fd.data.length → st.offset = (o : Int) →
      o ≤ st.fd.pos → 0 ≤ (write_children recurse parent st names).ret →
      (write_children recurse parent st names).st.fd.pos < 2 ^ 31 →
      (write_children recurse parent st names).st.offset =
        ((o + ((write_children recurse parent st names).st.fd.pos - st.fd.pos) : Nat) : Int) := by
  induction names with
  | nil =>
    intro st o _ ho _ _ _
    rw [write_children]
    simp only [Nat.sub_self, Nat.add_zero]
    exact ho
  | cons d rest ih =>
    intro st o h ho hle hok hB
    rw [write_children] at hok hB ⊢
    simp only at hok hB ⊢
    by_cases h1 : (!strncmp_eq0 d [46] (strlen d) && !strncmp_eq0 d [46, 46] (strlen d)) = true
    · rw [if_pos h1] at hok hB ⊢
      have hg := hgrow { st with cur := st.cur + 1 } (parent ++ [47] ++ d) h
      have ho1 := hoff { st with cur := st.cur + 1 } (parent ++ [47] ++ d) o h ho hle
      generalize recurse { st with cur := st.cur + 1 } (parent ++ [47] ++ d) = r
        at hg ho1 hok hB ⊢
      by_cases h2 : r.ret < 0
      · rw [if_pos h2] at hok
        simp [write_error] at hok
      · rw [if_neg h2] at hok hB ⊢
        have hg2 := write_children_grows recurse hgrow parent rest
          ⟨r.st.fd, r.st.archive, r.st.archive.length - 1, r.st.offset⟩ hg.2.1
        have hp1 : st.fd.pos ≤ r.st.fd.pos := hg.1
        have hp2 := hg2.1
        simp only at hp2
        have ho2 := ho1 (by omega) (by omega)
        have := ih ⟨r.st.fd, r.st.archive, r.st.archive.length - 1, r.st.offset⟩
          (o + (r.st.fd.pos - st.fd.pos)) hg.2.1 ho2 (by simp only; omega) hok hB
        rw [this]
        simp only
        congr 1
        omega
    · rw [if_neg h1] at hok hB ⊢
      exact ih st o h ho hle hok hB

theorem write_dir_offset (fs : fs_t) (recurse : write_state → List Nat → write_result)
    (hgrow : ∀ s path, s.fd.pos ≤ s.fd.data.length → fd_grows s.fd (recurse s path).st.fd)
    (hoff : ∀ s path (o : Nat), s.fd.pos ≤ s.fd.data.length → s.offset = (o : Int) →
      o ≤ s.fd.pos → 0 ≤ (recurse s path).ret → (recurse s path).st.fd.pos < 2 ^ 31 →
      (recurse s path).st.offset = ((o + ((recurse s path).st.fd.pos - s.fd.pos) : Nat) : Int))
    (st : write_state) (e : tar_t) (hb : e.block.length = 512) (o : Nat)
    (h : st.fd.pos ≤ st.fd.data.length) (ho : st.offset = (o : Int)) (hle : o ≤ st.fd.pos)
    (hok : 0 ≤ (write_dir fs recurse st e).ret)
    (hB : (write_dir fs recurse st e).st.fd.pos < 2 ^ 31) :
    (write_dir fs recurse st e).st.offset =
      ((o + ((write_dir fs recurse st e).st.fd.pos - st.fd.pos) : Nat) : Int) := by
  unfold write_dir at hok hB ⊢
  simp only at hok hB ⊢
  have hl1 : (if (strlen e.block < 99 && name_last e (strlen e.block) != 47) = true then
      (calculate_checksum (tar_t.mk e.original_name e.begin
        (poke (poke e.block (strlen e.block) [47]) (strlen e.block + 1) [0]))).1
      else e).block.length = 512 := by
    split_ifs
    · simp [hb]
    · exact hb
  generalize (if (strlen e.block < 99 && name_last e (strlen e.block) != 47) = true then
    (calculate_checksum (tar_t.mk e.original_name e.begin
      (poke (poke e.block (strlen e.block) [47]) (strlen e.block + 1) [0]))).1
    else e) = e1 at hl1 hok hB ⊢
  have h1 := fd_grows_sys_write st.fd e1.block h
  have hp1 : (write_size st.fd e1.block).pos = st.fd.pos + 512 := by
    rw [write_size, sys_write_pos, hl1]
  cases hrd : fs.readdir (List.take (strlen e.block) e.block) with
  | none =>
    rw [hrd] at hok
    simp [write_error] at hok
  | some names =>
    rw [hrd] at hok hB
    simp only at hok hB ⊢
    have hc := write_children_offset recurse hgrow hoff (List.take (strlen e.block) e.block) names
      { fd := write_size st.fd e1.block, archive := List.take st.cur st.archive ++ [e1],
        cur := st.cur, offset := st.offset } o h1.2.1 ho (by simp only; omega)
    have hcg := write_children_grows recurse hgrow (List.take (strlen e.block) e.block) names
      { fd := write_size st.fd e1.block, archive := List.take st.cur st.archive ++ [e1],
        cur := st.cur, offset := st.offset } h1.2.1
    generalize write_children recurse (List.take (strlen e.block) e.block)
      { fd := write_size st.fd e1.block, archive := List.take st.cur st.archive ++ [e1],
        cur := st.cur, offset := st.offset } names = r at hc hcg hok hB ⊢
    by_cases h2 : r.ret < 0
    · rw [if_pos h2] at hok
      omega
    · rw [if_neg h2] at hB ⊢
      simp only at hB ⊢
      have hq := hcg.1
      simp only at hq hc
      rw [hc (by omega) hB]
      push_cast
      omega

theorem write_loop_offset (fs : fs_t) (recurse : write_state → List Nat → write_result)
    (hgrow : ∀ s path, s.fd.pos ≤ s.fd.data.length → fd_grows s.fd (recurse s path).st.fd)
    (hoff : ∀ s path (o : Nat), s.fd.pos ≤ s.fd.data.length → s.offset = (o : Int) →
      o ≤ s.fd.pos → 0 ≤ (recurse s path).ret → (recurse s path).st.fd.pos < 2 ^ 31 →
      (recurse s path).st.offset = ((o + ((recurse s path).st.fd.pos - s.fd.pos) : Nat) : Int))
    (hfs : sizes_agree fs) (files : List (List Nat)) :
    ∀ (st : write_state) (o : Nat), st.fd.pos ≤ st.fd.data.length → st.offset = (o : Int) →
      o ≤ st.fd.pos → 0 ≤ (write_loop fs recurse st files).ret →
      (write_loop fs recurse st files).st.fd.pos < 2 ^ 31 →
      (write_loop fs recurse st files).st.offset =
        ((o + ((write_loop fs recurse st files).st.fd.pos - st.fd.pos) : Nat) : Int) := by
  induction files with
  | nil =>
    intro st o _ ho _ _ _
    rw [write_loop]
    simp only [Nat.sub_self, Nat.add_zero]
    exact ho
  | cons f rest ih =>
    intro st o h ho hle hok hB
    rw [write_loop] at hok hB ⊢
    cases hfm : format_tar_data fs f with
    | none =>
      rw [hfm] at hok
      simp [write_error] at hok
    | some e0 =>
      rw [hfm] at hok hB
      simp only at hok hB ⊢
      have hb := format_tar_data_block_length fs f e0 hfm
      have hg : fd_grows st.fd
          (if type_of { e0 with begin := toUInt32 st.offset } = DIRECTORY then
            write_dir fs recurse st { e0 with begin := toUInt32 st.offset }
          else write_file fs st { e0 with begin := toUInt32 st.offset } f).st.fd := by
        split_ifs
        · exact write_dir_grows fs recurse hgrow st _ h
        · exact write_file_grows fs st _ f h
      have ho1 : 0 ≤ (if type_of { e0 with begin := toUInt32 st.offset } = DIRECTORY then
            write_dir fs recurse st { e0 with begin := toUInt32 st.offset }
          else write_file fs st { e0 with begin := toUInt32 st.offset } f).ret →
          (if type_of { e0 with begin := toUInt32 st.offset } = DIRECTORY then
            write_dir fs recurse st { e0 with begin := toUInt32 st.offset }
          else write_file fs st { e0 with begin := toUInt32 st.offset } f).st.fd.pos < 2 ^ 31 →
          (if type_of { e0 with begin := toUInt32 st.offset } = DIRECTORY then
            write_dir fs recurse st { e0 with begin := toUInt32 st.offset }
          else write_file fs st { e0 with begin := toUInt32 st.offset } f).st.offset =
            ((o + ((if type_of { e0 with begin := toUInt32 st.offset } = DIRECTORY then
              write_dir fs recurse st { e0 with begin := toUInt32 st.offset }
            else write_file fs st { e0 with begin := toUInt32 st.offset } f).st.fd.pos -
              st.fd.pos) : Nat) : Int) := by
        by_cases hd : type_of { e0 with begin := toUInt32 st.offset } = DIRECTORY
        · simp only [if_pos hd]
          exact write_dir_offset fs recurse hgrow hoff st
            (tar_t.mk e0.original_name (toUInt32 st.offset) e0.block) hb o h ho hle
        · simp only [if_neg hd]
          exact write_file_offset fs st (tar_t.mk e0.original_name (toUInt32 st.offset) e0.block) f
            hb (hfs f e0 hfm hd) o ho hle
      generalize (if type_of { e0 with begin := toUInt32 st.offset } = DIRECTORY then
          write_dir fs recurse st { e0 with begin := toUInt32 st.offset }
        else write_file fs st { e0 with begin := toUInt32 st.offset } f) = r
        at hg ho1 hok hB ⊢
      by_cases h2 : r.ret < 0
      · rw [if_pos h2] at hok
        omega
      · rw [if_neg h2] at hok hB ⊢
        have hg2 := write_loop_grows fs recurse hgrow rest r.st hg.2.1
        have hp1 := hg.1
        have hp2 := hg2.1
        have ho2 := ho1 (by omega) (by omega)
        rw [ih r.st (o + (r.st.fd.pos - st.fd.pos)) hg.2.1 ho2 (by omega) hok hB]
        congr 1
        omega

theorem write_entries_offset (fs : fs_t) (hfs : sizes_agree fs) : ∀ (depth : Nat)
    (st : write_state) (files : List (List Nat)) (o : Nat),
    st.fd.pos ≤ st.fd.data.length → st.offset = (o : Int) → o ≤ st.fd.pos →
    0 ≤ (write_entries fs depth st files).ret →
    (write_entries fs depth st files).st.fd.pos < 2 ^ 31 →
    (write_entries fs depth st files).st.offset =
      ((o + ((write_entries fs depth st files).st.fd.pos - st.fd.pos) : Nat) : Int) := by
  intro depth
  induction depth with
  | zero =>
    intro st files o _ _ _ hok _
    rw [write_entries] at hok
    simp at hok
  | succ d ih =>
    intro st files o h ho hle hok hB
    rw [write_entries] at hok hB ⊢
    by_cases hc : st.cur < st.archive.length
    · rw [if_pos hc] at hok
      simp at hok
    · rw [if_neg hc] at hok hB ⊢
      exact write_loop_offset fs _ (fun s path hs => write_entries_grows fs d s [path] hs)
        (fun s path o hs => ih s [path] o hs) hfs files st o h ho hle hok hB

theorem write_start_eq (last : tar_t) (hb : append_start last < 2 ^ 31) :
    write_start last = (append_start last : Int) := by
  unfold append_start padded at hb
  unfold write_start append_start padded U32
  simp only
  have h0 : (512 + size_of last) % 2 ^ 32 = 512 + size_of last := Nat.mod_eq_of_lt (by omega)
  rw [h0]
  split_ifs with h1
  · rw [Nat.mod_eq_of_lt (by omega), toInt32_small _ (by omega)]
    congr 1
    omega
  · rw [toInt32_small _ (by omega)]
    congr 1
    omega

theorem write_end_data_grows (fd : fd_t) (size : Int) (h : fd.pos ≤ fd.data.length) :
    fd_grows fd (write_end_data fd size).2 := by
  unfold write_end_data
  simp only
  have h1 := fd_grows_sys_write fd
    (List.replicate ((RECORDSIZE : Int) - size.tmod (RECORDSIZE : Int)).toNat 0) h
  split_ifs
  · exact fd_grows_trans _ _ _ h1 (fd_grows_sys_write _ _ h1.2.1)
  · exact h1

/-- The steps of `tar_write` on a list that ends with `last`, when the offset behind
`last` is below `2 ^ 31`: a seek to that offset, `write_entries`, and the terminator
when the entries were written. -/
theorem tar_write_steps (fs : fs_t) (depth : Nat) (fd : fd_t) (archive : List tar_t)
    (files : List (List Nat)) (last : tar_t) (hlast : archive.getLast? = some last)
    (hb : append_start last < 2 ^ 31) :
    tar_write fs depth fd archive files =
      if (write_entries fs depth (append_state fd archive (append_start last)) files).ret < 0 then
        { ret := -1,
          archive := (write_entries fs depth (append_state fd archive (append_start last))
            files).st.archive,
          fd := (write_entries fs depth (append_state fd archive (append_start last)) files).st.fd }
      else
        { ret := (write_entries fs depth (append_state fd archive (append_start last))
            files).st.offset,
          archive := (write_entries fs depth (append_state fd archive (append_start last))
            files).st.archive.map clear_name,
          fd := (write_end_data
            (write_entries fs depth (append_state fd archive (append_start last)) files).st.fd
            (write_entries fs depth (append_state fd archive (append_start last))
              files).st.offset).2 } := by
  have hw := write_start_eq last hb
  unfold tar_write
  simp only [hlast, hw]
  rw [if_neg (by omega)]
  simp only [Int.toNat_ofNat]
  rfl

/-! ### The first header written -/

/-- The bytes between the offsets `p` and `p + n` stay in a file when what is
written later lies behind them. -/
theorem slice_of_grows (fd1 fdF : fd_t) (p n : Nat) (hp : p + n ≤ fd1.pos)
    (hg : fd_grows fd1 fdF) : slice fdF.data p n = slice fd1.data p n := by
  apply List.ext_getElem?
  intro i
  rw [getElem?_slice, getElem?_slice]
  by_cases hi : i < n
  · rw [if_pos hi, if_pos hi]
    have h1 : (fdF.data.take fd1.pos)[p + i]? = fdF.data[p + i]? :=
      List.getElem?_take_of_lt (by omega)
    have h2 : (fd1.data.take fd1.pos)[p + i]? = fd1.data[p + i]? :=
      List.getElem?_take_of_lt (by omega)
    rw [← h1, ← h2, hg.2.2]
  · rw [if_neg hi, if_neg hi]

theorem slice_sys_write (fd : fd_t) (b : List Nat) (h : fd.pos ≤ fd.data.length) :
    slice (sys_write fd b).data fd.pos b.length = b := by
  have e : fd.pos - fd.data.length = 0 := by omega
  have hl : (fd.data.take fd.pos).length = fd.pos := by
    rw [List.length_take]; omega
  unfold sys_write slice
  simp only [e, List.replicate_zero, List.append_nil]
  rw [List.append_assoc, List.drop_left' hl, List.take_left' rfl]

/-- The block at the offset of the descriptor after a write of a block and later
writes behind it. -/
theorem first_block (fd fdF : fd_t) (b : List Nat) (h : fd.pos ≤ fd.data.length)
    (hg : fd_grows (write_size fd b) fdF) : slice fdF.data fd.pos b.length = b := by
  rw [slice_of_grows (write_size fd b) fdF fd.pos b.length (le_of_eq rfl) hg]
  exact slice_sys_write fd b h

theorem format_type_slice_mid (fs : fs_t) (st : stat_t) (filename b b1 : List Nat) (a n : Nat)
    (ht : format_type fs st filename b = some b1) (h : 257 ≤ a ∧ a + n ≤ 329) :
    slice b1 a n = slice b a n := by
  unfold format_type at ht
  simp only at ht
  split_ifs at ht
  · rw [← Option.some.inj ht, slice_poke_disjoint _ _ _ _ _ (by simp [off_type]; omega)]
  · cases hr : fs.readlink filename with
    | none => simp [hr] at ht
    | some target =>
      simp only [hr] at ht
      rw [← Option.some.inj ht,
        slice_poke_disjoint _ _ _ _ _ (by simp [off_link_name]; omega),
        slice_poke_disjoint _ _ _ _ _ (by simp [off_size]; omega),
        slice_poke_disjoint _ _ _ _ _ (by simp [off_type]; omega)]
  · rw [← Option.some.inj ht, slice_poke_disjoint _ _ _ _ _ (by simp [off_minor]; omega),
      slice_poke_disjoint _ _ _ _ _ (by simp [off_major]; omega),
      slice_poke_disjoint _ _ _ _ _ (by simp [off_type]; omega)]
  · rw [← Option.some.inj ht, slice_poke_disjoint _ _ _ _ _ (by simp [off_minor]; omega),
      slice_poke_disjoint _ _ _ _ _ (by simp [off_major]; omega),
      slice_poke_disjoint _ _ _ _ _ (by simp [off_type]; omega)]
  · rw [← Option.some.inj ht, slice_poke_disjoint _ _ _ _ _ (by simp [off_type]; omega)]
  · rw [← Option.some.inj ht, slice_poke_disjoint _ _ _ _ _ (by simp [off_type]; omega)]

/-- Every header made by `format_tar_data` carries the magic `ustar`, NUL, `00`. -/
theorem format_tar_data_magic (fs : fs_t) (p : List Nat) (e : tar_t)
    (he : format_tar_data fs p = some e) :
    slice e.block off_ustar 8 = [117, 115, 116, 97, 114, 0, 48, 48] := by
  obtain ⟨st, b1, login, _, ht, _, h32, hE⟩ := format_tar_data_some fs p e he
  rw [hE, calculate_checksum_slice _ _ _ (Or.inr (by simp [off_ustar]))]
  show slice (format_names fs st login b1) off_ustar 8 = _
  rw [format_names_slice fs st login b1 _ _ h32 (Or.inl (by simp [off_ustar])),
    format_type_slice_mid fs st p _ b1 _ _ ht (by simp [off_ustar])]
  unfold format_common
  simp only
  exact slice_poke_self _ [117, 115, 116, 97, 114, 0, 48, 48] off_ustar
    (by simp only [poke_length_eq, List.length_replicate, off_ustar, List.length_cons,
      List.length_nil]; omega)

theorem write_file_header (fs : fs_t) (st : write_state) (e : tar_t) (filename : List Nat)
    (h : st.fd.pos ≤ st.fd.data.length) (hb : e.block.length = 512) :
    ∃ b : List Nat, b.length = 512 ∧ slice b off_ustar 8 = slice e.block off_ustar 8 ∧
      fd_grows (write_size st.fd b) (write_file fs st e filename).st.fd := by
  unfold write_file
  simp only
  generalize (if (is_file_type (type_of e) || type_of e == SYMLINK) = true then
    «exists» (List.take st.cur st.archive ++ [e]) filename true != some st.cur else false) = tarred
  have hfacts : (if tarred = true then (calculate_checksum
      { original_name := e.original_name, begin := e.begin,
        block := poke (poke (poke e.block off_type [HARDLINK]) off_link_name
          (strncpy (cstr (poke e.block off_type [HARDLINK])) 100)) off_size
          (List.replicate 11 48) }).1 else e).block.length = 512 ∧
      slice (if tarred = true then (calculate_checksum
        { original_name := e.original_name, begin := e.begin,
          block := poke (poke (poke e.block off_type [HARDLINK]) off_link_name
            (strncpy (cstr (poke e.block off_type [HARDLINK])) 100)) off_size
            (List.replicate 11 48) }).1 else e).block off_ustar 8 =
        slice e.block off_ustar 8 := by
    cases tarred with
    | true =>
      simp only [if_true]
      refine ⟨by simp [hb], ?_⟩
      rw [calculate_checksum_slice _ _ _ (Or.inr (by simp [off_ustar]))]
      show slice (poke (poke (poke e.block off_type [HARDLINK]) off_link_name
        (strncpy (cstr (poke e.block off_type [HARDLINK])) 100)) off_size
        (List.replicate 11 48)) off_ustar 8 = _
      have hl : (strncpy (cstr (poke e.block off_type [HARDLINK])) 100).length = 100 := by
        simp only [strncpy, List.length_append, List.length_take, List.length_replicate]
        omega
      rw [slice_poke_disjoint _ _ _ _ _ (by simp [off_ustar, off_size]),
        slice_poke_disjoint _ _ _ _ _ (by rw [hl]; simp [off_ustar, off_link_name]),
        slice_poke_disjoint _ _ _ _ _ (by simp [off_ustar, off_type])]
    | false =>
      simp only [Bool.false_eq_true, if_false]
      exact ⟨hb, trivial⟩
  generalize (if tarred = true then (calculate_checksum
    { original_name := e.original_name, begin := e.begin,
      block := poke (poke (poke e.block off_type [HARDLINK]) off_link_name
        (strncpy (cstr (poke e.block off_type [HARDLINK])) 100)) off_size
        (List.replicate 11 48) }).1 else e) = e1 at hfacts ⊢
  refine ⟨e1.block, hfacts.1, hfacts.2, ?_⟩
  have h1 := fd_grows_sys_write st.fd e1.block h
  have h0 : fd_grows (write_size st.fd e1.block) (write_size st.fd e1.block) :=
    fd_grows_refl _ h1.2.1
  have hpad : ∀ fd2, fd_grows (write_size st.fd e1.block) fd2 →
      fd_grows (write_size st.fd e1.block)
        (if 512 - size_of e1 % 512 ≠ 512 then
          write_size fd2 (List.replicate (512 - size_of e1 % 512) 0) else fd2) := by
    intro fd2 h2
    split_ifs
    · exact fd_grows_trans _ _ _ h2 (fd_grows_sys_write fd2 _ h2.2.1)
    · exact h2
  by_cases hc : (is_file_type (type_of e1) && !tarred) = true
  · rw [if_pos hc]
    cases fs.open_read (cstr e1.block) with
    | none => exact h0
    | some content => exact hpad _ (copy_file_grows _ _ _ h1.2.1)
  · rw [if_neg hc]
    exact hpad _ h0

theorem write_dir_header (fs : fs_t) (recurse : write_state → List Nat → write_result)
    (hrec : ∀ s path, s.fd.pos ≤ s.fd.data.length → fd_grows s.fd (recurse s path).st.fd)
    (st : write_state) (e : tar_t) (h : st.fd.pos ≤ st.fd.data.length)
    (hb : e.block.length = 512) :
    ∃ b : List Nat, b.length = 512 ∧ slice b off_ustar 8 = slice e.block off_ustar 8 ∧
      fd_grows (write_size st.fd b) (write_dir fs recurse st e).st.fd := by
  unfold write_dir
  simp only
  have hfacts : (if (strlen e.block < 99 && name_last e (strlen e.block) != 47) = true then
      (calculate_checksum (tar_t.mk e.original_name e.begin
        (poke (poke e.block (strlen e.block) [47]) (strlen e.block + 1) [0]))).1
      else e).block.length = 512 ∧
      slice (if (strlen e.block < 99 && name_last e (strlen e.block) != 47) = true then
        (calculate_checksum (tar_t.mk e.original_name e.begin
          (poke (poke e.block (strlen e.block) [47]) (strlen e.block + 1) [0]))).1
        else e).block off_ustar 8 = slice e.block off_ustar 8 := by
    by_cases hc : (strlen e.block < 99 && name_last e (strlen e.block) != 47) = true
    · rw [if_pos hc]
      have hlt : strlen e.block < 99 := by
        simp only [Bool.and_eq_true, decide_eq_true_eq] at hc
        exact hc.1
      refine ⟨by simp [hb], ?_⟩
      rw [calculate_checksum_slice _ _ _ (Or.inr (by simp [off_ustar]))]
      show slice (poke (poke e.block (strlen e.block) [47]) (strlen e.block + 1) [0])
        off_ustar 8 = _
      rw [slice_poke_disjoint _ _ _ _ _ (by simp [off_ustar]; omega),
        slice_poke_disjoint _ _ _ _ _ (by simp [off_ustar]; omega)]
    · rw [if_neg hc]
      exact ⟨hb, rfl⟩
  generalize (if (strlen e.block < 99 && name_last e (strlen e.block) != 47) = true then
    (calculate_checksum (tar_t.mk e.original_name e.begin
      (poke (poke e.block (strlen e.block) [47]) (strlen e.block + 1) [0]))).1
    else e) = e1 at hfacts ⊢
  refine ⟨e1.block, hfacts.1, hfacts.2, ?_⟩
  have h1 := fd_grows_sys_write st.fd e1.block h
  cases fs.readdir (List.take (strlen e.block) e.block) with
  | none => exact fd_grows_refl _ h1.2.1
  | some names =>
    simp only
    have hc := write_children_grows recurse hrec (List.take (strlen e.block) e.block) names
      { fd := write_size st.fd e1.block, archive := List.take st.cur st.archive ++ [e1],
        cur := st.cur, offset := st.offset } h1.2.1
    split_ifs
    · exact hc
    · exact hc

theorem write_loop_magic (fs : fs_t) (recurse : write_state → List Nat → write_result)
    (hrec : ∀ s path, s.fd.pos ≤ s.fd.data.length → fd_grows s.fd (recurse s path).st.fd)
    (st : write_state) (f : List Nat) (rest : List (List Nat))
    (h : st.fd.pos ≤ st.fd.data.length)
    (hok : 0 ≤ (write_loop fs recurse st (f :: rest)).ret) :
    st.fd.pos + 512 ≤ (write_loop fs recurse st (f :: rest)).st.fd.pos ∧
    slice (write_loop fs recurse st (f :: rest)).st.fd.data (st.fd.pos + off_ustar) 8 =
      [117, 115, 116, 97, 114, 0, 48, 48] := by
  rw [write_loop] at hok ⊢
  cases hfm : format_tar_data fs f with
  | none =>
    rw [hfm] at hok
    simp [write_error] at hok
  | some e0 =>
    simp only
    have hb := format_tar_data_block_length fs f e0 hfm
    have hm := format_tar_data_magic fs f e0 hfm
    have hstep : ∃ b : List Nat, b.length = 512 ∧
        slice b off_ustar 8 = slice e0.block off_ustar 8 ∧
        fd_grows (write_size st.fd b)
          (if type_of { e0 with begin := toUInt32 st.offset } = DIRECTORY then
            write_dir fs recurse st { e0 with begin := toUInt32 st.offset }
          else write_file fs st { e0 with begin := toUInt32 st.offset } f).st.fd := by
      split_ifs
      · exact write_dir_header fs recurse hrec st
          (tar_t.mk e0.original_name (toUInt32 st.offset) e0.block) h hb
      · exact write_file_header fs st (tar_t.mk e0.original_name (toUInt32 st.offset) e0.block)
          f h hb
    obtain ⟨b, hbl, hbm, hg⟩ := hstep
    generalize (if type_of { e0 with begin := toUInt32 st.offset } = DIRECTORY then
        write_dir fs recurse st { e0 with begin := toUInt32 st.offset }
      else write_file fs st { e0 with begin := toUInt32 st.offset } f) = r at hg ⊢
    have hfin : fd_grows (write_size st.fd b)
        (if r.ret < 0 then r else write_loop fs recurse r.st rest).st.fd := by
      split_ifs
      · exact hg
      · exact fd_grows_trans _ _ _ hg (write_loop_grows fs recurse hrec rest r.st hg.2.1)
    have hfb := first_block st.fd _ b h hfin
    rw [hbl] at hfb
    have hpos := hfin.1
    rw [write_size, sys_write_pos, hbl] at hpos
    refine ⟨hpos, ?_⟩
    rw [← slice_slice _ st.fd.pos 512 off_ustar 8 (by simp [off_ustar]), hfb, hbm, hm]

theorem write_entries_magic (fs : fs_t) (depth : Nat) (st : write_state) (f : List Nat)
    (rest : List (List Nat)) (h : st.fd.pos ≤ st.fd.data.length)
    (hok : 0 ≤ (write_entries fs depth st (f :: rest)).ret) :
    st.fd.pos + 512 ≤ (write_entries fs depth st (f :: rest)).st.fd.pos ∧
    slice (write_entries fs depth st (f :: rest)).st.fd.data (st.fd.pos + off_ustar) 8 =
      [117, 115, 116, 97, 114, 0, 48, 48] := by
  cases depth with
  | zero =>
    rw [write_entries] at hok
    simp at hok
  | succ d =>
    rw [write_entries] at hok ⊢
    by_cases hc : st.cur < st.archive.length
    · rw [if_pos hc] at hok
      simp at hok
    · rw [if_neg hc] at hok ⊢
      exact write_loop_magic fs _ (fun s path hs => write_entries_grows fs d s [path] hs)
        st f rest h hok

/-- C19 (amended): on a list that ends with the entry `last`, when the offset
`start` behind `last` (its `begin`, 512 and the size rounded up to a multiple of 512)
is below `2 ^ 31` and inside the file, `tar_write` keeps every byte in front of
`start`; when it succeeds and a path was given, the block at `start` carries the magic
of a header; and when it succeeds on a file system whose payloads have the lengths
their headers state, with a resulting file below `2 ^ 31` bytes, the entries are
written from `start` on, the returned value is the offset of the descriptor behind
them, and the terminator is written there. -/
theorem C19_append_frame (fs : fs_t) (depth : Nat) (fd : fd_t) (archive : List tar_t)
    (files : List (List Nat)) (last : tar_t) (hlast : archive.getLast? = some last)
    (hb : append_start last < 2 ^ 31) (hlen : append_start last ≤ fd.data.length) :
    (tar_write fs depth fd archive files).fd.data.take (append_start last) =
        fd.data.take (append_start last) ∧
      (0 ≤ (tar_write fs depth fd archive files).ret → files ≠ [] →
        slice (tar_write fs depth fd archive files).fd.data (append_start last + off_ustar) 8 =
          [117, 115, 116, 97, 114, 0, 48, 48]) ∧
      (0 ≤ (tar_write fs depth fd archive files).ret → sizes_agree fs →
        (tar_write fs depth fd archive files).fd.data.length < 2 ^ 31 →
        append_start last ≤
            (write_entries fs depth (append_state fd archive (append_start last)) files).st.fd.pos ∧
          (tar_write fs depth fd archive files).ret =
            ((write_entries fs depth (append_state fd archive (append_start last))
              files).st.fd.pos : Int) ∧
          (tar_write fs depth fd archive files).fd =
            (write_end_data
              (write_entries fs depth (append_state fd archive (append_start last)) files).st.fd
              ((write_entries fs depth (append_state fd archive (append_start last))
                files).st.fd.pos : Int)).2) := by
  have h0 : (append_state fd archive (append_start last)).fd.pos ≤
      (append_state fd archive (append_start last)).fd.data.length := hlen
  have hg := write_entries_grows fs depth (append_state fd archive (append_start last)) files h0
  have hoff := fun hfs => write_entries_offset fs hfs depth
    (append_state fd archive (append_start last)) files (append_start last) h0 rfl (le_refl _)
  have hmag := fun f rest => write_entries_magic fs depth
    (append_state fd archive (append_start last)) f rest h0
  rw [tar_write_steps fs depth fd archive files last hlast hb]
  generalize write_entries fs depth (append_state fd archive (append_start last)) = W
    at hg hoff hmag ⊢
  have hp : (append_state fd archive (append_start last)).fd.pos = append_start last := rfl
  have hd : (append_state fd archive (append_start last)).fd.data = fd.data := rfl
  by_cases hneg : (W files).ret < 0
  · rw [if_pos hneg]
    refine ⟨?_, ?_, ?_⟩
    · rw [← hd, ← hp]; exact hg.2.2
    · intro hok; simp at hok
    · intro hok; simp at hok
  · rw [if_neg hneg]
    have he := write_end_data_grows (W files).st.fd (W files).st.offset hg.2.1
    have hge := fd_grows_trans _ _ _ hg he
    refine ⟨?_, ?_, ?_⟩
    · rw [← hd, ← hp]; exact hge.2.2
    · intro _ hne
      obtain ⟨f, rest, rfl⟩ : ∃ f rest, files = f :: rest := by
        cases files with
        | nil => exact absurd rfl hne
        | cons f rest => exact ⟨f, rest, rfl⟩
      obtain ⟨hq, hm⟩ := hmag f rest (by omega)
      rw [hp] at hm hq
      rw [slice_of_grows (W (f :: rest)).st.fd _ (append_start last + off_ustar) 8
        (by simp only [off_ustar]; omega) he]
      exact hm
    · intro _ hfs hlt
      have hpos : (W files).st.fd.pos < 2 ^ 31 := by
        have h1 := he.1
        have h2 := he.2.1
        simp only at hlt
        omega
      have ho := hoff hfs (by omega) hpos
      have hle : append_start last ≤ (W files).st.fd.pos := hg.1
      rw [hp] at ho
      have ho' : (W files).st.offset = ((W files).st.fd.pos : Int) := by
        rw [ho]; congr 1; omega
      refine ⟨hle, ho', ?_⟩
      simp only
      rw [ho']

set_option maxRecDepth 1000000 in
theorem fs_three_sizes_agree : sizes_agree fs_three := by
  intro p e he _
  by_cases hp : p = path_f
  · subst hp
    have hfacts : (format_tar_data fs_three path_f).map
        (fun e => (type_of e, size_of e, cstr e.block)) = some (NORMAL, 3, path_f) := by
      decide!
    rw [he, Option.map_some', Option.some.injEq, Prod.mk.injEq, Prod.mk.injEq] at hfacts
    obtain ⟨ht, hs, hn⟩ := hfacts
    rw [ht, hs, hn, if_pos (by decide)]
    intro c hc
    have : fs_three.open_read path_f = some [1, 2, 3] := by decide
    rw [this] at hc
    rw [← Option.some.inj hc]
    rfl
  · have hl : fs_three.lstat p = none := by
      simp [fs_three, fs_one, hp]
    unfold format_tar_data at he
    rw [hl] at he
    exact absurd he (by simp)

set_option maxRecDepth 1000000 in
theorem C19_append_frame_witness :
    (tar_write fs_three 2 { data := upd_file, pos := 0 } [entry_at 0 hdr_old]
        [path_f]).fd.data.take (append_start (entry_at 0 hdr_old)) =
      upd_file.take (append_start (entry_at 0 hdr_old)) ∧
    slice (tar_write fs_three 2 { data := upd_file, pos := 0 } [entry_at 0 hdr_old]
        [path_f]).fd.data (append_start (entry_at 0 hdr_old) + off_ustar) 8 =
      [117, 115, 116, 97, 114, 0, 48, 48] ∧
    append_start (entry_at 0 hdr_old) ≤
      (write_entries fs_three 2 (append_state { data := upd_file, pos := 0 } [entry_at 0 hdr_old]
        (append_start (entry_at 0 hdr_old))) [path_f]).st.fd.pos ∧
    (tar_write fs_three 2 { data := upd_file, pos := 0 } [entry_at 0 hdr_old] [path_f]).ret =
      ((write_entries fs_three 2 (append_state { data := upd_file, pos := 0 }
        [entry_at 0 hdr_old] (append_start (entry_at 0 hdr_old))) [path_f]).st.fd.pos : Int) ∧
    (tar_write fs_three 2 { data := upd_file, pos := 0 } [entry_at 0 hdr_old] [path_f]).fd =
      (write_end_data
        (write_entries fs_three 2 (append_state { data := upd_file, pos := 0 }
          [entry_at 0 hdr_old] (append_start (entry_at 0 hdr_old))) [path_f]).st.fd
        ((write_entries fs_three 2 (append_state { data := upd_file, pos := 0 }
          [entry_at 0 hdr_old] (append_start (entry_at 0 hdr_old))) [path_f]).st.fd.pos :
            Int)).2 := by
  obtain ⟨h1, h2, h3⟩ := C19_append_frame fs_three 2 { data := upd_file, pos := 0 }
    [entry_at 0 hdr_old] [path_f] (entry_at 0 hdr_old) rfl (by decide!) (by decide!)
  have hok : 0 ≤ (tar_write fs_three 2 { data := upd_file, pos := 0 } [entry_at 0 hdr_old]
      [path_f]).ret ∧
      (tar_write fs_three 2 { data := upd_file, pos := 0 } [entry_at 0 hdr_old]
        [path_f]).fd.data.length < 2 ^ 31 := by decide!
  exact ⟨h1, h2 hok.1 (by decide), h3 hok.1 fs_three_sizes_agree hok.2⟩

theorem hdr_2g_length : hdr_2g.length = 512 := hdr_of_length _ _ _

set_option maxRecDepth 1000000 in
theorem huge_archive_shape : ∀ s ∈ huge_archive,
    s.1.length = 512 ∧ iszeroed s.1 512 = false ∧ s.2.length = read_jump (header_entry s.1) := by
  intro s hs
  rw [huge_archive, List.mem_singleton] at hs
  subst hs
  refine ⟨hdr_2g_length, by decide!, ?_⟩
  rw [List.length_replicate]
  decide!

set_option maxRecDepth 1000000 in
theorem hdr_2g_write_start : write_start (tar_t.mk [] 0 hdr_2g) < 0 := by decide!

set_option maxRecDepth 1000000 in
/-- C19 fails as stated on an archive of `2 ^ 31` bytes or more.  `huge_file` holds
one entry with a payload of `2 ^ 31 - 512` bytes; `tar_read` returns the list of
that entry.  The offset behind the entry is `2 ^ 31`, which is negative as the `int`
that `tar_write` passes to `lseek`: `tar_write` returns -1 and writes nothing. -/
theorem C19_counterexample :
    ∃ r, tar_read heap_empty { data := huge_file, pos := 0 } = some r ∧
      r.archive = [tar_t.mk [] 0 hdr_2g] ∧
      append_start (tar_t.mk [] 0 hdr_2g) = 2 ^ 31 ∧
      tar_write fs_three 2 r.fd r.archive [path_f] =
        { ret := -1, archive := r.archive, fd := r.fd } := by
  refine ⟨_, tar_read_exact heap_empty huge_archive (List.replicate 7168 0) huge_archive_shape,
    rfl, by decide!, ?_⟩
  have hlast : (read_entries heap_empty huge_archive 0 0).getLast? = some (tar_t.mk [] 0 hdr_2g) :=
    rfl
  unfold tar_write
  simp only [hlast, if_pos hdr_2g_write_start]

/-! ## C3: create, then scan -/

theorem eq_replicate_of_all_zero (l : List Nat) (h : l.all (fun b => b == 0) = true) :
    l = List.replicate l.length 0 := by
  induction l with
  | nil => rfl
  | cons a l ih =>
    simp only [List.all_cons, Bool.and_eq_true, beq_iff_eq] at h
    rw [List.length_cons, List.replicate_succ, ← ih h.2, h.1]

set_option maxRecDepth 1000000 in
theorem tree_file_facts :
    (tar_write fs_tree 3 { data := [], pos := 0 } [] [name_a_txt, name_sub]).ret = 2560 ∧
    (tree_file.drop 5632).length = 4608 ∧
    (tree_file.drop 5632).all (fun b => b == 0) = true ∧
    (entry_name (header_entry (slice tree_file 0 512)) = name_a_txt ∧
      entry_name (header_entry (slice tree_file 1024 512)) = name_sub ++ [47] ∧
      entry_name (header_entry (slice tree_file 1536 512)) = name_sub_b) ∧
    size_of (header_entry (slice tree_file 1024 512)) = 4096 ∧
    (∀ s ∈ tree_segs, s.1.length = 512 ∧ iszeroed s.1 512 = false ∧
      s.2.length = read_jump (header_entry s.1)) ∧
    (read_entries heap_empty tree_segs 0 0).map (fun e => (entry_name e, e.begin)) =
      [(name_a_txt, 0), (name_sub ++ [47], 1024)] ∧
    (tar_write fs_tree 3 { data := [], pos := 0 } [] [name_a_txt, name_sub]).archive.map
        (fun e => (cstr e.original_name, e.begin)) =
      [(name_a_txt, 0), (name_sub, 1024), (name_sub_b, 1024)] := by
  decide!

theorem tree_file_eq :
    tree_file = archive_bytes tree_segs ++ (List.replicate 1024 0 ++ List.replicate 3584 0) := by
  obtain ⟨_, hl, hz, _⟩ := tree_file_facts
  have e0 := drop_eq_slice_append tree_file 0 512
  have e1 := drop_eq_slice_append tree_file 512 512
  have e2 := drop_eq_slice_append tree_file 1024 512
  have e3 := drop_eq_slice_append tree_file 1536 4096
  have e4 := eq_replicate_of_all_zero _ hz
  rw [hl] at e4
  rw [List.drop_zero] at e0
  simp only [Nat.zero_add, Nat.reduceAdd] at e0 e1 e2 e3
  have e5 : List.replicate 1024 0 ++ List.replicate 3584 0 = List.replicate 4608 (0 : Nat) := by
    rw [← List.replicate_add]
  rw [e5, ← e4]
  simp only [archive_bytes, tree_segs, List.append_assoc, List.append_nil]
  rw [← e3, ← e2, ← e1, ← e0]

/-- C3 fails in the code on the example of the specification.  `tar_write` on an
empty archive with the arguments `a.txt` and `sub` succeeds and writes the headers of
`a.txt`, `sub/` and `sub/b.txt` at the offsets 0, 1024 and 1536; the header of `sub/`
carries the size 4096 that `lstat` reported for the directory.  `tar_read` over the
file skips 4096 bytes behind that header and returns 2: the list holds `a.txt` and
`sub/`, and the entry `sub/b.txt` is not in it. -/
theorem C3_roundtrip_directory :
    (tar_write fs_tree 3 { data := [], pos := 0 } [] [name_a_txt, name_sub]).ret = 2560 ∧
    (entry_name (header_entry (slice tree_file 0 512)) = name_a_txt ∧
      entry_name (header_entry (slice tree_file 1024 512)) = name_sub ++ [47] ∧
      entry_name (header_entry (slice tree_file 1536 512)) = name_sub_b) ∧
    ∃ r, tar_read heap_empty { data := tree_file, pos := 0 } = some r ∧ r.ret = 2 ∧
      r.archive.map (fun e => (entry_name e, e.begin)) =
        [(name_a_txt, 0), (name_sub ++ [47], 1024)] := by
  obtain ⟨h1, _, _, h3, _, hshape, hnames, _⟩ := tree_file_facts
  refine ⟨h1, h3, ?_⟩
  have hr := tar_read_exact heap_empty tree_segs (List.replicate 3584 0) hshape
  rw [← tree_file_eq] at hr
  exact ⟨_, hr, rfl, hnames⟩

/-! ## C8: the file whose content is archived -/

set_option maxRecDepth 1000000 in
/-- C8 fails in the code for a path with a leading `../` (or `/`): `write_entries`
opens `(*tar) -> name`, the stored name without the prefix, and not the path that
was given to `lstat`.  For the argument `../x`, a file with the bytes 1, 2, 3, in a
directory that also holds a file `x` with the bytes 9, 9, 9, `tar_write` succeeds and
the payload behind the header named `x` is 9, 9, 9; when there is no file `x` in the
working directory, `tar_write` fails. -/
theorem C8_payload_of_stripped_name :
    fs_up.open_read path_up_x = some [1, 2, 3] ∧
    (tar_write fs_up 2 { data := [], pos := 0 } [] [path_up_x]).ret = 1024 ∧
    entry_name (header_entry
      (slice (tar_write fs_up 2 { data := [], pos := 0 } [] [path_up_x]).fd.data 0 512)) =
        [120] ∧
    slice (tar_write fs_up 2 { data := [], pos := 0 } [] [path_up_x]).fd.data 512 3 =
      [9, 9, 9] ∧
    fs_up_only.lstat path_up_x = some (st_regular 3) ∧
    (tar_write fs_up_only 2 { data := [], pos := 0 } [] [path_up_x]).ret = -1 := by
  decide!

/-! ## C9: the second occurrence of a path in one batch -/

theorem write_loop_append (fs : fs_t) (recurse : write_state → List Nat → write_result)
    (pre rest : List (List Nat)) :
    ∀ st : write_state, write_loop fs recurse st (pre ++ rest) =
      if (write_loop fs recurse st pre).ret < 0 then write_loop fs recurse st pre
      else write_loop fs recurse (write_loop fs recurse st pre).st rest := by
  induction pre with
  | nil =>
    intro st
    simp [write_loop]
  | cons f pre ih =>
    intro st
    rw [List.cons_append, write_loop, write_loop]
    cases format_tar_data fs f with
    | none => simp [write_error]
    | some e0 =>
      simp only
      generalize (if type_of { e0 with begin := toUInt32 st.offset } = DIRECTORY then
          write_dir fs recurse st { e0 with begin := toUInt32 st.offset }
        else write_file fs st { e0 with begin := toUInt32 st.offset } f) = r
      by_cases h : r.ret < 0
      · simp only [if_pos h]
      · simp only [if_neg h]
        exact ih r.st

theorem list_keeps_refl (st : write_state) (h : st.cur ≤ st.archive.length) :
    list_keeps st st := ⟨le_refl _, h, rfl⟩

theorem list_keeps_trans (a b c : write_state) (h1 : list_keeps a b) (h2 : list_keeps b c) :
    list_keeps a c := by
  refine ⟨le_trans h1.1 h2.1, h2.2.1, ?_⟩
  calc c.archive.take a.cur = (c.archive.take b.cur).take a.cur := by
        rw [List.take_take, min_eq_left h1.1]
    _ = (b.archive.take b.cur).take a.cur := by rw [h2.2.2]
    _ = b.archive.take a.cur := by rw [List.take_take, min_eq_left h1.1]
    _ = a.archive.take a.cur := h1.2.2

/-- The state after the branch of `write_entries` for an entry that is not a
directory, when it succeeds: one node in the slot, and the slot moved on. -/
theorem write_file_list (fs : fs_t) (st : write_state) (e : tar_t) (filename : List Nat)
    (hok : 0 ≤ (write_file fs st e filename).ret) :
    ∃ e1 : tar_t, e1.original_name = e.original_name ∧
      slice e1.block off_name 100 = slice e.block off_name 100 ∧
      (write_file fs st e filename).st.archive = st.archive.take st.cur ++ [e1] ∧
      (write_file fs st e filename).st.cur = st.cur + 1 := by
  unfold write_file at hok ⊢
  simp only at hok ⊢
  generalize (if (is_file_type (type_of e) || type_of e == SYMLINK) = true then
    «exists» (List.take st.cur st.archive ++ [e]) filename true != some st.cur else false) =
      tarred at hok ⊢
  have hfacts : (if tarred = true then (calculate_checksum
      { original_name := e.original_name, begin := e.begin,
        block := poke (poke (poke e.block off_type [HARDLINK]) off_link_name
          (strncpy (cstr (poke e.block off_type [HARDLINK])) 100)) off_size
          (List.replicate 11 48) }).1 else e).original_name = e.original_name ∧
      slice (if tarred = true then (calculate_checksum
        { original_name := e.original_name, begin := e.begin,
          block := poke (poke (poke e.block off_type [HARDLINK]) off_link_name
            (strncpy (cstr (poke e.block off_type [HARDLINK])) 100)) off_size
            (List.replicate 11 48) }).1 else e).block off_name 100 =
        slice e.block off_name 100 := by
    cases tarred with
    | true =>
      simp only [if_true]
      refine ⟨calculate_checksum_original_name _, ?_⟩
      rw [calculate_checksum_slice _ _ _ (Or.inl (by simp [off_name]))]
      show slice (poke (poke (poke e.block off_type [HARDLINK]) off_link_name
        (strncpy (cstr (poke e.block off_type [HARDLINK])) 100)) off_size
        (List.replicate 11 48)) off_name 100 = _
      rw [slice_poke_disjoint _ _ _ _ _ (by simp [off_name, off_size]),
        slice_poke_disjoint _ _ _ _ _ (by simp [off_name, off_link_name]),
        slice_poke_disjoint _ _ _ _ _ (by simp [off_name, off_type])]
    | false =>
      simp only [Bool.false_eq_true, if_false]
      exact ⟨trivial, trivial⟩
  generalize (if tarred = true then (calculate_checksum
    { original_name := e.original_name, begin := e.begin,
      block := poke (poke (poke e.block off_type [HARDLINK]) off_link_name
        (strncpy (cstr (poke e.block off_type [HARDLINK])) 100)) off_size
        (List.replicate 11 48) }).1 else e) = e1 at hfacts hok ⊢
  refine ⟨e1, hfacts.1, hfacts.2, ?_⟩
  by_cases hc : (is_file_type (type_of e1) && !tarred) = true
  · rw [if_pos hc] at hok ⊢
    cases hr : fs.open_read (cstr e1.block) with
    | none =>
      rw [hr] at hok
      simp [write_error] at hok
    | some c => exact ⟨rfl, rfl⟩
  · rw [if_neg hc]
    exact ⟨rfl, rfl⟩

theorem write_file_keeps (fs : fs_t) (st : write_state) (e : tar_t) (filename : List Nat)
    (h : st.cur ≤ st.archive.length) (hok : 0 ≤ (write_file fs st e filename).ret) :
    list_keeps st (write_file fs st e filename).st := by
  obtain ⟨e1, _, _, ha, hc⟩ := write_file_list fs st e filename hok
  have hl : (st.archive.take st.cur).length = st.cur := by
    rw [List.length_take]; omega
  refine ⟨by omega, ?_, ?_⟩
  · rw [ha, hc, List.length_append, hl]
    simp
  · rw [ha, List.take_left' hl]

theorem write_children_keeps (recurse : write_state → List Nat → write_result)
    (hrec : ∀ s path, s.cur ≤ s.archive.length → 0 ≤ (recurse s path).ret →
      list_keeps s (recurse s path).st)
    (parent : List Nat) (names : List (List Nat)) :
    ∀ st : write_state, st.cur < st.archive.length →
      0 ≤ (write_children recurse parent st names).ret →
      st.cur ≤ (write_children recurse parent st names).st.cur ∧
      (write_children recurse parent st names).st.cur <
        (write_children recurse parent st names).st.archive.length ∧
      (write_children recurse parent st names).st.archive.take (st.cur + 1) =
        st.archive.take (st.cur + 1) := by
  induction names with
  | nil =>
    intro st h _
    rw [write_children]
    exact ⟨le_refl _, h, rfl⟩
  | cons d rest ih =>
    intro st h hok
    rw [write_children] at hok ⊢
    simp only at hok ⊢
    by_cases h1 : (!strncmp_eq0 d [46] (strlen d) && !strncmp_eq0 d [46, 46] (strlen d)) = true
    · rw [if_pos h1] at hok ⊢
      have hk := hrec { st with cur := st.cur + 1 } (parent ++ [47] ++ d) h
      generalize recurse { st with cur := st.cur + 1 } (parent ++ [47] ++ d) = r at hk hok ⊢
      by_cases h2 : r.ret < 0
      · rw [if_pos h2] at hok
        simp [write_error] at hok
      · rw [if_neg h2] at hok ⊢
        obtain ⟨k1, k2, k3⟩ := hk (by omega)
        simp only at k1 k3
        obtain ⟨i1, i2, i3⟩ := ih ⟨r.st.fd, r.st.archive, r.st.archive.length - 1, r.st.offset⟩
          (by simp only; omega) hok
        simp only at i1 i3
        refine ⟨by omega, i2, ?_⟩
        have e1 : r.st.archive.length - 1 + 1 = r.st.archive.length := by omega
        rw [e1, List.take_length] at i3
        have hmin : st.cur + 1 ≤ r.st.archive.length := by omega
        calc _ = (List.take r.st.archive.length _).take (st.cur + 1) := by
              rw [List.take_take, min_eq_left hmin]
          _ = r.st.archive.take (st.cur + 1) := by rw [i3]
          _ = st.archive.take (st.cur + 1) := k3
    · rw [if_neg h1] at hok ⊢
      exact ih st h hok

theorem write_dir_keeps (fs : fs_t) (recurse : write_state → List Nat → write_result)
    (hrec : ∀ s path, s.cur ≤ s.archive.length → 0 ≤ (recurse s path).ret →
      list_keeps s (recurse s path).st)
    (st : write_state) (e : tar_t) (h : st.cur ≤ st.archive.length)
    (hok : 0 ≤ (write_dir fs recurse st e).ret) :
    list_keeps st (write_dir fs recurse st e).st := by
  unfold write_dir at hok ⊢
  simp only at hok ⊢
  generalize (if (strlen e.block < 99 && name_last e (strlen e.block) != 47) = true then
    (calculate_checksum (tar_t.mk e.original_name e.begin
      (poke (poke e.block (strlen e.block) [47]) (strlen e.block + 1) [0]))).1
    else e) = e1 at hok ⊢
  have hl : (st.archive.take st.cur).length = st.cur := by
    rw [List.length_take]; omega
  cases hrd : fs.readdir (List.take (strlen e.block) e.block) with
  | none =>
    rw [hrd] at hok
    simp [write_error] at hok
  | some names =>
    rw [hrd] at hok
    simp only at hok ⊢
    have hc := write_children_keeps recurse hrec (List.take (strlen e.block) e.block) names
      { fd := write_size st.fd e1.block, archive := List.take st.cur st.archive ++ [e1],
        cur := st.cur, offset := st.offset }
      (by simp only [List.length_append, hl, List.length_singleton]; omega)
    generalize write_children recurse (List.take (strlen e.block) e.block)
      { fd := write_size st.fd e1.block, archive := List.take st.cur st.archive ++ [e1],
        cur := st.cur, offset := st.offset } names = r at hc hok ⊢
    by_cases h2 : r.ret < 0
    · rw [if_pos h2] at hok
      omega
    · rw [if_neg h2]
      obtain ⟨c1, c2, c3⟩ := hc (by omega)
      simp only at c1 c3
      refine ⟨c1, le_of_lt c2, ?_⟩
      show r.st.archive.take st.cur = st.archive.take st.cur
      calc r.st.archive.take st.cur = (r.st.archive.take (st.cur + 1)).take st.cur := by
            rw [List.take_take, min_eq_left (by omega)]
        _ = ((List.take st.cur st.archive ++ [e1]).take (st.cur + 1)).take st.cur := by rw [c3]
        _ = (List.take st.cur st.archive ++ [e1]).take st.cur := by
            rw [List.take_take, min_eq_left (by omega)]
        _ = st.archive.take st.cur := List.take_left' hl

theorem write_loop_keeps (fs : fs_t) (recurse : write_state → List Nat → write_result)
    (hrec : ∀ s path, s.cur ≤ s.archive.length → 0 ≤ (recurse s path).ret →
      list_keeps s (recurse s path).st)
    (files : List (List Nat)) :
    ∀ st : write_state, st.cur ≤ st.archive.length →
      0 ≤ (write_loop fs recurse st files).ret →
      list_keeps st (write_loop fs recurse st files).st := by
  induction files with
  | nil => intro st h _; exact list_keeps_refl st h
  | cons f rest ih =>
    intro st h hok
    rw [write_loop] at hok ⊢
    cases hfm : format_tar_data fs f with
    | none =>
      rw [hfm] at hok
      simp [write_error] at hok
    | some e0 =>
      rw [hfm] at hok
      simp only at hok ⊢
      have hstep : 0 ≤ (if type_of { e0 with begin := toUInt32 st.offset } = DIRECTORY then
            write_dir fs recurse st { e0 with begin := toUInt32 st.offset }
          else write_file fs st { e0 with begin := toUInt32 st.offset } f).ret →
          list_keeps st (if type_of { e0 with begin := toUInt32 st.offset } = DIRECTORY then
            write_dir fs recurse st { e0 with begin := toUInt32 st.offset }
          else write_file fs st { e0 with begin := toUInt32 st.offset } f).st := by
        split_ifs
        · exact write_dir_keeps fs recurse hrec st _ h
        · exact write_file_keeps fs st _ f h
      generalize (if type_of { e0 with begin := toUInt32 st.offset } = DIRECTORY then
          write_dir fs recurse st { e0 with begin := toUInt32 st.offset }
        else write_file fs st { e0 with begin := toUInt32 st.offset } f) = r at hstep hok ⊢
      by_cases h2 : r.ret < 0
      · rw [if_pos h2] at hok
        omega
      · rw [if_neg h2] at hok ⊢
        have hk := hstep (by omega)
        exact list_keeps_trans _ _ _ hk (ih r.st hk.2.1 hok)

theorem write_entries_keeps (fs : fs_t) : ∀ (depth : Nat) (st : write_state)
    (files : List (List Nat)), st.cur ≤ st.archive.length →
    0 ≤ (write_entries fs depth st files).ret →
    list_keeps st (write_entries fs depth st files).st := by
  intro depth
  induction depth with
  | zero =>
    intro st files _ hok
    rw [write_entries] at hok
    simp at hok
  | succ d ih =>
    intro st files h hok
    rw [write_entries] at hok ⊢
    by_cases hc : st.cur < st.archive.length
    · rw [if_pos hc] at hok
      simp at hok
    · rw [if_neg hc] at hok ⊢
      exact write_loop_keeps fs _ (fun s path hs => ih s [path] hs) files st h hok

theorem holds_path_of_keeps (p N : List Nat) (st st' : write_state) (hk : list_keeps st st')
    (h : holds_path p N st) : holds_path p N st' := by
  obtain ⟨idx, node, hi, hn, ho, hs⟩ := h
  refine ⟨idx, node, by have := hk.1; omega, ?_, ho, hs⟩
  have h1 : (st'.archive.take st.cur)[idx]? = st'.archive[idx]? := List.getElem?_take_of_lt hi
  have h2 : (st.archive.take st.cur)[idx]? = st.archive[idx]? := List.getElem?_take_of_lt hi
  rw [← h1, hk.2.2, h2, hn]

theorem findIdx_le_of_pos (q : tar_t → Bool) : ∀ (xs : List tar_t) (i : Nat) (x : tar_t),
    xs[i]? = some x → q x = true → xs.findIdx q ≤ i := by
  intro xs
  induction xs with
  | nil => intro i x h; simp at h
  | cons a l ih =>
    intro i x h hq
    rw [List.findIdx_cons]
    cases i with
    | zero =>
      simp only [List.getElem?_cons_zero, Option.some.injEq] at h
      rw [h, hq]
      simp
    | succ j =>
      simp only [List.getElem?_cons_succ] at h
      have := ih j x h hq
      cases q a with
      | true => simp
      | false =>
        simp only [cond_false]
        omega

/-- The search `exists(*head, files[i], 1)` does not end at the new node when a node
in front of it has the same `original_name`. -/
theorem exists_ori_ne (A : List tar_t) (cur : Nat) (e : tar_t) (p : List Nat)
    (hcur : cur ≤ A.length) (idx : Nat) (node : tar_t) (hidx : idx < cur)
    (hn : A[idx]? = some node) (ho : node.original_name = e.original_name) :
    «exists» (A.take cur ++ [e]) p true ≠ some cur := by
  have hl : (A.take cur).length = cur := by rw [List.length_take]; omega
  have hnode : (A.take cur ++ [e])[idx]? = some node := by
    rw [List.getElem?_append_left (by omega), List.getElem?_take_of_lt hidx, hn]
  have hlast : (A.take cur ++ [e])[cur]? = some e := by
    rw [List.getElem?_append_right (by omega), hl]
    simp
  unfold «exists»
  simp only [if_true]
  intro hc
  split_ifs at hc with hlt
  have hc' := Option.some.inj hc
  have hlast' : (A.take cur ++ [e])[(A.take cur ++ [e]).findIdx (fun e =>
      strncmp_eq0 e.original_name p (max (strlen e.original_name) (strlen p) + 1))]? =
      some e := by
    rw [hc']; exact hlast
  have hpe := List.findIdx_of_getElem?_eq_some hlast'
  simp only at hpe
  have hpn : strncmp_eq0 node.original_name p
      (max (strlen node.original_name) (strlen p) + 1) = true := by
    rw [ho]; exact hpe
  have := findIdx_le_of_pos (fun e =>
    strncmp_eq0 e.original_name p (max (strlen e.original_name) (strlen p) + 1)) _ idx node
    hnode hpn
  omega

theorem cstr_append_of_ne (s r : List Nat) (hs : ∀ c ∈ s, c ≠ 0) : cstr (s ++ r) = s ++ cstr r := by
  induction s with
  | nil => rfl
  | cons a s ih =>
    have ha : a ≠ 0 := hs a (List.mem_cons_self _ _)
    rw [List.cons_append, cstr_cons_ne a _ ha, ih (fun c hc => hs c (List.mem_cons_of_mem _ hc)),
      List.cons_append]

/-- Copying a name field that `strncpy` filled from a string gives the field again. -/
theorem strncpy_cstr_of_field (b s : List Nat) (N : Nat) (hs : ∀ c ∈ s, c ≠ 0)
    (hf : slice b 0 N = strncpy s N) : strncpy (cstr b) N = strncpy s N := by
  have hb : b = strncpy s N ++ b.drop N := by
    have := drop_eq_slice_append b 0 N
    rw [List.drop_zero, Nat.zero_add, hf] at this
    exact this
  by_cases hlt : s.length < N
  · have hrep : List.replicate (N - s.length) 0 = 0 :: List.replicate (N - s.length - 1) 0 := by
      obtain ⟨k, hk⟩ : ∃ k, N - s.length = k + 1 := ⟨N - s.length - 1, by omega⟩
      rw [hk, List.replicate_succ]
      simp
    have hc : cstr b = s := by
      rw [hb]
      unfold strncpy
      rw [List.take_of_length_le (by omega), hrep, List.append_assoc,
        cstr_append_of_ne s _ hs, List.cons_append, cstr_cons_zero, List.append_nil]
    rw [hc]
  · have hts : ∀ c ∈ s.take N, c ≠ 0 := fun c hc => hs c (List.mem_of_mem_take hc)
    have hlen : (s.take N).length = N := by rw [List.length_take]; omega
    have hc : cstr b = s.take N ++ cstr (b.drop N) := by
      conv_lhs => rw [hb]
      unfold strncpy
      rw [show N - s.length = 0 by omega, List.replicate_zero, List.append_nil,
        cstr_append_of_ne _ _ hts]
    rw [hc]
    unfold strncpy
    rw [List.take_left' hlen, show N - s.length = 0 by omega,
      show N - (s.take N ++ cstr (b.drop N)).length = 0 by
        rw [List.length_append, hlen]; omega]

/-- The fields of the header of a file that is already in the list. -/
theorem hardlink_fields (e : tar_t) (hb : e.block.length = 512) :
    (calculate_checksum (hardlink_header_of e)).1.block.length = 512 ∧
    slice (calculate_checksum (hardlink_header_of e)).1.block off_size 11 =
      List.replicate 11 48 ∧
    slice (calculate_checksum (hardlink_header_of e)).1.block off_link_name 100 =
      strncpy (cstr (poke e.block off_type [HARDLINK])) 100 := by
  have hl : (strncpy (cstr (poke e.block off_type [HARDLINK])) 100).length = 100 := by
    simp only [strncpy, List.length_append, List.length_take, List.length_replicate]
    omega
  refine ⟨by simp [hardlink_header_of, hb], ?_, ?_⟩
  · rw [calculate_checksum_slice _ _ _ (Or.inl (by simp [off_size]))]
    have h := slice_poke_self (poke (poke e.block off_type [HARDLINK]) off_link_name
      (strncpy (cstr (poke e.block off_type [HARDLINK])) 100)) (List.replicate 11 48) off_size
      (by simp [off_size, hb])
    rw [List.length_replicate] at h
    exact h
  · rw [calculate_checksum_slice _ _ _ (Or.inr (by simp [off_link_name]))]
    show slice (poke (poke (poke e.block off_type [HARDLINK]) off_link_name
      (strncpy (cstr (poke e.block off_type [HARDLINK])) 100)) off_size
      (List.replicate 11 48)) off_link_name 100 = _
    rw [slice_poke_disjoint _ _ _ _ _ (by simp [off_link_name, off_size])]
    have h := slice_poke_self (poke e.block off_type [HARDLINK])
      (strncpy (cstr (poke e.block off_type [HARDLINK])) 100) off_link_name
      (by rw [hl]; simp [off_link_name, hb])
    rw [hl] at h
    exact h

/-- The branch of `write_entries` for a file or symbolic link that `exists` finds in
front of the new node: one header block is written, that of a hard link, and nothing
else. -/
theorem write_file_hardlink (fs : fs_t) (st : write_state) (e : tar_t) (filename : List Nat)
    (hb : e.block.length = 512)
    (hty : (is_file_type (type_of e) || type_of e == SYMLINK) = true)
    (hex : «exists» (st.archive.take st.cur ++ [e]) filename true ≠ some st.cur) :
    (write_file fs st e filename).ret = 0 ∧
      (write_file fs st e filename).st.fd =
        write_size st.fd (calculate_checksum (hardlink_header_of e)).1.block := by
  obtain ⟨ht, hz⟩ := hardlink_header e hb
  have hnf : is_file_type (type_of (calculate_checksum (hardlink_header_of e)).1) = false := by
    unfold hardlink_header_of
    rw [ht]
    decide
  have hz' : size_of (calculate_checksum (hardlink_header_of e)).1 = 0 := hz
  have htar : (if (is_file_type (type_of e) || type_of e == SYMLINK) = true then
      «exists» (List.take st.cur st.archive ++ [e]) filename true != some st.cur else false) =
      true := by
    rw [if_pos hty]
    simp only [bne_iff_ne, ne_eq]
    exact hex
  unfold write_file
  simp only [htar, if_true]
  have hH : (calculate_checksum (tar_t.mk e.original_name e.begin
      (poke (poke (poke e.block off_type [HARDLINK]) off_link_name
        (strncpy (cstr (poke e.block off_type [HARDLINK])) 100)) off_size
        (List.replicate 11 48)))).1 = (calculate_checksum (hardlink_header_of e)).1 := rfl
  rw [hH]
  generalize (calculate_checksum (hardlink_header_of e)).1 = e1 at hnf hz' ⊢
  simp only [hnf, Bool.false_and, Bool.false_eq_true, if_false, hz', Nat.zero_mod, Nat.sub_zero,
    ne_eq, not_true_eq_false]
  exact ⟨trivial, trivial⟩

theorem write_loop_holds (fs : fs_t) (recurse : write_state → List Nat → write_result)
    (hrec : ∀ s path, s.cur ≤ s.archive.length → 0 ≤ (recurse s path).ret →
      list_keeps s (recurse s path).st)
    (p : List Nat) (e : tar_t) (he : format_tar_data fs p = some e)
    (hnd : type_of e ≠ DIRECTORY) (pre : List (List Nat)) :
    ∀ st : write_state, st.cur ≤ st.archive.length → p ∈ pre →
      0 ≤ (write_loop fs recurse st pre).ret →
      holds_path p (slice e.block off_name 100) (write_loop fs recurse st pre).st := by
  induction pre with
  | nil => intro st _ hp; exact absurd hp (List.not_mem_nil _)
  | cons f rest ih =>
    intro st h hp hok
    rw [write_loop] at hok ⊢
    cases hfm : format_tar_data fs f with
    | none =>
      rw [hfm] at hok
      simp [write_error] at hok
    | some e0 =>
      rw [hfm] at hok
      simp only at hok ⊢
      have hkeep : 0 ≤ (if type_of { e0 with begin := toUInt32 st.offset } = DIRECTORY then
            write_dir fs recurse st { e0 with begin := toUInt32 st.offset }
          else write_file fs st { e0 with begin := toUInt32 st.offset } f).ret →
          list_keeps st (if type_of { e0 with begin := toUInt32 st.offset } = DIRECTORY then
            write_dir fs recurse st { e0 with begin := toUInt32 st.offset }
          else write_file fs st { e0 with begin := toUInt32 st.offset } f).st := by
        split_ifs
        · exact write_dir_keeps fs recurse hrec st _ h
        · exact write_file_keeps fs st _ f h
      have hhold : f = p → 0 ≤ (if type_of { e0 with begin := toUInt32 st.offset } = DIRECTORY
            then write_dir fs recurse st { e0 with begin := toUInt32 st.offset }
          else write_file fs st { e0 with begin := toUInt32 st.offset } f).ret →
          holds_path p (slice e.block off_name 100)
            (if type_of { e0 with begin := toUInt32 st.offset } = DIRECTORY then
              write_dir fs recurse st { e0 with begin := toUInt32 st.offset }
            else write_file fs st { e0 with begin := toUInt32 st.offset } f).st := by
        intro hfp
        subst hfp
        rw [he] at hfm
        cases Option.some.inj hfm
        have hnd' : ¬ type_of { e with begin := toUInt32 st.offset } = DIRECTORY := hnd
        rw [if_neg hnd']
        intro hok1
        obtain ⟨e1, ho, hs, ha, hc⟩ := write_file_list fs st
          (tar_t.mk e.original_name (toUInt32 st.offset) e.block) f hok1
        have hl : (st.archive.take st.cur).length = st.cur := by
          rw [List.length_take]; omega
        refine ⟨st.cur, e1, by rw [hc]; omega, ?_, ?_, hs⟩
        · rw [ha, List.getElem?_append_right (by omega), hl]
          simp
        · rw [ho]
          exact (format_tar_data_names fs f e he).2
      generalize (if type_of { e0 with begin := toUInt32 st.offset } = DIRECTORY then
          write_dir fs recurse st { e0 with begin := toUInt32 st.offset }
        else write_file fs st { e0 with begin := toUInt32 st.offset } f) = r
        at hkeep hhold hok ⊢
      by_cases h2 : r.ret < 0
      · rw [if_pos h2] at hok
        omega
      · rw [if_neg h2] at hok ⊢
        have hk := hkeep (by omega)
        rcases List.mem_cons.mp hp with hpf | hpr
        · exact holds_path_of_keeps _ _ _ _ (write_loop_keeps fs recurse hrec rest r.st hk.2.1 hok)
            (hhold hpf.symm (by omega))
        · exact ih r.st hk.2.1 hpr hok

/-- C9: when a path `p` of a regular file or symbolic link occurs a second time in
the batch of one call, after a first part `pre` of the batch that contains `p` and
was written without failure, `write_entries` writes for it exactly one block, the
header `calculate_checksum` makes of the modified header `m`: its type is `1`, its
size field is `00000000000`, its link name is the 100-byte name field that
`format_tar_data` stores for `p`, which is also the name field of the node made for
the first occurrence and still in the list; no payload follows. -/
theorem C9_hardlink_dedup (fs : fs_t) (depth : Nat) (st : write_state)
    (pre : List (List Nat)) (p : List Nat) (e : tar_t)
    (hst : st.cur = st.archive.length) (hp : p ∈ pre) (hnul : ∀ c ∈ p, c ≠ 0)
    (he : format_tar_data fs p = some e)
    (hty : (is_file_type (type_of e) || type_of e == SYMLINK) = true)
    (hok : 0 ≤ (write_entries fs (depth + 1) st pre).ret) :
    ∃ m : tar_t,
      type_of (calculate_checksum m).1 = HARDLINK ∧
      slice (calculate_checksum m).1.block off_size 11 = List.replicate 11 48 ∧
      slice (calculate_checksum m).1.block off_link_name 100 = slice e.block off_name 100 ∧
      holds_path p (slice e.block off_name 100) (write_entries fs (depth + 1) st pre).st ∧
      (calculate_checksum m).1.block.length = 512 ∧
      (write_entries fs (depth + 1) st (pre ++ [p])).ret = 0 ∧
      (write_entries fs (depth + 1) st (pre ++ [p])).st.fd =
        write_size (write_entries fs (depth + 1) st pre).st.fd
          (calculate_checksum m).1.block := by
  have hc : ¬ st.cur < st.archive.length := by omega
  have hrec : ∀ (s : write_state) (path : List Nat), s.cur ≤ s.archive.length →
      0 ≤ (write_entries fs depth s [path]).ret →
      list_keeps s (write_entries fs depth s [path]).st :=
    fun s path hs => write_entries_keeps fs depth s [path] hs
  have hb := format_tar_data_block_length fs p e he
  obtain ⟨hname, horig⟩ := format_tar_data_names fs p e he
  have hnd : type_of e ≠ DIRECTORY := by
    intro h
    rw [h] at hty
    revert hty
    decide
  rw [write_entries, if_neg hc] at hok ⊢
  rw [write_entries, if_neg hc, write_loop_append]
  have hkS := write_loop_keeps fs _ hrec pre st (le_of_eq hst) hok
  have hhS := write_loop_holds fs _ hrec p e he hnd pre st (le_of_eq hst) hp hok
  rw [if_neg (by omega)]
  generalize (write_loop fs (fun s path => write_entries fs depth s [path]) st pre).st = S
    at hkS hhS ⊢
  obtain ⟨idx, node, hidx, hnode, hno, hns⟩ := hhS
  have hex := exists_ori_ne S.archive S.cur (tar_t.mk e.original_name (toUInt32 S.offset) e.block)
    p hkS.2.1 idx node hidx hnode (by rw [hno]; exact horig.symm)
  obtain ⟨hret, hfd⟩ := write_file_hardlink fs S
    (tar_t.mk e.original_name (toUInt32 S.offset) e.block) p hb hty hex
  obtain ⟨hlen, hsz, hln⟩ := hardlink_fields
    (tar_t.mk e.original_name (toUInt32 S.offset) e.block) hb
  have htype : type_of (calculate_checksum (hardlink_header_of
      (tar_t.mk e.original_name (toUInt32 S.offset) e.block))).1 = HARDLINK :=
    (hardlink_header (tar_t.mk e.original_name (toUInt32 S.offset) e.block) hb).1
  have hnd' : ¬ type_of (tar_t.mk e.original_name (toUInt32 S.offset) e.block) = DIRECTORY := hnd
  refine ⟨hardlink_header_of (tar_t.mk e.original_name (toUInt32 S.offset) e.block), htype, hsz,
    ?_, ⟨idx, node, hidx, hnode, hno, hns⟩, hlen, ?_, ?_⟩
  · rw [hln]
    have hs : ∀ c ∈ spec_stored_name p, c ≠ 0 := by
      rw [← drop_strip_move]
      exact fun c hc => hnul c (List.mem_of_mem_drop hc)
    have hf : slice (poke e.block off_type [HARDLINK]) 0 100 =
        strncpy (spec_stored_name p) 100 := by
      rw [slice_poke_disjoint _ _ _ _ _ (by simp [off_type])]
      exact hname
    rw [show off_name = 0 from rfl] at hname ⊢
    rw [hname]
    exact strncpy_cstr_of_field _ _ 100 hs hf
  · rw [write_loop, he]
    simp only
    rw [if_neg hnd', hret]
    simp [write_loop]
  · rw [write_loop, he]
    simp only
    rw [if_neg hnd', hret]
    simp only [lt_self_iff_false, if_false, write_loop]
    exact hfd

set_option maxRecDepth 1000000 in
theorem C9_hardlink_dedup_witness :
    (tar_write fs_three 2 { data := [], pos := 0 } [] [path_f, path_f]).ret = 1536 ∧
    ∃ e m : tar_t, format_tar_data fs_three path_f = some e ∧
      type_of (calculate_checksum m).1 = HARDLINK ∧
      slice (calculate_checksum m).1.block off_size 11 = List.replicate 11 48 ∧
      slice (calculate_checksum m).1.block off_link_name 100 = slice e.block off_name 100 ∧
      holds_path path_f (slice e.block off_name 100)
        (write_entries fs_three (1 + 1) empty_state [path_f]).st ∧
      (calculate_checksum m).1.block.length = 512 ∧
      (write_entries fs_three (1 + 1) empty_state ([path_f] ++ [path_f])).ret = 0 ∧
      (write_entries fs_three (1 + 1) empty_state ([path_f] ++ [path_f])).st.fd =
        write_size (write_entries fs_three (1 + 1) empty_state [path_f]).st.fd
          (calculate_checksum m).1.block := by
  refine ⟨by decide!, ?_⟩
  have hty : (format_tar_data fs_three path_f).map
      (fun e => is_file_type (type_of e) || type_of e == SYMLINK) = some true := by decide!
  cases h : format_tar_data fs_three path_f with
  | none =>
    rw [h] at hty
    exact absurd hty (by simp)
  | some e =>
    rw [h, Option.map_some', Option.some.injEq] at hty
    obtain ⟨m, hm⟩ := C9_hardlink_dedup fs_three 1 empty_state [path_f] path_f e rfl
      (List.mem_singleton.mpr rfl) (by decide) h hty (by decide!)
    exact ⟨e, m, rfl, hm⟩

/-! ## C21: paths of more than 100 bytes -/

/-- C21 fails in the code: `format_tar_data` does not look at the length of the
path, it stores the name with `strncpy(entry -> name, filename + move, 100)`.  For
every path of a regular file that `lstat` finds, also one whose stripped form is
longer than 100 bytes, `format_tar_data` succeeds when the login name is known, and
the name field holds the first 100 bytes of the stripped path. -/
theorem C21_long_name_stored (fs : fs_t) (p : List Nat) (st : stat_t) (login : List Nat)
    (hst : fs.lstat p = some st) (hreg : st.st_mode &&& S_IFMT = S_IFREG)
    (hlogin : fs.getlogin = some login) (hl : login.length < 32)
    (hlen : 100 < (spec_stored_name p).length) :
    ∃ e, format_tar_data fs p = some e ∧
      slice e.block off_name 100 = (spec_stored_name p).take 100 := by
  have hsome : ∃ e, format_tar_data fs p = some e := by
    unfold format_tar_data
    simp only [hst, format_type, hreg, if_true, hlogin]
    rw [if_neg (by omega)]
    exact ⟨_, rfl⟩
  obtain ⟨e, he⟩ := hsome
  refine ⟨e, he, ?_⟩
  rw [(format_tar_data_names fs p e he).1]
  unfold strncpy
  have : 100 - (spec_stored_name p).length = 0 := by omega
  rw [this]
  simp

set_option maxRecDepth 1000000 in
theorem C21_long_name_stored_witness :
    (path_long.length = 101 ∧ spec_stored_name path_long = path_long ∧
      0 ≤ (tar_write (fs_one path_long (st_regular 0) [] none) 1 { data := [], pos := 0 } []
        [path_long]).ret ∧
      slice (tar_write (fs_one path_long (st_regular 0) [] none) 1 { data := [], pos := 0 } []
        [path_long]).fd.data 0 101 = List.replicate 100 97 ++ [48]) ∧
    ∃ e, format_tar_data (fs_one path_long (st_regular 0) [] none) path_long = some e ∧
      slice e.block off_name 100 = (spec_stored_name path_long).take 100 :=
  ⟨by decide!, C21_long_name_stored (fs_one path_long (st_regular 0) [] none) path_long
    (st_regular 0) [117] (by decide) (by decide) rfl (by decide) (by decide!)⟩

/-! ## C22: what `oct2uint` reads -/

theorem oct2uint_loop_fold : ∀ (oct : List Nat) (size out : Nat),
    oct2uint_loop oct size out = ((cstr oct).take size).foldl octStep out := by
  intro oct
  induction oct with
  | nil => intro size out; simp [oct2uint_loop, cstr_nil]
  | cons c cs ih =>
    intro size out
    cases size with
    | zero => simp [oct2uint_loop]
    | succ n =>
      rw [oct2uint_loop]
      by_cases hc : c = 0
      · subst hc
        simp [cstr_cons_zero]
      · rw [if_neg hc, cstr_cons_ne c cs hc, List.take_succ_cons, List.foldl_cons]
        exact ih n _

theorem octStep_octal (out d : Nat) :
    octStep out (48 + d % 8) = (out * 8 + d % 8) % U32 := by
  unfold octStep
  have hd : d % 8 < 8 := Nat.mod_lt _ (by norm_num)
  have hc : charVal (48 + d % 8) = ((48 + d % 8 : Nat) : Int) := by
    unfold charVal
    have : (48 + d % 8) % 256 = 48 + d % 8 := Nat.mod_eq_of_lt (by omega)
    rw [this, if_pos (by omega)]
  have h1 : ((charVal (48 + d % 8) - 48) % (U32 : Int)).toNat = d % 8 := by
    rw [hc]
    have : (((48 + d % 8 : Nat) : Int) - 48) = ((d % 8 : Nat) : Int) := by push_cast; ring
    rw [this]
    have hlt : ((d % 8 : Nat) : Int) % (U32 : Int) = ((d % 8 : Nat) : Int) := by
      apply Int.emod_eq_of_lt (by omega)
      unfold U32; push_cast; omega
    rw [hlt, Int.toNat_ofNat]
  have h2 : (out <<< 3) % U32 = 2 ^ 3 * (out % 2 ^ 29) := by
    rw [Nat.shiftLeft_eq]
    unfold U32
    omega
  rw [h1, h2, ← Nat.mul_add_lt_is_or (by omega)]
  unfold U32
  omega

theorem foldl_octStep_octal (ds : List Nat) : ∀ (out v : Nat), out = v % U32 →
    (octal_bytes ds).foldl octStep out = (ds.foldl (fun v d => v * 8 + d % 8) v) % U32 := by
  induction ds with
  | nil => intro out v h; simpa [octal_bytes] using h
  | cons d ds ih =>
    intro out v h
    simp only [octal_bytes, List.map_cons, List.foldl_cons]
    apply ih
    rw [octStep_octal, h]
    unfold U32
    omega

theorem octal_bytes_nonzero (ds : List Nat) : ∀ b ∈ octal_bytes ds, b ≠ 0 := by
  intro b hb
  simp only [octal_bytes, List.mem_map] at hb
  obtain ⟨d, _, rfl⟩ := hb
  omega

/-- C22 (amended): for every byte string and length bound, `oct2uint` reads the
bytes in front of the first NUL, at most `size` of them, and takes every one of
them, octal digit or not, as a digit: each byte `c` turns the value `out` into
`(out << 3) | (unsigned int) (c - '0')`.  On a string of octal digits only, up to a
NUL or up to the bound, the result is the base-8 value of the digits modulo
`2 ^ 32`. -/
theorem C22_oct2uint_reads_all (oct : List Nat) (size : Nat) (ds rest : List Nat) (k : Nat) :
    oct2uint oct size = ((cstr oct).take size).foldl octStep 0 ∧
      oct2uint (octal_bytes ds ++ 0 :: rest) (ds.length + k) = octal_value ds % U32 ∧
      oct2uint (octal_bytes ds ++ rest) ds.length = octal_value ds % U32 := by
  have hlen : (octal_bytes ds).length = ds.length := by simp [octal_bytes]
  have hfold := foldl_octStep_octal ds 0 0 rfl
  refine ⟨oct2uint_loop_fold oct size 0, ?_, ?_⟩
  · unfold oct2uint octal_value
    rw [← hlen, oct2uint_loop_digits _ _ _ _ (octal_bytes_nonzero ds), hfold]
    cases k <;> simp [oct2uint_loop]
  · unfold oct2uint octal_value
    have := oct2uint_loop_digits (octal_bytes ds) rest 0 0 (octal_bytes_nonzero ds)
    rw [Nat.add_zero, hlen] at this
    rw [this, hfold]
    cases rest <;> simp [oct2uint_loop]

theorem C22_oct2uint_reads_all_witness :
    oct2uint [49, 50, 32, 0] 11 = ((cstr [49, 50, 32, 0]).take 11).foldl octStep 0 ∧
      oct2uint (octal_bytes [1, 2] ++ 0 :: [55]) ([1, 2].length + 9) = octal_value [1, 2] % U32 ∧
      oct2uint (octal_bytes [1, 2] ++ [55]) [1, 2].length = octal_value [1, 2] % U32 :=
  C22_oct2uint_reads_all [49, 50, 32, 0] 11 [1, 2] [55] 9

/-- C22 fails as stated for a byte that is not an octal digit: the loop of
`oct2uint` stops only at a NUL and at the bound.  The digits `12` followed by a NUL
decode to 10; followed by a space and a NUL they decode to 4294967280, the value 10
shifted left by three bits and ORed with `0xFFFFFFF0`, the bit pattern of
`' ' - '0'`. -/
theorem C22_counterexample :
    oct2uint [49, 50, 0] 11 = 10 ∧ oct2uint [49, 50, 32, 0] 11 = 4294967280 ∧
      octStep 10 32 = 4294967280 ∧ octal_bytes [1, 2] = [49, 50] ∧ octal_value [1, 2] = 10 := by
  decide

/-! ## C23: the value `tar_remove` returns -/

theorem bad_any_iff (A : List tar_t) (files : List (List Nat)) :
    (files.map (fun f => («exists» A f false).isNone)).any id = false ↔
      ∀ f ∈ files, ∃ a ∈ A, entry_name a = cstr f := by
  rw [Bool.eq_false_iff, Ne, List.any_eq_true]
  constructor
  · intro h f hf
    by_contra hne
    apply h
    refine ⟨_, List.mem_map_of_mem _ hf, ?_⟩
    exact (exists_name_isNone A f).mpr (fun e he hn => hne ⟨e, he, hn⟩)
  · rintro h ⟨b, hb, hid⟩
    obtain ⟨f, hf, rfl⟩ := List.mem_map.mp hb
    obtain ⟨a, ha, hn⟩ := h f hf
    exact (exists_name_isNone A f).mp hid a ha hn

/-- C23 (amended): for every archive file shorter than `2 ^ 31` bytes that consists
of contiguous entries from offset 0 on, each a 512-byte header followed by a payload
of the header's size rounded up to 512, where only regular and contiguous entries
have a non-zero size, and for every non-empty array of names, `tar_remove` called
with the list of these entries completes its loop and returns 0 if every name is the
name of an entry of the list, and -1 otherwise; in both cases the list holds
afterwards exactly the entries that are not named, and the file consists of their
headers and payloads followed by at least 1024 zero bytes. -/
theorem C23_remove_status (items : List (tar_t × List Nat)) (tail : List Nat) (pos : Nat)
    (files : List (List Nat)) (hitems : items ≠ []) (hfiles : files ≠ [])
    (hshape : ∀ it ∈ items, it.1.block.length = 512 ∧ it.2.length = padded (size_of it.1) ∧
      (is_file_type (type_of it.1) = false → size_of it.1 = 0))
    (hsmall : (item_bytes items).length < 2 ^ 31) :
    (tar_remove { data := item_bytes items ++ tail, pos := pos } (items.map Prod.fst)
      files).aborted = false ∧
    ((tar_remove { data := item_bytes items ++ tail, pos := pos } (items.map Prod.fst)
      files).ret = 0 ↔ ∀ f ∈ files, ∃ a ∈ items.map Prod.fst, entry_name a = cstr f) ∧
    ((tar_remove { data := item_bytes items ++ tail, pos := pos } (items.map Prod.fst)
      files).ret = 0 ∨
     (tar_remove { data := item_bytes items ++ tail, pos := pos } (items.map Prod.fst)
      files).ret = -1) ∧
    (tar_remove { data := item_bytes items ++ tail, pos := pos } (items.map Prod.fst)
      files).archive.map entry_content =
      ((items.map Prod.fst).filter (name_kept files)).map entry_content ∧
    ∃ k, (tar_remove { data := item_bytes items ++ tail, pos := pos } (items.map Prod.fst)
        files).fd.data =
        item_bytes (items.filter (fun it => name_kept files it.1)) ++ List.replicate k 0 ∧
      1024 ≤ k := by
  have hA' : (items.map Prod.fst).isEmpty = false := by cases items <;> simp_all
  have hf' : files.isEmpty = false := by cases files <;> simp_all
  obtain ⟨hab, hw, hpos, J', hdata⟩ := tar_remove_loop_file (items.map Prod.fst) files items [] []
    tail [] none (fun it hit => by
      obtain ⟨h1, h2, h3⟩ := hshape it hit
      exact ⟨⟨it.1, List.mem_map_of_mem _ hit, rfl⟩, h1, h2, h3⟩) rfl (by simpa using hsmall)
  simp only [List.nil_append, List.length_nil, Nat.add_zero] at hab hw hpos hdata
  have hlist := tar_remove_loop_list (items.map Prod.fst) files (items.map Prod.fst)
    { data := item_bytes items ++ tail, pos := 0 } 0 0 [] none (fun e he => ⟨e, he, rfl⟩) hab
  set S := item_bytes (items.filter (fun it => name_kept files it.1)) with hS
  have hSlen : S.length < 2 ^ 31 := by
    have := item_bytes_filter_length_le (fun it => name_kept files it.1) items
    rw [← hS] at this
    omega
  set st := tar_remove_loop ((files.map (fun f => («exists» (items.map Prod.fst) f false).isNone)))
    files { data := item_bytes items ++ tail, pos := 0 } 0 0 [] none (items.map Prod.fst) with hst
  have hfd : st.fd = { data := S ++ (J' ++ tail), pos := S.length } := by
    cases hfd : st.fd with
    | mk d p =>
      rw [hfd] at hdata hpos
      simp only at hdata hpos
      rw [hdata, hpos]
  have htr : ftruncate st.fd st.write_offset = { data := S, pos := S.length } := by
    rw [hfd, hw]
    exact ftruncate_prefix S (J' ++ tail) S.length
  obtain ⟨k, hk, hk1, _⟩ := write_end_data_at_end { data := S, pos := S.length } S.length
    rfl rfl
  have hres : tar_remove { data := item_bytes items ++ tail, pos := pos } (items.map Prod.fst)
      files = remove_result.mk
        (if (files.map (fun f => («exists» (items.map Prod.fst) f false).isNone)).any id
          then -1 else 0)
        st.archive (write_end_data { data := S, pos := S.length } (S.length : Int)).2 false := by
    unfold tar_remove
    simp only [hA', hf', Bool.false_eq_true, if_false]
    have hseek : lseek_set { data := item_bytes items ++ tail, pos := pos } 0 =
        { data := item_bytes items ++ tail, pos := 0 } := rfl
    rw [hseek, ← hst, hab]
    simp only [Bool.false_eq_true, if_false]
    rw [htr, hw, toInt32_small _ hSlen]
  rw [hres]
  have hbad := bad_any_iff (items.map Prod.fst) files
  refine ⟨rfl, ?_, ?_, ?_, k, hk, hk1⟩
  · show (if (files.map (fun f => («exists» (items.map Prod.fst) f false).isNone)).any id
      then (-1 : Int) else 0) = 0 ↔ _
    rw [← hbad]
    cases (files.map (fun f => («exists» (items.map Prod.fst) f false).isNone)).any id <;> simp
  · show (if (files.map (fun f => («exists» (items.map Prod.fst) f false).isNone)).any id
      then (-1 : Int) else 0) = 0 ∨ _ = -1
    cases (files.map (fun f => («exists» (items.map Prod.fst) f false).isNone)).any id <;> simp
  · show st.archive.map entry_content = _
    simpa using hlist

set_option maxRecDepth 1000000 in
theorem C23_remove_status_witness :
    ((tar_remove { data := item_bytes pair_items ++ List.replicate 9216 0, pos := 0 }
        (pair_items.map Prod.fst) [[97], [122]]).ret = -1 ∧
      (pair_items.filter (fun it => name_kept [[97], [122]] it.1)).map
        (fun it => entry_name it.1) = [[98]]) ∧
    (tar_remove { data := item_bytes pair_items ++ List.replicate 9216 0, pos := 0 }
      (pair_items.map Prod.fst) [[97], [122]]).aborted = false ∧
    ((tar_remove { data := item_bytes pair_items ++ List.replicate 9216 0, pos := 0 }
      (pair_items.map Prod.fst) [[97], [122]]).ret = 0 ↔
        ∀ f ∈ [[97], [122]], ∃ a ∈ pair_items.map Prod.fst, entry_name a = cstr f) ∧
    ((tar_remove { data := item_bytes pair_items ++ List.replicate 9216 0, pos := 0 }
      (pair_items.map Prod.fst) [[97], [122]]).ret = 0 ∨
     (tar_remove { data := item_bytes pair_items ++ List.replicate 9216 0, pos := 0 }
      (pair_items.map Prod.fst) [[97], [122]]).ret = -1) ∧
    (tar_remove { data := item_bytes pair_items ++ List.replicate 9216 0, pos := 0 }
      (pair_items.map Prod.fst) [[97], [122]]).archive.map entry_content =
      ((pair_items.map Prod.fst).filter (name_kept [[97], [122]])).map entry_content ∧
    ∃ k, (tar_remove { data := item_bytes pair_items ++ List.replicate 9216 0, pos := 0 }
        (pair_items.map Prod.fst) [[97], [122]]).fd.data =
        item_bytes (pair_items.filter (fun it => name_kept [[97], [122]] it.1)) ++
          List.replicate k 0 ∧
      1024 ≤ k :=
  ⟨by decide!, C23_remove_status pair_items (List.replicate 9216 0) 0 [[97], [122]]
    (List.cons_ne_nil _ _) (List.cons_ne_nil _ _) pair_items_shape
    (by rw [pair_items_length]; norm_num)⟩

set_option maxRecDepth 1000000 in
/-- C23 fails as stated for an archive that ends inside an entry.  `short_file` holds
the header of the empty file `a` and the header of the file `b` of 3 bytes, without
its payload; `tar_read` returns the list of the two entries.  `tar_remove` with the
one name `a`, which is the name of the first entry, returns -1: it leaves its loop
when it cannot read the payload block of `b`, and does not truncate the file. -/
theorem C23_counterexample :
    tar_read heap_empty { data := short_file, pos := 0 } =
      some { ret := 2, archive := short_list, fd := { data := short_file, pos := 1536 } } ∧
    («exists» short_list [97] false).isSome = true ∧
    (tar_remove { data := short_file, pos := 1536 } short_list [[97]]).ret = -1 ∧
    (tar_remove { data := short_file, pos := 1536 } short_list [[97]]).aborted = true ∧
    (tar_remove { data := short_file, pos := 1536 } short_list [[97]]).fd.data.length = 1024 := by
  decide!

/-! ## C24: the device number `extract_entry` passes to `mknod` -/

/-- The first seven of eight octal digits, as `oct2uint` reads them with the digit
count 7: the value without its last digit. -/
theorem oct2uint_seven_of_eight (mem : List Nat) (off v : Nat)
    (hs : slice mem off 8 = fixedOct 8 v) (hv : v < 8 ^ 8) :
    oct2uint (mem.drop off) 7 = v / 8 := by
  rw [drop_eq_slice_append mem off 8, hs]
  have h8 : fixedOct 8 v = fixedOct 7 (v / 8) ++ [48 + v % 8] := rfl
  rw [h8, List.append_assoc]
  exact oct2uint_fixedOct 7 (v / 8) 7 _ (by omega) (by unfold U32; omega) (le_refl _)
    (Or.inl rfl)

/-- C24 fails in the code: `extract_entry` reads the major and minor fields with
the digit count 7, while `format_tar_data` writes them with `%08o`.  For every
character- or block-device entry whose fields hold the eight octal digits of `M`
and `m`, the mode passed to `mknod` is the type bit ORed with the permission bits,
but the device number is made of `M / 8` and `m / 8`, the fields without their
last digit, and not of `M` and `m`. -/
theorem C24_device_number (env : extract_env) (fuel : Nat) (fd : fd_t) (e : tar_t) (M m : Nat)
    (ht : type_of e = CHAR ∨ type_of e = BLOCK)
    (hM : slice e.block off_major 8 = fixedOct 8 M) (hm : slice e.block off_minor 8 = fixedOct 8 m)
    (hMb : M < 8 ^ 8) (hmb : m < 8 ^ 8) :
    extract_entry env fuel fd e =
      some { ret := if exist_error (env.errno_of (fs_call.mknod (cstr e.block)
                 ((if type_of e = CHAR then S_IFCHR else S_IFBLK) |||
                   (oct2uint (e.block.drop off_mode) 7 &&& 0o777))
                 ((((M / 8) <<< 20) % U32) ||| (m / 8)))) then -1 else 0,
             fd := fd, written := [] } := by
  have h1 := oct2uint_seven_of_eight e.block off_major M hM hMb
  have h2 := oct2uint_seven_of_eight e.block off_minor m hm hmb
  unfold extract_entry
  simp only [h1, h2]
  rcases ht with ht | ht
  · rw [ht]
    simp [is_file_type, CHAR, REGULAR, NORMAL, CONTIGUOUS, HARDLINK, SYMLINK]
  · rw [ht]
    simp [is_file_type, CHAR, BLOCK, REGULAR, NORMAL, CONTIGUOUS, HARDLINK, SYMLINK]

set_option maxRecDepth 1000000 in
theorem chardev_entry_facts :
    (format_tar_data (fs_one path_f st_chardev [] none) path_f).map
      (fun e => (type_of e, slice e.block off_major 8, slice e.block off_minor 8, cstr e.block,
        oct2uint (e.block.drop off_mode) 7)) =
      some (CHAR, fixedOct 8 1, fixedOct 8 1, path_f, 0o644) := by
  decide!

theorem C24_device_number_witness :
    (st_chardev.dev_major = 1 ∧ st_chardev.dev_minor = 1 ∧ (1 <<< 20) ||| 1 = 1048577) ∧
    ∃ e, format_tar_data (fs_one path_f st_chardev [] none) path_f = some e ∧
      ∀ (env : extract_env) (fuel : Nat) (fd : fd_t),
        extract_entry env fuel fd e =
          some { ret := if exist_error (env.errno_of
                     (fs_call.mknod path_f (S_IFCHR ||| 0o644) 0)) then -1 else 0,
                 fd := fd, written := [] } := by
  refine ⟨by decide, ?_⟩
  have hf := chardev_entry_facts
  cases he : format_tar_data (fs_one path_f st_chardev [] none) path_f with
  | none => rw [he] at hf; simp at hf
  | some e =>
    rw [he, Option.map_some', Option.some.injEq] at hf
    simp only [Prod.mk.injEq] at hf
    obtain ⟨h1, h2, h3, h4, h5⟩ := hf
    refine ⟨e, rfl, fun env fuel fd => ?_⟩
    have h := C24_device_number env fuel fd e 1 1 (Or.inl h1) h2 h3 (by norm_num) (by norm_num)
    rw [h1, h4, h5] at h
    exact h

/-! ## C25: the exit status of `main` for a bad option -/

theorem parse_options_bad : ∀ (opt : List Nat) (fl : main_flags),
    (∃ b ∈ cstr opt, b ∉ [97, 99, 100, 108, 114, 117, 120, 118, 45]) →
    parse_options opt fl = none := by
  intro opt
  induction opt with
  | nil => intro fl h; simp [cstr] at h
  | cons ch rest ih =>
    intro fl h
    by_cases h0 : ch = 0
    · subst h0
      rw [cstr_cons_zero] at h
      simp at h
    · rw [cstr_cons_ne ch rest h0] at h
      obtain ⟨b, hb, hbad⟩ := h
      rw [parse_options, if_neg h0]
      rcases List.mem_cons.mp hb with rfl | hb
      · simp only [List.mem_cons, List.mem_singleton, List.not_mem_nil, or_false, not_or] at hbad
        obtain ⟨h1, h2, h3, h4, h5, h6, h7, h8, h9⟩ := hbad
        simp only [h1, h2, h3, h4, h5, h6, h7, h8, h9, if_false]
      · have hr := fun fl => ih fl ⟨b, hb, hbad⟩
        split_ifs
        all_goals first
          | exact hr _
          | rfl

/-- C25 fails in the code for a bad option letter: the `default` branch of the
`switch` in `main` prints the error and executes `return 0`.  For every option
string that holds a byte outside `acdlruxv-`, `main` returns the status 0, whatever
modes the string selects. -/
theorem C25_bad_option_status (opt : List Nat)
    (h : ∃ b ∈ cstr opt, b ∉ [97, 99, 100, 108, 114, 117, 120, 118, 45]) :
    main_options opt = main_step.stop 0 := by
  unfold main_options
  rw [parse_options_bad opt _ h]

theorem C25_bad_option_status_witness :
    main_options [120, 122] = main_step.stop 0 ∧ main_options [99, 120] = main_step.stop (-1) ∧
      main_options [] = main_step.stop (-1) :=
  ⟨C25_bad_option_status [120, 122] ⟨122, by decide, by decide⟩, by decide, by decide⟩

/-! ## C26: the list after `tar_write` and the headers in the file -/

set_option maxRecDepth 1000000 in
/-- C26 fails in the code for directories.  `write_entries` adds the 512 bytes of the
header of a directory to `*offset` only after the directory has been gone through,
and after a directory its slot pointer is left on the last node of the list.  With
the arguments `a.txt` and `sub`, `tar_write` succeeds and the node of `sub/b.txt`
gets the `begin` 1024, the offset of the header of `sub/`, while its own header is
written at 1536.  With the arguments `d`, an empty directory, and `f`, an empty
file, `tar_write` succeeds and writes the headers of `d/` and `f` at 0 and 512, and
the list holds one node: the node of `f` has replaced that of `d`. -/
theorem C26_list_and_headers :
    ((tar_write fs_tree 3 { data := [], pos := 0 } [] [name_a_txt, name_sub]).ret = 2560 ∧
      (tar_write fs_tree 3 { data := [], pos := 0 } [] [name_a_txt, name_sub]).archive.map
          (fun e => (cstr e.original_name, e.begin)) =
        [(name_a_txt, 0), (name_sub, 1024), (name_sub_b, 1024)] ∧
      entry_name (header_entry (slice tree_file 1024 512)) = name_sub ++ [47] ∧
      entry_name (header_entry (slice tree_file 1536 512)) = name_sub_b) ∧
    ((tar_write fs_dir_file 2 { data := [], pos := 0 } [] [[100], [102]]).ret = 1024 ∧
      (tar_write fs_dir_file 2 { data := [], pos := 0 } [] [[100], [102]]).archive.map
          (fun e => (cstr e.original_name, e.begin)) = [([102], 512)] ∧
      entry_name (header_entry (slice
        (tar_write fs_dir_file 2 { data := [], pos := 0 } [] [[100], [102]]).fd.data 0 512)) =
        [100, 47] ∧
      entry_name (header_entry (slice
        (tar_write fs_dir_file 2 { data := [], pos := 0 } [] [[100], [102]]).fd.data 512
          512)) = [102]) := by
  obtain ⟨h1, _, _, h3, _, _, _, hlist⟩ := tree_file_facts
  exact ⟨⟨h1, hlist, h3.2.1, h3.2.2⟩, by decide!⟩

/-! ## C27: the `/` at the end of a directory name -/

set_option maxRecDepth 1000000 in
/-- C27 fails in the code for a directory name of 99 bytes: `write_entries` appends
the `/` only under the test `len < 99`.  For the empty directory whose name is 99
bytes `d`, `tar_write` on an empty archive succeeds and the name in the header it
writes is the 99 bytes, the last of them a `d` and not a `/`. -/
theorem C27_name_of_99_bytes :
    (tar_write (fs_dir_at (List.replicate 99 100)) 2 { data := [], pos := 0 } []
        [List.replicate 99 100]).ret = 512 ∧
      written_dir_name (List.replicate 99 100) = List.replicate 99 100 ∧
      (written_dir_name (List.replicate 99 100)).getLast? = some 100 := by
  decide!

/-! ## C28: names are compared for equality -/

theorem extract_match_isSome (e : tar_t) (files : List (List Nat)) :
    (extract_match e files).isSome = true ↔ ∃ f ∈ files, entry_name e = cstr f := by
  unfold extract_match
  simp only
  split_ifs with h
  · simp only [Option.isSome_some, true_iff]
    rw [List.findIdx_lt_length] at h
    obtain ⟨f, hf, hp⟩ := h
    exact ⟨f, hf, (strncmp_eq0_max _ e.block f (le_refl _)).mp hp⟩
  · simp only [Option.isSome_none, Bool.false_eq_true, false_iff]
    have h' := (List.findIdx_eq_length.mp
      (Nat.le_antisymm (List.findIdx_le_length _) (Nat.not_lt.mp h)))
    rintro ⟨f, hf, hn⟩
    have := h' f hf
    rw [(strncmp_eq0_max _ e.block f (le_refl _)).mpr hn] at this
    simp at this

set_option maxRecDepth 1000000 in
/-- C28: the three name tests compare whole strings.  For every list, entry and
argument, `exists` finds a node exactly when the name of some node equals the
argument as a C string, `check_match` (with no name marked as missing) returns
non-zero exactly when the name of the entry equals one of the arguments, and the
loop of `tar_extract` selects an entry exactly when its name equals one of the
arguments.  The argument `sub` selects neither `sub/` nor `sub/b.txt`. -/
theorem C28_exact_names :
    (∀ (A : List tar_t) (f : List Nat),
      («exists» A f false).isSome = true ↔ ∃ a ∈ A, entry_name a = cstr f) ∧
    (∀ (e : tar_t) (files : List (List Nat)),
      check_match e (files.map (fun _ => false)) files ≠ 0 ↔
        ∃ f ∈ files, entry_name e = cstr f) ∧
    (∀ (e : tar_t) (files : List (List Nat)),
      (extract_match e files).isSome = true ↔ ∃ f ∈ files, entry_name e = cstr f) ∧
    («exists» [entry_named (name_sub ++ [47]), entry_named name_sub_b] name_sub false = none ∧
      check_match (entry_named (name_sub ++ [47])) [false] [name_sub] = 0 ∧
      check_match (entry_named name_sub_b) [false] [name_sub] = 0 ∧
      extract_match (entry_named (name_sub ++ [47])) [name_sub] = none ∧
      extract_match (entry_named name_sub_b) [name_sub] = none ∧
      extract_match (entry_named name_sub) [name_sub] = some 0) := by
  refine ⟨?_, ?_, extract_match_isSome, by decide!⟩
  · intro A f
    have h := exists_name_isNone A f
    cases hx : «exists» A f false with
    | none =>
      rw [hx] at h
      simp only [Option.isSome_none, Bool.false_eq_true, false_iff]
      rintro ⟨a, ha, hn⟩
      exact (h.mp rfl) a ha hn
    | some i =>
      rw [hx] at h
      simp only [Option.isSome_some, true_iff]
      by_contra hne
      have : (some i : Option Nat).isNone = true :=
        h.mpr (fun e he hn => hne ⟨e, he, hn⟩)
      simp at this
  · intro e files
    have h := (check_match_loop_spec e (fun _ => false) files 0).2
    unfold check_match
    rw [Ne, h]
    constructor
    · intro hne
      by_contra hex
      exact hne (fun f hf => Or.inr (fun hn => hex ⟨f, hf, hn⟩))
    · rintro ⟨f, hf, hn⟩ hall
      rcases hall f hf with h1 | h1
      · simp at h1
      · exact h1 hn

/-! ## C29: the payload loop of `extract_entry` at the end of the archive -/

/-- The payload loop does not leave when fewer bytes are left in the archive than
the entry still needs: every read returns what is there, in the end nothing, and
`got` stays below `size`. -/
theorem extract_copy_short : ∀ (fuel : Nat) (fd : fd_t) (size got : Nat)
    (written : List (List Nat)), size < U32 → got < size →
    fd.data.length - fd.pos < size - got → extract_copy fuel fd size got written = none := by
  intro fuel
  induction fuel with
  | zero => intro fd size got written _ _ _; rfl
  | succ k ih =>
    intro fd size got written hs hg hshort
    rw [extract_copy, if_pos hg]
    simp only [read_size_eq]
    have hl : ∀ n, ((fd.data.drop fd.pos).take n).length = min n (fd.data.length - fd.pos) := by
      intro n
      rw [List.length_take, List.length_drop]
    generalize (if (size + U32 - got) % U32 < 512 then (size + U32 - got) % U32 else 512) = n
    have hlen := hl n
    have hmod : (got + ((fd.data.drop fd.pos).take n).length) % U32 =
        got + ((fd.data.drop fd.pos).take n).length := Nat.mod_eq_of_lt (by omega)
    rw [hmod]
    apply ih
    · exact hs
    · omega
    · simp only
      omega

/-- C29 fails in the code: the loop `while (got < size)` of `extract_entry` has no
exit for a read that returns 0 bytes.  For every regular or contiguous entry with a
non-empty name for which the archive holds fewer than `size` bytes from the offset
`512 + begin` on, when the directories and the output file can be made, the loop is still running after any number of
iterations: `extract_entry` does not return. -/
theorem C29_copy_loop_spins (env : extract_env) (fd : fd_t) (entry : tar_t)
    (ht : is_file_type (type_of entry) = true) (hname : cstr entry.block ≠ [])
    (hshort : fd.data.length - (512 + entry.begin) % U32 < size_of entry)
    (hmk : 0 ≤ recursive_mkdir env
      ((cstr entry.block).take (parent_len ((cstr entry.block).length - 1) (cstr entry.block)))
      DEFAULT_DIR_MODE)
    (hopen : env.errno_of (fs_call.open_create (cstr entry.block)
      (oct2uint (entry.block.drop off_mode) 7 &&& 0o777)) = none)
    (fuel : Nat) : extract_entry env fuel fd entry = none := by
  have hsz : size_of entry < U32 := oct2uint_lt _ _
  have hrun := extract_copy_short fuel (lseek_set fd ((512 + entry.begin) % U32))
    (size_of entry) 0 [] hsz
  have hlen0 : (cstr entry.block).length ≠ 0 := by
    intro h0; exact hname (List.length_eq_zero.mp h0)
  unfold extract_entry
  simp only [ht, if_true, hlen0, if_false, not_lt.mpr hmk, hopen, Option.isSome_none,
    Bool.false_eq_true]
  unfold size_of at hrun hshort
  rw [hrun (by omega) (by simp only [lseek_set]; omega)]

set_option maxRecDepth 1000000 in
theorem C29_copy_loop_spins_witness :
    (∃ fd1, tar_read heap_empty { data := hdr_file 3, pos := 0 } =
      some { ret := 1, archive := [small_entry], fd := fd1 }) ∧
    ∀ fuel, extract_entry env_ok fuel { data := hdr_file 3, pos := 512 } small_entry = none :=
  ⟨⟨{ data := hdr_file 3, pos := 1024 }, by decide!⟩,
   fun fuel => C29_copy_loop_spins env_ok { data := hdr_file 3, pos := 512 } small_entry
    (by decide!) (by decide!) (by decide!) (by decide!) rfl fuel⟩

/-! ## C30: the span of an entry -/

/-- The node and the bytes of the branch of `write_entries` for an entry that is not
a directory, when the payload has the length the header states: the node `e1` put
into the list is `e` or the hard link made of it, and the header and the padded
payload of `e1` are what is written. -/
theorem write_file_span (fs : fs_t) (st : write_state) (e : tar_t) (filename : List Nat)
    (hb : e.block.length = 512)
    (hs : if is_file_type (type_of e) then
        ∀ c, fs.open_read (cstr e.block) = some c → c.length = size_of e
      else size_of e = 0)
    (hok : 0 ≤ (write_file fs st e filename).ret) :
    ∃ e1 : tar_t, (write_file fs st e filename).st.archive = st.archive.take st.cur ++ [e1] ∧
      e1.begin = e.begin ∧ e1.block.length = 512 ∧ size_of e1 ≤ size_of e ∧
      (is_file_type (type_of e1) = false → size_of e1 = 0) ∧
      (write_file fs st e filename).st.fd.pos = st.fd.pos + (512 + padded (size_of e1)) := by
  unfold write_file at hok ⊢
  simp only at hok ⊢
  generalize (if (is_file_type (type_of e) || type_of e == SYMLINK) = true then
    «exists» (List.take st.cur st.archive ++ [e]) filename true != some st.cur else false) =
      tarred at hok ⊢
  have hfacts : ∀ e1 : tar_t, e1 = (if tarred = true then (calculate_checksum
      { original_name := e.original_name, begin := e.begin,
        block := poke (poke (poke e.block off_type [HARDLINK]) off_link_name
          (strncpy (cstr (poke e.block off_type [HARDLINK])) 100)) off_size
          (List.replicate 11 48) }).1 else e) →
      e1.block.length = 512 ∧
      ((is_file_type (type_of e1) && !tarred) = true →
        ∀ c, fs.open_read (cstr e1.block) = some c → c.length = size_of e1) ∧
      (¬ (is_file_type (type_of e1) && !tarred) = true → size_of e1 = 0) ∧
      e1.begin = e.begin ∧ size_of e1 ≤ size_of e ∧
      (is_file_type (type_of e1) = false → size_of e1 = 0) := by
    intro e1 he1
    cases tarred with
    | true =>
      simp only [if_true] at he1
      obtain ⟨ht, hz⟩ := hardlink_header e hb
      subst he1
      refine ⟨by simp [hb], by simp, fun _ => hz, calculate_checksum_begin _,
        le_of_eq_of_le hz (Nat.zero_le _), fun _ => hz⟩
    | false =>
      simp only [Bool.false_eq_true, if_false] at he1
      subst he1
      refine ⟨hb, ?_, ?_, rfl, le_refl _, ?_⟩
      · intro hc
        simp only [Bool.not_false, Bool.and_true] at hc
        rw [if_pos hc] at hs
        exact hs
      · intro hc
        simp only [Bool.not_false, Bool.and_true] at hc
        rw [if_neg hc] at hs
        exact hs
      · intro hc
        rw [hc] at hs
        simpa using hs
  generalize (if tarred = true then (calculate_checksum
    { original_name := e.original_name, begin := e.begin,
      block := poke (poke (poke e.block off_type [HARDLINK]) off_link_name
        (strncpy (cstr (poke e.block off_type [HARDLINK])) 100)) off_size
        (List.replicate 11 48) }).1 else e) = e1 at hfacts hok ⊢
  obtain ⟨F1, F2, F3, F4, F5, F6⟩ := hfacts e1 rfl
  clear hfacts
  have hfd1 : (write_size st.fd e1.block).pos = st.fd.pos + 512 := by
    rw [write_size, sys_write_pos, F1]
  have tail : ∀ fd2 : fd_t, fd2.pos = st.fd.pos + 512 + size_of e1 →
      (if 512 - size_of e1 % 512 ≠ 512 then
        write_size fd2 (List.replicate (512 - size_of e1 % 512) 0) else fd2).pos =
        st.fd.pos + (512 + padded (size_of e1)) := by
    intro fd2 h2
    unfold padded
    split_ifs with hp
    · simp only [write_size, sys_write_pos, List.length_replicate, h2]
      omega
    · rw [h2]
      omega
  refine ⟨e1, ?_, F4, F1, F5, F6, ?_⟩
  · by_cases hc : (is_file_type (type_of e1) && !tarred) = true
    · rw [if_pos hc] at hok ⊢
      cases hr : fs.open_read (cstr e1.block) with
      | none =>
        rw [hr] at hok
        simp [write_error] at hok
      | some c => rfl
    · rw [if_neg hc]
  · by_cases hc : (is_file_type (type_of e1) && !tarred) = true
    · rw [if_pos hc] at hok ⊢
      cases hr : fs.open_read (cstr e1.block) with
      | none =>
        rw [hr] at hok
        simp [write_error] at hok
      | some c =>
        simp only
        have hcl := F2 hc c hr
        exact tail _ (by rw [copy_file_pos _ _ _ (by simp), hfd1]; simp [hcl])
    · rw [if_neg hc]
      simp only
      exact tail _ (by rw [hfd1, F3 hc])

/-- C30 (amended): for every entry that `write_entries` emits in its branch for
entries that are not directories, made of a 512-byte header `e` whose size field
is zero unless the type is regular or contiguous, in which case it is the length of
the file that is copied, and for which `begin + 512 +` the padded size is below
`2 ^ 31`: for the node `e1` put into the list (`e`, or the hard link made of it),
the span `tar_remove` counts, the span `tar_read` adds to its offset, the distance
from `begin` at which `tar_write` appends and the number of bytes written for the
entry are all 512 plus the size rounded up to a multiple of 512. -/
theorem C30_spans_agree (fs : fs_t) (st : write_state) (e : tar_t) (filename : List Nat)
    (hb : e.block.length = 512)
    (hs : if is_file_type (type_of e) then
        ∀ c, fs.open_read (cstr e.block) = some c → c.length = size_of e
      else size_of e = 0)
    (hsmall : e.begin + 512 + padded (size_of e) < 2 ^ 31)
    (hok : 0 ≤ (write_file fs st e filename).ret) :
    ∃ e1 : tar_t, (write_file fs st e filename).st.archive = st.archive.take st.cur ++ [e1] ∧
      remove_total e1 = ((512 + padded (size_of e1) : Nat) : Int) ∧
      (512 + read_jump e1) % U32 = 512 + padded (size_of e1) ∧
      write_start e1 = ((e1.begin + (512 + padded (size_of e1)) : Nat) : Int) ∧
      (write_file fs st e filename).st.fd.pos = st.fd.pos + (512 + padded (size_of e1)) := by
  obtain ⟨e1, h1, h2, h3, h4, h5, h6⟩ := write_file_span fs st e filename hb hs hok
  have hp : padded (size_of e1) ≤ padded (size_of e) := by
    unfold padded
    omega
  have hp1 := padded_ge (size_of e1)
  refine ⟨e1, h1, ?_, ?_, ?_, h6⟩
  · have := remove_total_eq e1 (List.replicate (padded (size_of e1)) 0)
      (List.length_replicate _ _) h5 (by rw [List.length_replicate]; omega)
    rw [List.length_replicate] at this
    exact this
  · rw [read_jump_eq_padded e1 (by omega), Nat.mod_eq_of_lt (by unfold U32; omega)]
  · have := write_start_eq e1 (by unfold append_start; omega)
    rw [this]
    unfold append_start
    congr 1
    omega

set_option maxRecDepth 1000000 in
theorem file_entry_a_facts :
    is_file_type (type_of file_entry_a) = true ∧ cstr file_entry_a.block = [97] ∧
      size_of file_entry_a = 3 ∧
      0 ≤ (write_file (fs_one [97] (st_regular 3) [1, 2, 3] none) empty_state file_entry_a
        [97]).ret ∧
      (write_file (fs_one [97] (st_regular 3) [1, 2, 3] none) empty_state file_entry_a
        [97]).st.archive = [file_entry_a] := by
  decide!

theorem C30_spans_agree_witness :
    (size_of file_entry_a = 3 ∧ padded 3 = 512) ∧
    ∃ e1 : tar_t,
      (write_file (fs_one [97] (st_regular 3) [1, 2, 3] none) empty_state file_entry_a
        [97]).st.archive = empty_state.archive.take empty_state.cur ++ [e1] ∧
      remove_total e1 = ((512 + padded (size_of e1) : Nat) : Int) ∧
      (512 + read_jump e1) % U32 = 512 + padded (size_of e1) ∧
      write_start e1 = ((e1.begin + (512 + padded (size_of e1)) : Nat) : Int) ∧
      (write_file (fs_one [97] (st_regular 3) [1, 2, 3] none) empty_state file_entry_a
        [97]).st.fd.pos = empty_state.fd.pos + (512 + padded (size_of e1)) := by
  obtain ⟨h1, h2, h3, h4, _⟩ := file_entry_a_facts
  refine ⟨⟨h3, by decide⟩, ?_⟩
  apply C30_spans_agree (fs_one [97] (st_regular 3) [1, 2, 3] none) empty_state file_entry_a
    [97] (hdr_file_length 3)
  · rw [if_pos h1, h2, h3]
    intro c hc
    have : (fs_one [97] (st_regular 3) [1, 2, 3] none).open_read [97] = some [1, 2, 3] := by
      decide
    rw [this] at hc
    rw [← Option.some.inj hc]
    rfl
  · rw [h3]
    decide
  · exact h4

set_option maxRecDepth 1000000 in
/-- C30 fails as stated for a header that is not of a regular file and has a size.
For the header `format_tar_data` makes of the directory `d`, whose `lstat` reports
the size 4096, `tar_remove` counts a span of 512 bytes, `tar_read` adds 4608 to its
offset, `tar_write` appends 4608 bytes behind `begin`, and `write_entries` writes
512 bytes for the entry. -/
theorem C30_counterexample :
    (format_tar_data fs_dir [100]).map
      (fun e => (type_of e, size_of e, remove_total e, (512 + read_jump e) % U32, write_start e))
      = some (DIRECTORY, 4096, 512, 4608, 4608) ∧
    (write_entries fs_dir 2 empty_state [[100]]).ret = 0 ∧
    (write_entries fs_dir 2 empty_state [[100]]).st.fd.pos = 512 ∧
    (write_entries fs_dir 2 empty_state [[100]]).st.fd.data.length = 512 := by
  decide!

end Tar
